import Mathlib

/-!
# The gamma game engine (`gamma.c`, `queue.c`, `auxiliary_functions.c`)

A shallow embedding of the game-state engine and a verification of its
bookkeeping: the board is a function from coordinates to owner ids, the
per-player arrays are functions from player ids to their entries, the
pointer-linked FIFO queue of `queue.c` is a list, and every operation that
mutates the `gamma_t` structure returns the new structure next to its result.
Unsigned 32- and 64-bit arithmetic is written out with explicit reductions
modulo `2^32` and `2^64`.  Memory allocation is assumed to succeed.  A second
copy of the functions checks every array index against the size of its array.
The string of `gamma_board` is the list of its characters, and a copy of the
breadth-first search records its calls of `enqueue`.
-/

namespace Gamma

/-! ## Machine integers -/

/-- The largest `uint32_t` value. -/
def UINT32_MAX : Nat := 4294967295

/-- The limit on the number of fields of a board (`BOARD_SIZE_HARD_LIMIT`). -/
def BOARD_SIZE_HARD_LIMIT : Nat := UINT32_MAX

/-- Conversion of an integer result to `uint32_t` (reduction modulo `2^32`). -/
def to_u32 (i : Int) : Nat := (i % 4294967296).toNat

/-- Conversion of an integer result to `uint64_t` (reduction modulo `2^64`). -/
def to_u64 (i : Int) : Nat := (i % 18446744073709551616).toNat

/-! ## `queue.h` / `queue.c` -/

/-- A field of the board (`field_t`). -/
structure field_t where
  x : Nat
  y : Nat
deriving DecidableEq

/-- The FIFO queue (`queue_t`): the linked list from `start` to `end`, front first. -/
abbrev queue_t := List field_t

/-- The empty queue (`init_queue`). -/
def init_queue : queue_t := []

/-- Test `queue.start == NULL` (`empty_queue`). -/
def empty_queue (queue : queue_t) : Bool := queue.isEmpty

/-- Append a field at the end of the queue (`enqueue`). -/
def enqueue (queue : queue_t) (field : field_t) : queue_t := queue ++ [field]

/-- Remove the front of the queue (`dequeue`); only called on a non-empty queue. -/
def dequeue (queue : queue_t) : Option (field_t × queue_t) :=
  match queue with
  | [] => none
  | field :: rest => some (field, rest)

/-! ## `struct gamma` -/

/-- The game state (`struct gamma`). -/
structure gamma_t where
  board : Nat → Nat → Nat
  busy_fields : Nat → Nat
  free_fields : Nat → Nat
  areas : Nat → Nat
  golden_move_available : Nat → Bool
  all_free_fields : Nat
  players : Nat
  max_areas : Nat
  width : Nat
  height : Nat

/-- The scratch board of marks used by the breadth-first search (`bool **visited`). -/
abbrev visited_t := Nat → Nat → Bool

/-- The freshly allocated (`calloc`) board of marks returned by `init_board`. -/
def init_board : visited_t := fun _ _ => false

/-- Assignment `visited[x][y] = true`. -/
def mark (visited : visited_t) (x y : Nat) : visited_t :=
  fun a b => if a = x ∧ b = y then true else visited a b

/-- Assignment `g->board[x][y] = value`. -/
def set_board (g : gamma_t) (x y value : Nat) : gamma_t :=
  { g with board := fun a b => if a = x ∧ b = y then value else g.board a b }

/-- Assignment `array[i] = value` for the per-player arrays. -/
def set_entry {α : Type} (array : Nat → α) (i : Nat) (value : α) : Nat → α :=
  fun j => if j = i then value else array j

/-! ## Fields around a field -/

/-- Is some neighbour of `(x, y)` owned by `player` (`player_fields_around`). -/
def player_fields_around (g : gamma_t) (player x y : Nat) : Bool :=
  (x != 0 && g.board (x - 1) y == player)
  || (x != UINT32_MAX && decide (x + 1 < g.width) && g.board (x + 1) y == player)
  || (y != 0 && g.board x (y - 1) == player)
  || (y != UINT32_MAX && decide (y + 1 < g.height) && g.board x (y + 1) == player)

/-- The inner loop of `count_free_fields`: `y` runs over `0 .. height - 1`. -/
def count_free_fields_column (g : gamma_t) (player x : Nat) : Nat → Nat
  | 0 => 0
  | y + 1 =>
    count_free_fields_column g player x y
      + (if player_fields_around g player x y && g.board x y == 0 then 1 else 0)

/-- The outer loop of `count_free_fields`: `x` runs over `0 .. width - 1`. -/
def count_free_fields_upto (g : gamma_t) (player : Nat) : Nat → Nat
  | 0 => 0
  | x + 1 => count_free_fields_upto g player x + count_free_fields_column g player x g.height

/-- The number of free fields next to a field of `player` (`count_free_fields`). -/
def count_free_fields (g : gamma_t) (player : Nat) : Nat :=
  to_u64 (count_free_fields_upto g player g.width)

/-! ## Breadth-first search -/

/-- Which member of the field the pointer `coordinate` addresses. -/
inductive coordinate_t where
  | x
  | y
deriving DecidableEq

/-- The field after `(*coordinate) += factor`. -/
def shift (field : field_t) (coordinate : coordinate_t) (factor : Int) : field_t :=
  match coordinate with
  | .x => { field with x := ((field.x : Int) + factor).toNat }
  | .y => { field with y := ((field.y : Int) + factor).toNat }

/-- Enqueue and mark one neighbour of `field` if it is unmarked and owned by
`player` (`add_to_queue`). -/
def add_to_queue (g : gamma_t) (visited : visited_t) (queue : queue_t) (field : field_t)
    (player : Nat) (coordinate : coordinate_t) (factor : Int) : visited_t × queue_t :=
  let field := shift field coordinate factor
  if visited field.x field.y == false && g.board field.x field.y == player then
    (mark visited field.x field.y, enqueue queue field)
  else
    (visited, queue)

/-- Enqueue the neighbours of `field` (`add_to_queue_fields_around`). -/
def add_to_queue_fields_around (g : gamma_t) (visited : visited_t) (queue : queue_t)
    (field : field_t) (player : Nat) : visited_t × queue_t :=
  let s1 :=
    if field.x ≠ 0 then add_to_queue g visited queue field player .x (-1)
    else (visited, queue)
  let s2 :=
    if field.x ≠ UINT32_MAX ∧ field.x + 1 < g.width then
      add_to_queue g s1.1 s1.2 field player .x 1
    else s1
  let s3 :=
    if field.y ≠ 0 then add_to_queue g s2.1 s2.2 field player .y (-1)
    else s2
  if field.y ≠ UINT32_MAX ∧ field.y + 1 < g.height then
    add_to_queue g s3.1 s3.2 field player .y 1
  else s3

/-- The `do ... while(!empty_queue(queue))` loop of `make_BFS`; the first
argument bounds the number of iterations. -/
def make_BFS_loop (g : gamma_t) (player : Nat) :
    Nat → visited_t → queue_t → field_t → visited_t
  | 0, visited, _, _ => visited
  | fuel + 1, visited, queue, field =>
    let front :=
      match dequeue queue with
      | some (first, rest) => (first, rest)
      | none => (field, queue)
    let s := add_to_queue_fields_around g visited front.2 front.1 player
    if empty_queue s.2 then s.1 else make_BFS_loop g player fuel s.1 s.2 front.1

/-- Mark the whole area of `player` that contains `field` (`make_BFS`).  Every
iteration of the loop removes one field from the queue and a field enters the
queue only when it gets its mark, so `width * height + 1` iterations are enough
(`make_BFS_loop_fuel` below). -/
def make_BFS (g : gamma_t) (player : Nat) (visited : visited_t) (field : field_t) :
    visited_t :=
  let queue := enqueue init_queue field
  let visited := mark visited field.x field.y
  make_BFS_loop g player (g.width * g.height + 1) visited queue field

/-- Search the area of one neighbour of `field` if that neighbour is unmarked
and owned by `player` (`is_another_area`). -/
def is_another_area (g : gamma_t) (visited : visited_t) (field : field_t) (player : Nat)
    (coordinate : coordinate_t) (factor : Int) : visited_t × Bool :=
  let field := shift field coordinate factor
  if visited field.x field.y == false && g.board field.x field.y == player then
    (make_BFS g player visited field, true)
  else
    (visited, false)

/-- The marks and the counter of `number_of_connected_areas` after its four steps. -/
def connected_areas_scan (g : gamma_t) (player x y : Nat) : visited_t × Nat :=
  let field : field_t := { x := x, y := y }
  let s0 : visited_t × Nat := (init_board, 0)
  let s1 :=
    if field.x ≠ 0 then
      let r := is_another_area g s0.1 field player .x (-1)
      (r.1, s0.2 + r.2.toNat)
    else s0
  let s2 :=
    if field.x ≠ UINT32_MAX ∧ field.x + 1 < g.width then
      let r := is_another_area g s1.1 field player .x 1
      (r.1, s1.2 + r.2.toNat)
    else s1
  let s3 :=
    if field.y ≠ 0 then
      let r := is_another_area g s2.1 field player .y (-1)
      (r.1, s2.2 + r.2.toNat)
    else s2
  if field.y ≠ UINT32_MAX ∧ field.y + 1 < g.height then
    let r := is_another_area g s3.1 field player .y 1
    (r.1, s3.2 + r.2.toNat)
  else s3

/-- The number of areas of `player` around `(x, y)` (`number_of_connected_areas`). -/
def number_of_connected_areas (g : gamma_t) (player x y : Nat) : Nat :=
  (connected_areas_scan g player x y).2

/-- The number of areas of `owner` around `(x, y)` once the field is taken
away from `owner` (`number_of_split_areas`); the field is emptied, the areas
are counted and the owner is written back. -/
def number_of_split_areas (g : gamma_t) (owner x y : Nat) : gamma_t × Nat :=
  let g1 := set_board g x y 0
  let number := number_of_connected_areas g1 owner x y
  let g2 := set_board g1 x y owner
  (g2, number)

/-! ## The public interface -/

/-- The flags after `init_boolean_array(array, size)` on a freshly allocated
(`calloc`) array: `true` at the indices below `size`. -/
def init_boolean_array (size : Nat) : Nat → Bool :=
  fun i => decide (i < size)

/-- Create a game (`gamma_new`); `none` stands for `NULL`.  The size
`players + 1` passed to `init_boolean_array` is a `uint32_t` sum. -/
def gamma_new (width height players areas : Nat) : Option gamma_t :=
  if width ≤ 0 ∨ height ≤ 0 ∨ players ≤ 0 ∨ areas ≤ 0
      ∨ width * height > BOARD_SIZE_HARD_LIMIT then
    none
  else
    some
      { board := fun _ _ => 0
        busy_fields := fun _ => 0
        free_fields := fun _ => 0
        areas := fun _ => 0
        golden_move_available := init_boolean_array (to_u32 ((players : Int) + 1))
        all_free_fields := width * height
        players := players
        max_areas := areas
        width := width
        height := height }

/-- The number of players (`gamma_players`). -/
def gamma_players (g : gamma_t) : Nat := g.players

/-- The width of the board (`gamma_width`). -/
def gamma_width (g : gamma_t) : Nat := g.width

/-- The height of the board (`gamma_height`). -/
def gamma_height (g : gamma_t) : Nat := g.height

/-- The value of `areas[player]` after the statement
`if(!player_fields_around(g, player, x, y)) (g->areas[player])++; else
g->areas[player] -= number_of_connected_areas(g, player, x, y) - 1;`
that `gamma_move` and `gamma_golden_move` both execute. -/
def areas_after_placing (g : gamma_t) (player x y : Nat) : Nat :=
  if !player_fields_around g player x y then
    to_u32 ((g.areas player : Int) + 1)
  else
    to_u32 ((g.areas player : Int) - to_u32 ((number_of_connected_areas g player x y : Int) - 1))

/-- A normal move (`gamma_move`): the result and the state after the call. -/
def gamma_move (g : gamma_t) (player x y : Nat) : Bool × gamma_t :=
  if player > g.players ∨ player ≤ 0 ∨ x ≥ g.width ∨ y ≥ g.height then
    (false, g)
  else if g.board x y ≠ 0
      ∨ (!player_fields_around g player x y && g.areas player == g.max_areas) = true then
    (false, g)
  else
    let g1 := { g with areas := set_entry g.areas player (areas_after_placing g player x y) }
    let g2 := { g1 with
      busy_fields := set_entry g1.busy_fields player (to_u64 ((g1.busy_fields player : Int) + 1)) }
    let g3 := { g2 with all_free_fields := to_u64 ((g2.all_free_fields : Int) - 1) }
    (true, set_board g3 x y player)

/-- A golden move (`gamma_golden_move`): the result and the state after the call. -/
def gamma_golden_move (g : gamma_t) (player x y : Nat) : Bool × gamma_t :=
  if player > g.players ∨ player ≤ 0 ∨ x ≥ g.width ∨ y ≥ g.height then
    (false, g)
  else
    let current_owner := g.board x y
    let split := number_of_split_areas g current_owner x y
    let g := split.1
    let var_number_of_split_areas := split.2
    if g.golden_move_available player = false
        ∨ g.board x y = 0
        ∨ g.board x y = player
        ∨ (!player_fields_around g player x y && g.areas player == g.max_areas) = true
        ∨ to_u32 ((g.areas current_owner : Int) + var_number_of_split_areas - 1)
            > g.max_areas then
      (false, g)
    else
      let g1 := { g with areas := set_entry g.areas player (areas_after_placing g player x y) }
      let g2 := { g1 with
        areas := set_entry g1.areas current_owner
          (to_u32 ((g1.areas current_owner : Int) + ((var_number_of_split_areas : Int) - 1))) }
      let g3 := { g2 with
        busy_fields := set_entry g2.busy_fields current_owner
          (to_u64 ((g2.busy_fields current_owner : Int) - 1)) }
      let g4 := { g3 with
        busy_fields := set_entry g3.busy_fields player
          (to_u64 ((g3.busy_fields player : Int) + 1)) }
      let g5 := { g4 with
        golden_move_available := set_entry g4.golden_move_available player false }
      (true, set_board g5 x y player)

/-- The number of fields of `player` (`gamma_busy_fields`). -/
def gamma_busy_fields (g : gamma_t) (player : Nat) : Nat :=
  if player > g.players ∨ player ≤ 0 then 0 else g.busy_fields player

/-- The number of fields `player` can take in the next move (`gamma_free_fields`). -/
def gamma_free_fields (g : gamma_t) (player : Nat) : Nat :=
  if player > g.players ∨ player ≤ 0 then 0
  else if g.areas player < g.max_areas then g.all_free_fields
  else count_free_fields g player

/-- The loop of `busy_fields_available` from the value `i` of its counter on;
the counter is an `unsigned int`, and `none` stands for a loop that has not
returned after the given number of iterations. -/
def busy_fields_available_loop (busy_fields : Nat → Nat) (num_of_players player : Nat) :
    Nat → Nat → Option Bool
  | 0, _ => none
  | fuel + 1, i =>
    if i ≤ num_of_players then
      if busy_fields i ≠ 0 ∧ i ≠ player then some true
      else
        busy_fields_available_loop busy_fields num_of_players player fuel (to_u32 ((i : Int) + 1))
    else some false

/-- Does another player own a field (`busy_fields_available`).  The counter
takes at most `2^32` values, so a loop that has not returned after `2^32`
iterations never returns (`busy_fields_available_loop_none`): `none`. -/
def busy_fields_available (busy_fields : Nat → Nat) (num_of_players player : Nat) :
    Option Bool :=
  busy_fields_available_loop busy_fields num_of_players player (UINT32_MAX + 1) 1

/-- Can `player` make a golden move (`gamma_golden_possible`); `none` when the
call does not return. -/
def gamma_golden_possible (g : gamma_t) (player : Nat) : Option Bool :=
  if player > g.players ∨ player ≤ 0 then some false
  else if g.golden_move_available player = true then
    match busy_fields_available g.busy_fields g.players player with
    | some true => some true
    | some false => some false
    | none => none
  else some false

/-! ## The board as text

The functions that make the string of `gamma_board`.  The string is the list
of the characters written before the terminating zero.  The characters are
written at the consecutive indices `0, 1, ...` counted by the `int k`, and the
terminating zero is written last, at the index that is the length of the text;
`none` stands for a call whose behaviour is undefined, because an `int`
overflows or because a write falls outside its array, or that does not return. -/

/-- The largest `int` value. -/
def INT_MAX : Nat := 2147483647

/-- The length of the array `num_str` (`UINT_LIMIT`). -/
def UINT_LIMIT : Nat := 10

/-- The conversion `(int)u` of a `uint32_t` value: a value above `INT_MAX` is
reduced modulo `2^32` to a negative value. -/
def to_int (u : Nat) : Int := if u ≤ INT_MAX then (u : Int) else (u : Int) - 4294967296

/-- The loop `while(num >= 10) { num /= 10; num_of_digits++; }` of
`number_of_digits`; the first argument bounds the number of iterations. -/
def number_of_digits_loop : Nat → Nat → Nat → Nat
  | 0, _, num_of_digits => num_of_digits
  | fuel + 1, num, num_of_digits =>
    if num ≥ 10 then number_of_digits_loop fuel (num / 10) (num_of_digits + 1)
    else num_of_digits

/-- The number of decimal digits of `num` (`number_of_digits`).  Every
iteration of the loop makes `num` smaller, so `num` iterations are enough
(`number_of_digits_loop_fuel` below). -/
def number_of_digits (num : Nat) : Nat := number_of_digits_loop num num 1

/-- The characters that `sprintf(num_str, "%u", value)` writes before the
terminating zero: the decimal digits of `value`. -/
def sprintf_u (value : Nat) : List Char := Nat.toDigits 10 value

/-- The character `standard_board` writes for the field in column `j` of row
`i`: `g->board[j][i] + '0'`, a `uint32_t` sum stored in a `char`, or a dot. -/
def standard_board_field (g : gamma_t) (j i : Nat) : Char :=
  if g.board j i ≠ 0 then Char.ofNat (to_u32 ((g.board j i : Int) + 48) % 256) else '.'

/-- The inner loop of `standard_board` in row `i`: the characters written for
the columns `0, ..., j - 1`. -/
def standard_board_row (g : gamma_t) (i : Nat) : Nat → List Char
  | 0 => []
  | j + 1 => standard_board_row g i j ++ [standard_board_field g j i]

/-- The outer loop of `standard_board`, from the value `i - 1` of its counter
down to 0: the rows `i - 1, ..., 0`, each followed by a newline. -/
def standard_board_rows (g : gamma_t) : Nat → List Char
  | 0 => []
  | i + 1 => standard_board_row g i g.width ++ ['\n'] ++ standard_board_rows g i

/-- The size of the array that `standard_board` allocates:
`((width + 1) * height) + 1`, computed in `uint32_t`. -/
def standard_board_memory_amount (g : gamma_t) : Nat :=
  let columns : Nat := to_u32 ((g.width : Int) + 1)
  let fields : Nat := to_u32 ((columns : Int) * (g.height : Int))
  to_u32 ((fields : Int) + 1)

/-- The text of the board for at most 9 players (`standard_board`).  The
counter of the rows starts at `(int)height - 1`, a difference that overflows
for `height = 2^31`, and the loop runs while the counter is at least 0.  The
largest value of `k`, and the largest index written, is the length of the
text, where the terminating zero goes: it has to be an `int` and an index of
the array of `memory_amount` characters. -/
def standard_board (g : gamma_t) : Option (List Char) :=
  let memory_amount := standard_board_memory_amount g
  let i : Int := to_int g.height - 1
  if i < -2147483648 then none
  else
    let text := standard_board_rows g (i + 1).toNat
    if text.length ≤ INT_MAX ∧ text.length < memory_amount then some text else none

/-- The characters `board_for_multiple_digits_players` writes for the field in
column `j` of row `i`: the number of the owner, written by `sprintf` into
`num_str` and appended by `strcat` at the end of the text, and
`max_num_of_digits - num_of_digits + 1` spaces, or a dot and `max_num_of_digits`
spaces.  The difference is a `size_t`: when the owner has more digits than
`max_num_of_digits` the loop that writes the spaces does not end.  The text
grows by `num_of_digits` characters as `k` does (`sprintf_u_length` below). -/
def multiple_digits_field (g : gamma_t) (max_num_of_digits j i : Nat) : Option (List Char) :=
  if g.board j i ≠ 0 then
    let num_str := sprintf_u (g.board j i)
    let num_of_digits := number_of_digits (g.board j i)
    if num_str.length + 1 ≤ UINT_LIMIT ∧ num_of_digits ≤ max_num_of_digits then
      some (num_str ++ List.replicate (max_num_of_digits - num_of_digits + 1) ' ')
    else none
  else some ('.' :: List.replicate max_num_of_digits ' ')

/-- The inner loop of `board_for_multiple_digits_players` in row `i`: the
characters written for the columns `0, ..., j - 1`. -/
def multiple_digits_row (g : gamma_t) (max_num_of_digits i : Nat) : Nat → Option (List Char)
  | 0 => some []
  | j + 1 =>
    match multiple_digits_row g max_num_of_digits i j,
      multiple_digits_field g max_num_of_digits j i with
    | some text, some field => some (text ++ field)
    | _, _ => none

/-- The outer loop of `board_for_multiple_digits_players`: the rows
`i - 1, ..., 0`, each followed by a newline. -/
def multiple_digits_rows (g : gamma_t) (max_num_of_digits : Nat) : Nat → Option (List Char)
  | 0 => some []
  | i + 1 =>
    match multiple_digits_row g max_num_of_digits i g.width,
      multiple_digits_rows g max_num_of_digits i with
    | some row, some rest => some (row ++ ['\n'] ++ rest)
    | _, _ => none

/-- The size of the array that `board_for_multiple_digits_players` allocates:
`(((max_num_of_digits + 1) * width + 1) * height) + 1`, computed in `size_t`. -/
def multiple_digits_memory_amount (g : gamma_t) (max_num_of_digits : Nat) : Nat :=
  let column : Nat := to_u64 ((max_num_of_digits : Int) + 1)
  let columns : Nat := to_u64 ((column : Int) * (g.width : Int))
  let row : Nat := to_u64 ((columns : Int) + 1)
  let rows : Nat := to_u64 ((row : Int) * (g.height : Int))
  to_u64 ((rows : Int) + 1)

/-- The text of the board for more than 9 players
(`board_for_multiple_digits_players`), with the same counter of the rows and
the same conditions on the length of the text as in `standard_board`. -/
def board_for_multiple_digits_players (g : gamma_t) (max_num_of_digits : Nat) :
    Option (List Char) :=
  let memory_amount := multiple_digits_memory_amount g max_num_of_digits
  let i : Int := to_int g.height - 1
  if i < -2147483648 then none
  else
    match multiple_digits_rows g max_num_of_digits (i + 1).toNat with
    | some text =>
      if text.length ≤ INT_MAX ∧ text.length < memory_amount then some text else none
    | none => none

/-- The text of the board (`gamma_board`). -/
def gamma_board (g : gamma_t) : Option (List Char) :=
  let max_num_of_digits := number_of_digits g.players
  if max_num_of_digits = 1 then standard_board g
  else board_for_multiple_digits_players g max_num_of_digits

/-! ## The search with a record of its calls of `enqueue` -/

/-- The function `add_to_queue` with a record of its call of `enqueue`: `log`
lists the fields given to `enqueue` so far, in order. -/
def add_to_queue_log (g : gamma_t) (visited : visited_t) (queue : queue_t)
    (log : List field_t) (field : field_t) (player : Nat) (coordinate : coordinate_t)
    (factor : Int) : visited_t × queue_t × List field_t :=
  let field := shift field coordinate factor
  if visited field.x field.y == false && g.board field.x field.y == player then
    (mark visited field.x field.y, enqueue queue field, log ++ [field])
  else
    (visited, queue, log)

/-- The function `add_to_queue_fields_around` with the record of the calls of
`enqueue`. -/
def add_to_queue_fields_around_log (g : gamma_t) (visited : visited_t) (queue : queue_t)
    (log : List field_t) (field : field_t) (player : Nat) :
    visited_t × queue_t × List field_t :=
  let s1 :=
    if field.x ≠ 0 then add_to_queue_log g visited queue log field player .x (-1)
    else (visited, queue, log)
  let s2 :=
    if field.x ≠ UINT32_MAX ∧ field.x + 1 < g.width then
      add_to_queue_log g s1.1 s1.2.1 s1.2.2 field player .x 1
    else s1
  let s3 :=
    if field.y ≠ 0 then add_to_queue_log g s2.1 s2.2.1 s2.2.2 field player .y (-1)
    else s2
  if field.y ≠ UINT32_MAX ∧ field.y + 1 < g.height then
    add_to_queue_log g s3.1 s3.2.1 s3.2.2 field player .y 1
  else s3

/-- The loop of `make_BFS` with the record of the calls of `enqueue`.  The
result is the marks, the queue and the record when the loop ends, which it does
when the queue is empty; `none` when the loop has not ended after the given
number of iterations. -/
def make_BFS_loop_log (g : gamma_t) (player : Nat) :
    Nat → visited_t → queue_t → List field_t → field_t →
      Option (visited_t × queue_t × List field_t)
  | 0, _, _, _, _ => none
  | fuel + 1, visited, queue, log, field =>
    let front :=
      match dequeue queue with
      | some (first, rest) => (first, rest)
      | none => (field, queue)
    let s := add_to_queue_fields_around_log g visited front.2 log front.1 player
    if empty_queue s.2.1 then some s
    else make_BFS_loop_log g player fuel s.1 s.2.1 s.2.2 front.1

/-- The function `make_BFS` with the record of the calls of `enqueue`, the
first of which enqueues the start field, and with a bound on the number of
iterations of its loop. -/
def make_BFS_log (g : gamma_t) (player : Nat) (visited : visited_t) (field : field_t)
    (fuel : Nat) : Option (visited_t × queue_t × List field_t) :=
  let queue := enqueue init_queue field
  let log := [field]
  let visited := mark visited field.x field.y
  make_BFS_loop_log g player fuel visited queue log field

/-! ## The engine with its array accesses checked

The functions above once more, with every access to the board, to the board of
marks and to the arrays of `players + 1` entries checked against the size of
the array: the result is `none` when the code reads or writes an index that is
out of range, or does not return. -/

/-- Reading `g->board[x][y]`. -/
def board_at (g : gamma_t) (x y : Nat) : Option Nat :=
  if x < g.width ∧ y < g.height then some (g.board x y) else none

/-- The test `g->board[x][y] == player`. -/
def owner_is (g : gamma_t) (x y player : Nat) : Option Bool :=
  (board_at g x y).map (fun owner => owner == player)

/-- Assignment `g->board[x][y] = value`. -/
def board_put (g : gamma_t) (x y value : Nat) : Option gamma_t :=
  if x < g.width ∧ y < g.height then some (set_board g x y value) else none

/-- Reading `visited[x][y]`. -/
def visited_at (g : gamma_t) (visited : visited_t) (x y : Nat) : Option Bool :=
  if x < g.width ∧ y < g.height then some (visited x y) else none

/-- Assignment `visited[x][y] = true`. -/
def visited_put (g : gamma_t) (visited : visited_t) (x y : Nat) : Option visited_t :=
  if x < g.width ∧ y < g.height then some (mark visited x y) else none

/-- Reading `array[i]` in an array of `players + 1` entries. -/
def entry_at {α : Type} (g : gamma_t) (array : Nat → α) (i : Nat) : Option α :=
  if i ≤ g.players then some (array i) else none

/-- Assignment `array[i] = value` in an array of `players + 1` entries. -/
def entry_put {α : Type} (g : gamma_t) (array : Nat → α) (i : Nat) (value : α) :
    Option (Nat → α) :=
  if i ≤ g.players then some (set_entry array i value) else none

/-- The function `player_fields_around`: the tests are made from left to right
until one holds. -/
def player_fields_around_checked (g : gamma_t) (player x y : Nat) : Option Bool :=
  (if x ≠ 0 then owner_is g (x - 1) y player else some false).bind fun left =>
  if left then some true
  else
    (if x ≠ UINT32_MAX ∧ x + 1 < g.width then owner_is g (x + 1) y player
      else some false).bind fun right =>
    if right then some true
    else
      (if y ≠ 0 then owner_is g x (y - 1) player else some false).bind fun lower =>
      if lower then some true
      else
        if y ≠ UINT32_MAX ∧ y + 1 < g.height then owner_is g x (y + 1) player
        else some false

/-- The inner loop of `count_free_fields`. -/
def count_free_fields_column_checked (g : gamma_t) (player x : Nat) : Nat → Option Nat
  | 0 => some 0
  | y + 1 =>
    (count_free_fields_column_checked g player x y).bind fun (counter : Nat) =>
    (player_fields_around_checked g player x y).bind fun (around : Bool) =>
    if around then
      (owner_is g x y 0).bind fun (free : Bool) => some (counter + (if free then 1 else 0))
    else some counter

/-- The outer loop of `count_free_fields`. -/
def count_free_fields_upto_checked (g : gamma_t) (player : Nat) : Nat → Option Nat
  | 0 => some 0
  | x + 1 =>
    (count_free_fields_upto_checked g player x).bind fun (counter : Nat) =>
    (count_free_fields_column_checked g player x g.height).bind fun (column : Nat) =>
    some (counter + column)

/-- The function `count_free_fields`. -/
def count_free_fields_checked (g : gamma_t) (player : Nat) : Option Nat :=
  (count_free_fields_upto_checked g player g.width).map fun (counter : Nat) =>
    to_u64 (counter : Int)

/-- The function `add_to_queue`. -/
def add_to_queue_checked (g : gamma_t) (visited : visited_t) (queue : queue_t)
    (field : field_t) (player : Nat) (coordinate : coordinate_t) (factor : Int) :
    Option (visited_t × queue_t) :=
  let field := shift field coordinate factor
  (visited_at g visited field.x field.y).bind fun (seen : Bool) =>
  if seen == false then
    (owner_is g field.x field.y player).bind fun (owned : Bool) =>
    if owned then
      (visited_put g visited field.x field.y).bind fun (visited : visited_t) =>
      some (visited, enqueue queue field)
    else some (visited, queue)
  else some (visited, queue)

/-- The function `add_to_queue_fields_around`. -/
def add_to_queue_fields_around_checked (g : gamma_t) (visited : visited_t) (queue : queue_t)
    (field : field_t) (player : Nat) : Option (visited_t × queue_t) :=
  (if field.x ≠ 0 then add_to_queue_checked g visited queue field player .x (-1)
    else some (visited, queue)).bind fun s1 =>
  (if field.x ≠ UINT32_MAX ∧ field.x + 1 < g.width then
      add_to_queue_checked g s1.1 s1.2 field player .x 1
    else some s1).bind fun s2 =>
  (if field.y ≠ 0 then add_to_queue_checked g s2.1 s2.2 field player .y (-1)
    else some s2).bind fun s3 =>
  if field.y ≠ UINT32_MAX ∧ field.y + 1 < g.height then
    add_to_queue_checked g s3.1 s3.2 field player .y 1
  else some s3

/-- The loop of `make_BFS`. -/
def make_BFS_loop_checked (g : gamma_t) (player : Nat) :
    Nat → visited_t → queue_t → field_t → Option visited_t
  | 0, _, _, _ => none
  | fuel + 1, visited, queue, field =>
    let front :=
      match dequeue queue with
      | some (first, rest) => (first, rest)
      | none => (field, queue)
    (add_to_queue_fields_around_checked g visited front.2 front.1 player).bind fun s =>
    if empty_queue s.2 then some s.1 else make_BFS_loop_checked g player fuel s.1 s.2 front.1

/-- The function `make_BFS`. -/
def make_BFS_checked (g : gamma_t) (player : Nat) (visited : visited_t) (field : field_t) :
    Option visited_t :=
  let queue := enqueue init_queue field
  (visited_put g visited field.x field.y).bind fun visited =>
  make_BFS_loop_checked g player (g.width * g.height + 1) visited queue field

/-- The function `is_another_area`. -/
def is_another_area_checked (g : gamma_t) (visited : visited_t) (field : field_t)
    (player : Nat) (coordinate : coordinate_t) (factor : Int) : Option (visited_t × Bool) :=
  let field := shift field coordinate factor
  (visited_at g visited field.x field.y).bind fun (seen : Bool) =>
  if seen == false then
    (owner_is g field.x field.y player).bind fun (owned : Bool) =>
    if owned then
      (make_BFS_checked g player visited field).bind fun (visited : visited_t) =>
      some (visited, true)
    else some (visited, false)
  else some (visited, false)

/-- The function `number_of_connected_areas`. -/
def number_of_connected_areas_checked (g : gamma_t) (player x y : Nat) : Option Nat :=
  let field : field_t := { x := x, y := y }
  let s0 : visited_t × Nat := (init_board, 0)
  (if field.x ≠ 0 then
      (is_another_area_checked g s0.1 field player .x (-1)).map fun r => (r.1, s0.2 + r.2.toNat)
    else some s0).bind fun s1 =>
  (if field.x ≠ UINT32_MAX ∧ field.x + 1 < g.width then
      (is_another_area_checked g s1.1 field player .x 1).map fun r => (r.1, s1.2 + r.2.toNat)
    else some s1).bind fun s2 =>
  (if field.y ≠ 0 then
      (is_another_area_checked g s2.1 field player .y (-1)).map fun r => (r.1, s2.2 + r.2.toNat)
    else some s2).bind fun s3 =>
  (if field.y ≠ UINT32_MAX ∧ field.y + 1 < g.height then
      (is_another_area_checked g s3.1 field player .y 1).map fun r => (r.1, s3.2 + r.2.toNat)
    else some s3).map fun s4 => s4.2

/-- The function `number_of_split_areas`. -/
def number_of_split_areas_checked (g : gamma_t) (owner x y : Nat) : Option (gamma_t × Nat) :=
  (board_put g x y 0).bind fun g1 =>
  (number_of_connected_areas_checked g1 owner x y).bind fun number =>
  (board_put g1 x y owner).bind fun g2 =>
  some (g2, number)

/-- The statement of `gamma_move` and `gamma_golden_move` that updates
`areas[player]`. -/
def areas_after_placing_checked (g : gamma_t) (player x y : Nat) : Option Nat :=
  (player_fields_around_checked g player x y).bind fun (around : Bool) =>
  if !around then
    (entry_at g g.areas player).bind fun (areas : Nat) => some (to_u32 ((areas : Int) + 1))
  else
    (number_of_connected_areas_checked g player x y).bind fun (number : Nat) =>
    (entry_at g g.areas player).bind fun (areas : Nat) =>
    some (to_u32 ((areas : Int) - to_u32 ((number : Int) - 1)))

/-- The test `!player_fields_around(g, player, x, y) && g->areas[player] ==
g->max_areas` of `gamma_move` and `gamma_golden_move`. -/
def areas_full_checked (g : gamma_t) (player x y : Nat) : Option Bool :=
  (player_fields_around_checked g player x y).bind fun (around : Bool) =>
  if !around then (entry_at g g.areas player).map fun (areas : Nat) => areas == g.max_areas
  else some false

/-- The assignments in the `else` branch of `gamma_move`. -/
def move_apply_checked (g : gamma_t) (player x y : Nat) : Option gamma_t :=
  (areas_after_placing_checked g player x y).bind fun (value : Nat) =>
  (entry_put g g.areas player value).bind fun (areas : Nat → Nat) =>
  (entry_at g g.busy_fields player).bind fun (busy : Nat) =>
  (entry_put g g.busy_fields player (to_u64 ((busy : Int) + 1))).bind
  fun (busy_fields : Nat → Nat) =>
  board_put
    { g with
      areas := areas
      busy_fields := busy_fields
      all_free_fields := to_u64 ((g.all_free_fields : Int) - 1) } x y player

/-- The function `gamma_move`. -/
def gamma_move_checked (g : gamma_t) (player x y : Nat) : Option (Bool × gamma_t) :=
  if player > g.players ∨ player ≤ 0 ∨ x ≥ g.width ∨ y ≥ g.height then
    some (false, g)
  else
    (board_at g x y).bind fun (owner : Nat) =>
    if owner ≠ 0 then some (false, g)
    else
      (areas_full_checked g player x y).bind fun (full : Bool) =>
      if full then some (false, g)
      else (move_apply_checked g player x y).map fun (g1 : gamma_t) => (true, g1)

/-- The tests of the second `if` of `gamma_golden_move`, made from left to
right until one holds. -/
def golden_move_rejected_checked (g : gamma_t) (player x y current_owner : Nat)
    (var_number_of_split_areas : Nat) : Option Bool :=
  (entry_at g g.golden_move_available player).bind fun (available : Bool) =>
  if !available then some true
  else
    (owner_is g x y 0).bind fun (free : Bool) =>
    if free then some true
    else
      (owner_is g x y player).bind fun (own : Bool) =>
      if own then some true
      else
        (areas_full_checked g player x y).bind fun (full : Bool) =>
        if full then some true
        else
          (entry_at g g.areas current_owner).map fun (areas_owner : Nat) =>
          decide (to_u32 ((areas_owner : Int) + var_number_of_split_areas - 1) > g.max_areas)

/-- The assignments to `areas` in the `else` branch of `gamma_golden_move`. -/
def golden_move_areas_checked (g : gamma_t) (player x y current_owner : Nat)
    (var_number_of_split_areas : Nat) : Option gamma_t :=
  (areas_after_placing_checked g player x y).bind fun (value : Nat) =>
  (entry_put g g.areas player value).bind fun (areas : Nat → Nat) =>
  (entry_at g areas current_owner).bind fun (areas_owner : Nat) =>
  (entry_put g areas current_owner
    (to_u32 ((areas_owner : Int) + ((var_number_of_split_areas : Int) - 1)))).map
  fun (areas : Nat → Nat) => { g with areas := areas }

/-- The assignments to `busy_fields` in the `else` branch of `gamma_golden_move`. -/
def golden_move_busy_checked (g : gamma_t) (player current_owner : Nat) : Option gamma_t :=
  (entry_at g g.busy_fields current_owner).bind fun (busy : Nat) =>
  (entry_put g g.busy_fields current_owner (to_u64 ((busy : Int) - 1))).bind
  fun (busy_fields : Nat → Nat) =>
  (entry_at g busy_fields player).bind fun (busy : Nat) =>
  (entry_put g busy_fields player (to_u64 ((busy : Int) + 1))).map
  fun (busy_fields : Nat → Nat) => { g with busy_fields := busy_fields }

/-- The assignments to `golden_move_available` and to the board in the `else`
branch of `gamma_golden_move`. -/
def golden_move_board_checked (g : gamma_t) (player x y : Nat) : Option gamma_t :=
  (entry_put g g.golden_move_available player false).bind fun (available : Nat → Bool) =>
  board_put { g with golden_move_available := available } x y player

/-- The function `gamma_golden_move`. -/
def gamma_golden_move_checked (g : gamma_t) (player x y : Nat) : Option (Bool × gamma_t) :=
  if player > g.players ∨ player ≤ 0 ∨ x ≥ g.width ∨ y ≥ g.height then
    some (false, g)
  else
    (board_at g x y).bind fun (current_owner : Nat) =>
    (number_of_split_areas_checked g current_owner x y).bind fun (split : gamma_t × Nat) =>
    (golden_move_rejected_checked split.1 player x y current_owner split.2).bind
    fun (rejected : Bool) =>
    if rejected then some (false, split.1)
    else
      (golden_move_areas_checked split.1 player x y current_owner split.2).bind
      fun (g1 : gamma_t) =>
      (golden_move_busy_checked g1 player current_owner).bind fun (g2 : gamma_t) =>
      (golden_move_board_checked g2 player x y).map fun (g3 : gamma_t) => (true, g3)

/-- The function `gamma_busy_fields`. -/
def gamma_busy_fields_checked (g : gamma_t) (player : Nat) : Option Nat :=
  if player > g.players ∨ player ≤ 0 then some 0 else entry_at g g.busy_fields player

/-- The function `gamma_free_fields`. -/
def gamma_free_fields_checked (g : gamma_t) (player : Nat) : Option Nat :=
  if player > g.players ∨ player ≤ 0 then some 0
  else
    (entry_at g g.areas player).bind fun (areas : Nat) =>
    if areas < g.max_areas then some g.all_free_fields
    else count_free_fields_checked g player

/-- The loop of `busy_fields_available`, reading an array of `players + 1`
entries. -/
def busy_fields_available_loop_checked (g : gamma_t) (busy_fields : Nat → Nat)
    (num_of_players player : Nat) : Nat → Nat → Option Bool
  | 0, _ => none
  | fuel + 1, i =>
    if i ≤ num_of_players then
      (entry_at g busy_fields i).bind fun (busy : Nat) =>
      if busy ≠ 0 ∧ i ≠ player then some true
      else
        busy_fields_available_loop_checked g busy_fields num_of_players player fuel
          (to_u32 ((i : Int) + 1))
    else some false

/-- The function `gamma_golden_possible`: `busy_fields_available` is only
called when the flag of the player is set. -/
def gamma_golden_possible_checked (g : gamma_t) (player : Nat) : Option Bool :=
  if player > g.players ∨ player ≤ 0 then some false
  else
    (entry_at g g.golden_move_available player).bind fun (available : Bool) =>
    if available then
      busy_fields_available_loop_checked g g.busy_fields g.players player (UINT32_MAX + 1) 1
    else some false

/-! ## The functions that ask about a game, with the state passed along

The functions of the interface other than `gamma_move` and `gamma_golden_move`
once more, statement by statement: every statement and expression takes the
state of the game and gives its value and the state after it.  Reading a member
of the structure, a field of the board or an entry of an array gives the state
it was given; the local variables of a function, the array of characters of
`gamma_board` among them, are no part of the state.  The bound of a `for` loop
over the board, a member of the structure that no statement of these functions
assigns, is read where the loop is entered.  The result is `none` when the code
reads an index that is out of range, has undefined behaviour, or does not
return. -/

/-- A piece of code: from the state before it to its value and the state after
it. -/
abbrev run_t (α : Type) := gamma_t → Option (α × gamma_t)

/-- An expression of constants and local variables. -/
def run_value {α : Type} (value : α) : run_t α := fun g => some (value, g)

/-- A piece of code followed by another that uses its value: the second one
runs in the state after the first one. -/
def run_then {α β : Type} (first : run_t α) (next : α → run_t β) : run_t β :=
  fun g =>
    match first g with
    | some (value, g1) => next value g1
    | none => none

/-- Code with undefined behaviour, or that does not return. -/
def run_undefined {α : Type} : run_t α := fun _ => none

/-- Reading a member of the structure, such as `g->width`. -/
def read_member {α : Type} (member : gamma_t → α) : run_t α := fun g => some (member g, g)

/-- Reading `g->board[x][y]`. -/
def read_board (x y : Nat) : run_t Nat := fun g => (board_at g x y).map fun owner => (owner, g)

/-- Reading `array[i]` in one of the arrays of `players + 1` entries, such as
`g->busy_fields[i]`. -/
def read_entry {α : Type} (array : gamma_t → Nat → α) (i : Nat) : run_t α :=
  fun g => (entry_at g (array g) i).map fun entry => (entry, g)

/-- The test `g->board[x][y] == player`. -/
def owner_is_run (x y player : Nat) : run_t Bool :=
  run_then (read_board x y) fun owner => run_value (owner == player)

/-- The function `player_fields_around`: the tests are made from left to right
until one holds, and `g->width` and `g->height` are read only when the test
before them holds. -/
def player_fields_around_run (player x y : Nat) : run_t Bool :=
  run_then (if x ≠ 0 then owner_is_run (x - 1) y player else run_value false) fun left =>
  if left then run_value true
  else
    run_then
      (if x ≠ UINT32_MAX then
        run_then (read_member gamma_t.width) fun (width : Nat) =>
        if x + 1 < width then owner_is_run (x + 1) y player else run_value false
      else run_value false) fun right =>
    if right then run_value true
    else
      run_then (if y ≠ 0 then owner_is_run x (y - 1) player else run_value false) fun lower =>
      if lower then run_value true
      else
        if y ≠ UINT32_MAX then
          run_then (read_member gamma_t.height) fun (height : Nat) =>
          if y + 1 < height then owner_is_run x (y + 1) player else run_value false
        else run_value false

/-- The inner loop of `count_free_fields` for the rows `0, ..., y - 1`; its bound
`g->height` is read by `count_free_fields_upto_run`. -/
def count_free_fields_column_run (player x : Nat) : Nat → run_t Nat
  | 0 => run_value 0
  | y + 1 =>
    run_then (count_free_fields_column_run player x y) fun (counter : Nat) =>
    run_then (player_fields_around_run player x y) fun (around : Bool) =>
    if around then
      run_then (owner_is_run x y 0) fun (free : Bool) =>
        run_value (counter + (if free then 1 else 0))
    else run_value counter

/-- The outer loop of `count_free_fields` for the columns `0, ..., x - 1`; its
bound `g->width` is read by `count_free_fields_run`. -/
def count_free_fields_upto_run (player : Nat) : Nat → run_t Nat
  | 0 => run_value 0
  | x + 1 =>
    run_then (count_free_fields_upto_run player x) fun (counter : Nat) =>
    run_then (read_member gamma_t.height) fun (height : Nat) =>
    run_then (count_free_fields_column_run player x height) fun (column : Nat) =>
    run_value (counter + column)

/-- The function `count_free_fields`. -/
def count_free_fields_run (player : Nat) : run_t Nat :=
  run_then (read_member gamma_t.width) fun (width : Nat) =>
  run_then (count_free_fields_upto_run player width) fun (counter : Nat) =>
  run_value (to_u64 (counter : Int))

/-- The function `gamma_busy_fields`. -/
def gamma_busy_fields_run (player : Nat) : run_t Nat :=
  run_then (read_member gamma_t.players) fun (players : Nat) =>
  if player > players ∨ player ≤ 0 then run_value 0
  else read_entry gamma_t.busy_fields player

/-- The function `gamma_free_fields`. -/
def gamma_free_fields_run (player : Nat) : run_t Nat :=
  run_then (read_member gamma_t.players) fun (players : Nat) =>
  if player > players ∨ player ≤ 0 then run_value 0
  else
    run_then (read_entry gamma_t.areas player) fun (areas : Nat) =>
    run_then (read_member gamma_t.max_areas) fun (max_areas : Nat) =>
    if areas < max_areas then read_member gamma_t.all_free_fields
    else count_free_fields_run player

/-- The loop of `busy_fields_available`, which reads the array `g->busy_fields`;
the first argument bounds the number of iterations. -/
def busy_fields_available_loop_run (num_of_players player : Nat) : Nat → Nat → run_t Bool
  | 0, _ => run_undefined
  | fuel + 1, i =>
    if i ≤ num_of_players then
      run_then (read_entry gamma_t.busy_fields i) fun (busy : Nat) =>
      if busy ≠ 0 ∧ i ≠ player then run_value true
      else busy_fields_available_loop_run num_of_players player fuel (to_u32 ((i : Int) + 1))
    else run_value false

/-- The function `busy_fields_available`, called with the array
`g->busy_fields`. -/
def busy_fields_available_run (num_of_players player : Nat) : run_t Bool :=
  busy_fields_available_loop_run num_of_players player (UINT32_MAX + 1) 1

/-- The function `gamma_golden_possible`: `g->players` is read for the first
test and once more for the call of `busy_fields_available`, which is made only
when the flag of the player is set. -/
def gamma_golden_possible_run (player : Nat) : run_t Bool :=
  run_then (read_member gamma_t.players) fun (players : Nat) =>
  if player > players ∨ player ≤ 0 then run_value false
  else
    run_then (read_entry gamma_t.golden_move_available player) fun (available : Bool) =>
    if available then
      run_then (read_member gamma_t.players) fun (num_of_players : Nat) =>
      busy_fields_available_run num_of_players player
    else run_value false

/-- The function `gamma_players`. -/
def gamma_players_run : run_t Nat := read_member gamma_t.players

/-- The function `gamma_width`. -/
def gamma_width_run : run_t Nat := read_member gamma_t.width

/-- The function `gamma_height`. -/
def gamma_height_run : run_t Nat := read_member gamma_t.height

/-- The character `standard_board` writes for the field in column `j` of row
`i`; the field is read for the test and once more for the sum. -/
def standard_board_field_run (j i : Nat) : run_t Char :=
  run_then (read_board j i) fun (owner : Nat) =>
  if owner ≠ 0 then
    run_then (read_board j i) fun (number : Nat) =>
      run_value (Char.ofNat (to_u32 ((number : Int) + 48) % 256))
  else run_value '.'

/-- The inner loop of `standard_board` in row `i`, for the columns
`0, ..., j - 1`; its bound is the local variable `width`. -/
def standard_board_row_run (i : Nat) : Nat → run_t (List Char)
  | 0 => run_value []
  | j + 1 =>
    run_then (standard_board_row_run i j) fun (text : List Char) =>
    run_then (standard_board_field_run j i) fun (field : Char) =>
    run_value (text ++ [field])

/-- The outer loop of `standard_board`, from the value `i - 1` of its counter
down to 0. -/
def standard_board_rows_run (width : Nat) : Nat → run_t (List Char)
  | 0 => run_value []
  | i + 1 =>
    run_then (standard_board_row_run i width) fun (row : List Char) =>
    run_then (standard_board_rows_run width i) fun (rest : List Char) =>
    run_value (row ++ ['\n'] ++ rest)

/-- The function `standard_board`: `width` and `height` are read into local
variables, and the array of `memory_amount` characters is local.  As in
`standard_board` above, the behaviour is undefined when the difference
`(int)height - 1` overflows, when the counter `k` exceeds `INT_MAX`, and when a
character is written outside the array. -/
def standard_board_run : run_t (List Char) :=
  run_then (read_member gamma_t.width) fun (width : Nat) =>
  run_then (read_member gamma_t.height) fun (height : Nat) =>
  let columns : Nat := to_u32 ((width : Int) + 1)
  let fields : Nat := to_u32 ((columns : Int) * (height : Int))
  let memory_amount : Nat := to_u32 ((fields : Int) + 1)
  let i : Int := to_int height - 1
  if i < -2147483648 then run_undefined
  else
    run_then (standard_board_rows_run width (i + 1).toNat) fun (text : List Char) =>
    if text.length ≤ INT_MAX ∧ text.length < memory_amount then run_value text
    else run_undefined

/-- The characters `board_for_multiple_digits_players` writes for a field, which
is read for the test, for `number_of_digits` and for `sprintf`.  As in
`multiple_digits_field` above, the behaviour is undefined when `sprintf` writes
outside `num_str`, and the loop of the spaces does not end when the owner has
more digits than `max_num_of_digits`. -/
def multiple_digits_field_run (max_num_of_digits j i : Nat) : run_t (List Char) :=
  run_then (read_board j i) fun (owner : Nat) =>
  if owner ≠ 0 then
    run_then (read_board j i) fun (number : Nat) =>
    let num_of_digits := number_of_digits number
    run_then (read_board j i) fun (printed : Nat) =>
    let num_str := sprintf_u printed
    if num_str.length + 1 ≤ UINT_LIMIT ∧ num_of_digits ≤ max_num_of_digits then
      run_value (num_str ++ List.replicate (max_num_of_digits - num_of_digits + 1) ' ')
    else run_undefined
  else run_value ('.' :: List.replicate max_num_of_digits ' ')

/-- The inner loop of `board_for_multiple_digits_players` in row `i`, for the
columns `0, ..., j - 1`. -/
def multiple_digits_row_run (max_num_of_digits i : Nat) : Nat → run_t (List Char)
  | 0 => run_value []
  | j + 1 =>
    run_then (multiple_digits_row_run max_num_of_digits i j) fun (text : List Char) =>
    run_then (multiple_digits_field_run max_num_of_digits j i) fun (field : List Char) =>
    run_value (text ++ field)

/-- The outer loop of `board_for_multiple_digits_players`, from the value
`i - 1` of its counter down to 0. -/
def multiple_digits_rows_run (max_num_of_digits width : Nat) : Nat → run_t (List Char)
  | 0 => run_value []
  | i + 1 =>
    run_then (multiple_digits_row_run max_num_of_digits i width) fun (row : List Char) =>
    run_then (multiple_digits_rows_run max_num_of_digits width i) fun (rest : List Char) =>
    run_value (row ++ ['\n'] ++ rest)

/-- The function `board_for_multiple_digits_players`, with the same local
variables and the same conditions as `standard_board_run`. -/
def board_for_multiple_digits_players_run (max_num_of_digits : Nat) : run_t (List Char) :=
  run_then (read_member gamma_t.width) fun (width : Nat) =>
  run_then (read_member gamma_t.height) fun (height : Nat) =>
  let column : Nat := to_u64 ((max_num_of_digits : Int) + 1)
  let columns : Nat := to_u64 ((column : Int) * (width : Int))
  let row : Nat := to_u64 ((columns : Int) + 1)
  let rows : Nat := to_u64 ((row : Int) * (height : Int))
  let memory_amount : Nat := to_u64 ((rows : Int) + 1)
  let i : Int := to_int height - 1
  if i < -2147483648 then run_undefined
  else
    run_then (multiple_digits_rows_run max_num_of_digits width (i + 1).toNat)
      fun (text : List Char) =>
    if text.length ≤ INT_MAX ∧ text.length < memory_amount then run_value text
    else run_undefined

/-- The function `gamma_board`: `g->players` is read for `number_of_digits`. -/
def gamma_board_run : run_t (List Char) :=
  run_then (read_member gamma_t.players) fun (players : Nat) =>
  let max_num_of_digits := number_of_digits players
  if max_num_of_digits = 1 then standard_board_run
  else board_for_multiple_digits_players_run max_num_of_digits

/-! ## Notions used to state the properties of the engine -/

/-- The fields of the state hold `uint32_t` values where the code relies on it. -/
def typed (g : gamma_t) : Prop := g.width ≤ UINT32_MAX ∧ g.height ≤ UINT32_MAX

/-- The field lies on the board. -/
def in_board (g : gamma_t) (f : field_t) : Prop := f.x < g.width ∧ f.y < g.height

/-- Two fields are 4-neighbours: they differ by one in exactly one coordinate. -/
def adjacent (a b : field_t) : Prop :=
  (a.y = b.y ∧ (a.x + 1 = b.x ∨ b.x + 1 = a.x)) ∨ (a.x = b.x ∧ (a.y + 1 = b.y ∨ b.y + 1 = a.y))

/-- The field lies on the board and its owner is `p`. -/
def owns (g : gamma_t) (p : Nat) (f : field_t) : Prop := in_board g f ∧ g.board f.x f.y = p

/-- Two neighbouring fields of the board both owned by `p`. -/
def linked (g : gamma_t) (p : Nat) (a b : field_t) : Prop :=
  owns g p a ∧ owns g p b ∧ adjacent a b

instance (g : gamma_t) : Decidable (typed g) := by
  unfold typed; infer_instance

instance (g : gamma_t) (f : field_t) : Decidable (in_board g f) := by
  unfold in_board; infer_instance

instance (a b : field_t) : Decidable (adjacent a b) := by
  unfold adjacent; infer_instance

instance (g : gamma_t) (p : Nat) (f : field_t) : Decidable (owns g p f) := by
  unfold owns; infer_instance

instance (g : gamma_t) (p : Nat) (a b : field_t) : Decidable (linked g p a b) := by
  unfold linked; infer_instance

/-- The two fields are joined by a path of neighbouring fields owned by `p`:
they lie in the same area of `p`. -/
def same_area (g : gamma_t) (p : Nat) (a b : field_t) : Prop :=
  Relation.ReflTransGen (linked g p) a b

/-- The finite set `reps` holds exactly one field of every area of `p` that
contains a field satisfying `touch`. -/
def area_representatives (g : gamma_t) (p : Nat) (touch : field_t → Prop)
    (reps : Finset field_t) : Prop :=
  (∀ r ∈ reps, owns g p r ∧ touch r)
  ∧ (∀ f, owns g p f → touch f → ∃ r ∈ reps, same_area g p r f)
  ∧ (∀ r ∈ reps, ∀ r' ∈ reps, same_area g p r r' → r = r')

/-- The fields owned by `p` form exactly `n` areas (maximal sets of fields
joined by paths of neighbouring fields of `p`): some set of `n` fields holds
exactly one field of every area.  Every board has one and only one such `n`
(`area_count_exists`, `area_count_unique`). -/
def area_count (g : gamma_t) (p n : Nat) : Prop :=
  ∃ reps : Finset field_t, reps.card = n ∧ area_representatives g p (fun _ => True) reps

/-- Exactly `k` distinct areas of `p` contain a neighbour of the field `(x, y)`:
some set of `k` neighbours of `(x, y)` holds exactly one neighbour from each
such area. -/
def areas_around (g : gamma_t) (p x y k : Nat) : Prop :=
  ∃ reps : Finset field_t,
    reps.card = k ∧ area_representatives g p (fun f => adjacent { x := x, y := y } f) reps

/-- The area of `p` that contains `f` contains a neighbour of the field `(x, y)`. -/
def touches (g : gamma_t) (p x y : Nat) (f : field_t) : Prop :=
  ∃ n, owns g p n ∧ adjacent { x := x, y := y } n ∧ same_area g p f n

/-- The number of fields of the board whose owner is `p`. -/
def count_owned (g : gamma_t) (p : Nat) : Nat :=
  ((Finset.range g.width ×ˢ Finset.range g.height).filter
    (fun c => g.board c.1 c.2 = p)).card

/-- The states a game can be in: the result of a successful `gamma_new`
followed by any calls of `gamma_move` and `gamma_golden_move`, successful or not. -/
inductive reachable : gamma_t → Prop where
  | new (width height players areas : Nat) (g : gamma_t)
      (h : gamma_new width height players areas = some g) : reachable g
  | move (g : gamma_t) (player x y : Nat) (h : reachable g) :
      reachable (gamma_move g player x y).2
  | golden_move (g : gamma_t) (player x y : Nat) (h : reachable g) :
      reachable (gamma_golden_move g player x y).2

/-- The bookkeeping of a game state agrees with its board. -/
structure game_inv (g : gamma_t) : Prop where
  width_pos : 1 ≤ g.width
  height_pos : 1 ≤ g.height
  size : g.width * g.height ≤ UINT32_MAX
  owners : ∀ f, in_board g f → g.board f.x f.y ≤ g.players
  busy : ∀ p, 1 ≤ p → g.busy_fields p = count_owned g p
  free : g.all_free_fields = count_owned g 0
  areas : ∀ p, 1 ≤ p → area_count g p (g.areas p)
  limit : ∀ p, 1 ≤ p → g.areas p ≤ g.max_areas

/-- The four fields next to a field (the left one is the field itself in column 0,
and the lower one in row 0). -/
def neighbours (f : field_t) : List field_t :=
  [{ x := f.x + 1, y := f.y }, { x := f.x - 1, y := f.y },
    { x := f.x, y := f.y + 1 }, { x := f.x, y := f.y - 1 }]

/-- Some neighbour of the field on the board is owned by `p`. -/
def has_neighbour (g : gamma_t) (p : Nat) (f : field_t) : Prop :=
  ∃ n, adjacent f n ∧ owns g p n

instance (g : gamma_t) (p : Nat) (f : field_t) : Decidable (has_neighbour g p f) :=
  decidable_of_iff (∃ n ∈ neighbours f, adjacent f n ∧ owns g p n)
    ⟨fun ⟨n, _, h⟩ => ⟨n, h⟩, fun ⟨n, h⟩ => ⟨n, by
      cases f with
      | mk fx fy =>
        cases n with
        | mk nx ny =>
          have hadj := h.1
          simp only [adjacent] at hadj
          simp only [neighbours, List.mem_cons, field_t.mk.injEq, List.mem_singleton,
            List.not_mem_nil, or_false]
          omega, h⟩⟩

/-- The number of free fields of the board with a neighbour owned by `p`. -/
def count_free_next_to (g : gamma_t) (p : Nat) : Nat :=
  ((Finset.range g.width ×ˢ Finset.range g.height).filter
    (fun c => g.board c.1 c.2 = 0 ∧ has_neighbour g p { x := c.1, y := c.2 })).card

/-- The number of fields of the board on which `gamma_move` of `p` returns `true`. -/
def count_legal_moves (g : gamma_t) (p : Nat) : Nat :=
  ((Finset.range g.width ×ˢ Finset.range g.height).filter
    (fun c => (gamma_move g p c.1 c.2).1 = true)).card

/-- The state `g'` comes from the state `g` by calls of `gamma_move` and
`gamma_golden_move`, successful or not. -/
inductive later : gamma_t → gamma_t → Prop where
  | now (g : gamma_t) : later g g
  | move (g g' : gamma_t) (player x y : Nat) (h : later g g') :
      later g (gamma_move g' player x y).2
  | golden_move (g g' : gamma_t) (player x y : Nat) (h : later g g') :
      later g (gamma_golden_move g' player x y).2

/-- The states of a game in which `p` has not made a successful golden move:
the result of a successful `gamma_new` followed by calls of `gamma_move` and by
calls of `gamma_golden_move` that another player made or that returned `false`. -/
inductive uncaptured (p : Nat) : gamma_t → Prop where
  | new (width height players areas : Nat) (g : gamma_t)
      (h : gamma_new width height players areas = some g) : uncaptured p g
  | move (g : gamma_t) (player x y : Nat) (h : uncaptured p g) :
      uncaptured p (gamma_move g player x y).2
  | golden_move (g : gamma_t) (player x y : Nat) (h : uncaptured p g)
      (hp : player ≠ p ∨ (gamma_golden_move g player x y).1 = false) :
      uncaptured p (gamma_golden_move g player x y).2

/-- The number of decimal digits of a number. -/
def decimal_digits (n : Nat) : Nat := (Nat.toDigits 10 n).length

/-- The token that shows a field: a dot for a free field, the decimal number
of the owner otherwise. -/
def token (g : gamma_t) (x y : Nat) : List Char :=
  if g.board x y = 0 then ['.'] else Nat.toDigits 10 (g.board x y)

/-- The number of characters a field takes in the text of the board: one for
at most 9 players, and otherwise the number of decimal digits of `players` and
one space. -/
def column_width (g : gamma_t) : Nat :=
  if g.players ≤ 9 then 1 else decimal_digits g.players + 1

/-- The characters of a field in the text of the board: its token, followed by
spaces up to the width of the column. -/
def cell_text (g : gamma_t) (x y : Nat) : List Char :=
  token g x y ++ List.replicate (column_width g - (token g x y).length) ' '

/-- The line of the row `y`, without its newline: the fields `(0, y)`, ...,
`(width - 1, y)` in this order. -/
def line_text (g : gamma_t) (y : Nat) : List Char :=
  ((List.range g.width).map (fun x => cell_text g x y)).flatten

/-- The text of the board: `height` lines that end in a newline, the line
number `i`, counted from 0, showing the row `height - 1 - i`. -/
def board_text (g : gamma_t) : List Char :=
  ((List.range g.height).map (fun i => line_text g (g.height - 1 - i) ++ ['\n'])).flatten

/-- A field shown with its token padded on the left with spaces up to the
number of decimal digits of `players`. -/
def left_padded_cell (g : gamma_t) (x y : Nat) : List Char :=
  List.replicate (decimal_digits g.players - (token g x y).length) ' ' ++ token g x y

/-- The text of the board with the tokens padded on the left and the columns
separated by a space. -/
def left_padded_text (g : gamma_t) : List Char :=
  ((List.range g.height).map (fun i =>
    List.intercalate [' ']
      ((List.range g.width).map (fun x => left_padded_cell g x (g.height - 1 - i)))
      ++ ['\n'])).flatten

/-- A call of a function of the interface on a game. -/
inductive call_t where
  | move (player x y : Nat)
  | golden_move (player x y : Nat)
  | busy_fields (player : Nat)
  | free_fields (player : Nat)
  | golden_possible (player : Nat)
  | board
  | players
  | width
  | height

/-- The state after a call.  `gamma_move` and `gamma_golden_move` return their
state; for the other functions it is the state that the function, run with the
state passed along, is left with, if it returns. -/
def state_after (g : gamma_t) : call_t → Option gamma_t
  | .move player x y => some (gamma_move g player x y).2
  | .golden_move player x y => some (gamma_golden_move g player x y).2
  | .busy_fields player => (gamma_busy_fields_run player g).map (fun r => r.2)
  | .free_fields player => (gamma_free_fields_run player g).map (fun r => r.2)
  | .golden_possible player => (gamma_golden_possible_run player g).map (fun r => r.2)
  | .board => (gamma_board_run g).map (fun r => r.2)
  | .players => (gamma_players_run g).map (fun r => r.2)
  | .width => (gamma_width_run g).map (fun r => r.2)
  | .height => (gamma_height_run g).map (fun r => r.2)

/-- The state after a sequence of calls. -/
def state_after_calls (g : gamma_t) : List call_t → Option gamma_t
  | [] => some g
  | call :: calls => (state_after g call).bind (fun g' => state_after_calls g' calls)

/-! ## The games of the examples -/

/-- The state made by `gamma_new 4 4 2 2`. -/
def game_4_4 : gamma_t :=
  { board := fun _ _ => 0
    busy_fields := fun _ => 0
    free_fields := fun _ => 0
    areas := fun _ => 0
    golden_move_available := init_boolean_array 3
    all_free_fields := 4 * 4
    players := 2
    max_areas := 2
    width := 4
    height := 4 }

/-- The game `game_4_4` after `gamma_move(1, 1, 1)` and `gamma_move(2, 2, 1)`. -/
def game_4_4_played : gamma_t :=
  (gamma_move (gamma_move game_4_4 1 1 1).2 2 2 1).2

/-- The state made by `gamma_new 5 1 2 2`. -/
def game_5_1 : gamma_t :=
  { board := fun _ _ => 0
    busy_fields := fun _ => 0
    free_fields := fun _ => 0
    areas := fun _ => 0
    golden_move_available := init_boolean_array 3
    all_free_fields := 5 * 1
    players := 2
    max_areas := 2
    width := 5
    height := 1 }

/-- The game `game_5_1` after player 1 took the fields `(0, 0)` and `(2, 0)`. -/
def game_5_1_played : gamma_t :=
  (gamma_move (gamma_move game_5_1 1 0 0).2 1 2 0).2

/-- The state made by `gamma_new 3 1 2 1`. -/
def game_3_1 : gamma_t :=
  { board := fun _ _ => 0
    busy_fields := fun _ => 0
    free_fields := fun _ => 0
    areas := fun _ => 0
    golden_move_available := init_boolean_array 3
    all_free_fields := 3 * 1
    players := 2
    max_areas := 1
    width := 3
    height := 1 }

/-- The game `game_3_1` after player 1 took the three fields of the board. -/
def game_3_1_played : gamma_t :=
  (gamma_move (gamma_move (gamma_move game_3_1 1 0 0).2 1 1 0).2 1 2 0).2

/-- The state made by `gamma_new 3 1 2 2`. -/
def game_3_1_two : gamma_t :=
  { board := fun _ _ => 0
    busy_fields := fun _ => 0
    free_fields := fun _ => 0
    areas := fun _ => 0
    golden_move_available := init_boolean_array 3
    all_free_fields := 3 * 1
    players := 2
    max_areas := 2
    width := 3
    height := 1 }

/-- The game `game_3_1_two` after player 1 took the three fields of the board. -/
def game_3_1_two_played : gamma_t :=
  (gamma_move (gamma_move (gamma_move game_3_1_two 1 0 0).2 1 1 0).2 1 2 0).2

/-- The state made by `gamma_new 1 1 4294967295 1`: `players + 1` is 0 in
`uint32_t`. -/
def game_max_players : gamma_t :=
  { board := fun _ _ => 0
    busy_fields := fun _ => 0
    free_fields := fun _ => 0
    areas := fun _ => 0
    golden_move_available := init_boolean_array 0
    all_free_fields := 1 * 1
    players := 4294967295
    max_areas := 1
    width := 1
    height := 1 }

/-- The state made by `gamma_new 1 2147483649 1 1`: a board of one column and
`2^31 + 1` rows. -/
def game_tall : gamma_t :=
  { board := fun _ _ => 0
    busy_fields := fun _ => 0
    free_fields := fun _ => 0
    areas := fun _ => 0
    golden_move_available := init_boolean_array 2
    all_free_fields := 1 * 2147483649
    players := 1
    max_areas := 1
    width := 1
    height := 2147483649 }

/-- The state made by `gamma_new 2 1 10 2`. -/
def game_2_1_ten : gamma_t :=
  { board := fun _ _ => 0
    busy_fields := fun _ => 0
    free_fields := fun _ => 0
    areas := fun _ => 0
    golden_move_available := init_boolean_array 11
    all_free_fields := 2 * 1
    players := 10
    max_areas := 2
    width := 2
    height := 1 }

/-- The game `game_2_1_ten` after player 7 took the field `(0, 0)` and player
10 the field `(1, 0)`. -/
def game_2_1_ten_played : gamma_t :=
  (gamma_move (gamma_move game_2_1_ten 7 0 0).2 10 1 0).2

/-- The game `game_3_1` after player 2 took the field `(0, 0)` and player 1 the
field `(2, 0)`. -/
def game_3_1_blocked : gamma_t :=
  (gamma_move (gamma_move game_3_1 2 0 0).2 1 2 0).2

/-- The state made by `gamma_new 2 1431655766 1 1`: a board of two columns
whose text has `3 * 1431655766 = 2^32 + 2` characters. -/
def game_2_columns : gamma_t :=
  { board := fun _ _ => 0
    busy_fields := fun _ => 0
    free_fields := fun _ => 0
    areas := fun _ => 0
    golden_move_available := init_boolean_array 2
    all_free_fields := 2 * 1431655766
    players := 1
    max_areas := 1
    width := 2
    height := 1431655766 }

/-- The state made by `gamma_new 2 1 4294967295 2`: `players + 1` is 0 in
`uint32_t`. -/
def game_max_players_2_1 : gamma_t :=
  { board := fun _ _ => 0
    busy_fields := fun _ => 0
    free_fields := fun _ => 0
    areas := fun _ => 0
    golden_move_available := init_boolean_array 0
    all_free_fields := 2 * 1
    players := 4294967295
    max_areas := 2
    width := 2
    height := 1 }

/-- The game `game_max_players_2_1` after player 2 took the field `(0, 0)`. -/
def game_max_players_2_1_played : gamma_t :=
  (gamma_move game_max_players_2_1 2 0 0).2

/-! ## Notions used in the proofs about the breadth-first search -/

/-- The fields of the board without a mark. -/
def unmarked (g : gamma_t) (visited : visited_t) : Finset (Nat × Nat) :=
  (Finset.range g.width ×ˢ Finset.range g.height).filter (fun c => visited c.1 c.2 = false)

/-- One step of the search: from a field to a neighbour on the board that is
owned by `p` and had no mark when the search began. -/
def fresh_step (g : gamma_t) (p : Nat) (visited0 : visited_t) (a b : field_t) : Prop :=
  adjacent a b ∧ in_board g b ∧ g.board b.x b.y = p ∧ visited0 b.x b.y = false

/-- The fields the search can arrive at from `s`. -/
def fresh_reach (g : gamma_t) (p : Nat) (visited0 : visited_t) (s f : field_t) : Prop :=
  Relation.ReflTransGen (fresh_step g p visited0) s f

/-- The invariant of the search while the neighbours of `cur` are examined. -/
structure bfs_inv (g : gamma_t) (p : Nat) (visited0 : visited_t) (s : field_t)
    (visited : visited_t) (queue : queue_t) (cur : field_t) : Prop where
  cur_in : in_board g cur
  cur_reach : fresh_reach g p visited0 s cur
  queue_ok : ∀ f ∈ queue, in_board g f ∧ fresh_reach g p visited0 s f
  sound : ∀ a b, visited a b = true →
    visited0 a b = true ∨ fresh_reach g p visited0 s { x := a, y := b }
  mono : ∀ a b, visited0 a b = true → visited a b = true
  start : visited s.x s.y = true
  closed : ∀ f, fresh_reach g p visited0 s f → visited f.x f.y = true → f ∉ queue → f ≠ cur →
    ∀ f', fresh_step g p visited0 f f' → visited f'.x f'.y = true

/-- The invariant of `number_of_connected_areas`: the counter is the number of
areas of `p` found around `(x, y)` among the neighbours examined so far
(`done`), and the marked fields are the fields of these areas. -/
def scan_inv (g : gamma_t) (p x y : Nat) (visited : visited_t) (counter : Nat)
    (done : field_t → Prop) : Prop :=
  ∃ reps : Finset field_t, reps.card = counter
    ∧ (∀ r ∈ reps, owns g p r ∧ adjacent { x := x, y := y } r)
    ∧ (∀ f, done f → owns g p f → ∃ r ∈ reps, same_area g p r f)
    ∧ (∀ r ∈ reps, ∀ r' ∈ reps, same_area g p r r' → r = r')
    ∧ (∀ a b, visited a b = true ↔ ∃ r ∈ reps, same_area g p r { x := a, y := b })

/-- The invariant of the record of the calls of `enqueue`: no field is in the
record twice, every field of the record is a marked field of the board, every
field of the queue is in the record, and every field of the record but the
start field had no mark when the search began and is owned by `p`. -/
structure log_inv (g : gamma_t) (p : Nat) (visited0 : visited_t) (s : field_t)
    (st : visited_t × queue_t × List field_t) : Prop where
  mono : ∀ a b, visited0 a b = true → st.1 a b = true
  queue_log : ∀ f ∈ st.2.1, f ∈ st.2.2
  nodup : st.2.2.Nodup
  marked : ∀ f ∈ st.2.2, in_board g f ∧ st.1 f.x f.y = true
  fresh : ∀ f ∈ st.2.2, f = s ∨ (visited0 f.x f.y = false ∧ g.board f.x f.y = p)
  bound : st.2.2.length + (unmarked g st.1).card ≤ g.width * g.height

/-! ## Marks and the queue -/

theorem shift_x_neg (f : field_t) : shift f .x (-1) = { x := f.x - 1, y := f.y } := by
  simp only [shift]; congr 1; omega

theorem shift_x_pos (f : field_t) : shift f .x 1 = { x := f.x + 1, y := f.y } := by
  simp only [shift]; congr 1

theorem shift_y_neg (f : field_t) : shift f .y (-1) = { x := f.x, y := f.y - 1 } := by
  simp only [shift]; congr 1; omega

theorem shift_y_pos (f : field_t) : shift f .y 1 = { x := f.x, y := f.y + 1 } := by
  simp only [shift]; congr 1

theorem mark_eq (visited : visited_t) (x y a b : Nat) :
    mark visited x y a b = true ↔ (a = x ∧ b = y) ∨ visited a b = true := by
  unfold mark
  by_cases h : a = x ∧ b = y
  · simp [h]
  · simp [h]

theorem unmarked_card_le (g : gamma_t) (visited : visited_t) :
    (unmarked g visited).card ≤ g.width * g.height := by
  unfold unmarked
  calc _ ≤ (Finset.range g.width ×ˢ Finset.range g.height).card := Finset.card_filter_le _ _
    _ = g.width * g.height := by simp

theorem unmarked_mark (g : gamma_t) (visited : visited_t) (f : field_t)
    (hin : in_board g f) (hv : visited f.x f.y = false) :
    (unmarked g (mark visited f.x f.y)).card + 1 ≤ (unmarked g visited).card := by
  have hmem : (f.x, f.y) ∈ unmarked g visited := by
    simp only [unmarked, Finset.mem_filter, Finset.mem_product, Finset.mem_range]
    exact ⟨⟨hin.1, hin.2⟩, hv⟩
  have hsub : unmarked g (mark visited f.x f.y) ⊆ (unmarked g visited).erase (f.x, f.y) := by
    intro c hc
    simp only [unmarked, Finset.mem_filter, Finset.mem_product, Finset.mem_range,
      Finset.mem_erase] at hc ⊢
    obtain ⟨hc1, hc2⟩ := hc
    have hne : ¬ (c.1 = f.x ∧ c.2 = f.y) := by
      intro h
      have : mark visited f.x f.y c.1 c.2 = true := (mark_eq _ _ _ _ _).2 (Or.inl h)
      rw [hc2] at this; exact Bool.noConfusion this
    refine ⟨?_, hc1, ?_⟩
    · intro h; apply hne; rw [h]; exact ⟨rfl, rfl⟩
    · cases hvc : visited c.1 c.2
      · rfl
      · have : mark visited f.x f.y c.1 c.2 = true := (mark_eq _ _ _ _ _).2 (Or.inr hvc)
        rw [hc2] at this; exact Bool.noConfusion this
  have h1 := Finset.card_le_card hsub
  rw [Finset.card_erase_of_mem hmem] at h1
  have h2 : 0 < (unmarked g visited).card := Finset.card_pos.2 ⟨_, hmem⟩
  omega

/-- One guarded call of `add_to_queue` keeps the invariant of the search, only
adds marks, leaves the examined neighbour marked when `p` owns it, and does not
increase the number of unmarked fields plus the length of the queue. -/
theorem add_to_queue_inv (g : gamma_t) (p : Nat) (visited0 : visited_t) (s cur : field_t)
    (st : visited_t × queue_t) (c : coordinate_t) (k : Int) (guard : Prop) [Decidable guard]
    (h : bfs_inv g p visited0 s st.1 st.2 cur)
    (hg : guard → adjacent cur (shift cur c k) ∧ in_board g (shift cur c k)) :
    bfs_inv g p visited0 s
        (if guard then add_to_queue g st.1 st.2 cur p c k else st).1
        (if guard then add_to_queue g st.1 st.2 cur p c k else st).2 cur
      ∧ (∀ a b, st.1 a b = true →
          (if guard then add_to_queue g st.1 st.2 cur p c k else st).1 a b = true)
      ∧ (guard → g.board (shift cur c k).x (shift cur c k).y = p →
          (if guard then add_to_queue g st.1 st.2 cur p c k else st).1
            (shift cur c k).x (shift cur c k).y = true)
      ∧ (unmarked g (if guard then add_to_queue g st.1 st.2 cur p c k else st).1).card
          + (if guard then add_to_queue g st.1 st.2 cur p c k else st).2.length
          ≤ (unmarked g st.1).card + st.2.length := by
  by_cases hguard : guard
  · obtain ⟨hadj, hin⟩ := hg hguard
    simp only [if_pos hguard]
    unfold add_to_queue
    generalize shift cur c k = n at hadj hin ⊢
    by_cases hc : (st.1 n.x n.y == false && g.board n.x n.y == p) = true
    · simp only [if_pos hc]
      simp only [Bool.and_eq_true, beq_iff_eq] at hc
      obtain ⟨hv, hb⟩ := hc
      have hv0 : visited0 n.x n.y = false := by
        cases hv0 : visited0 n.x n.y
        · rfl
        · have := h.mono _ _ hv0; rw [hv] at this; exact Bool.noConfusion this
      have hreach : fresh_reach g p visited0 s n :=
        Relation.ReflTransGen.tail h.cur_reach ⟨hadj, hin, hb, hv0⟩
      refine ⟨⟨h.cur_in, h.cur_reach, ?_, ?_, ?_, ?_, ?_⟩, ?_, ?_, ?_⟩
      · intro f hf
        simp only [enqueue, List.mem_append, List.mem_singleton] at hf
        rcases hf with hf | hf
        · exact h.queue_ok f hf
        · subst hf; exact ⟨hin, hreach⟩
      · intro a b hab
        rcases (mark_eq _ _ _ _ _).1 hab with ⟨ha, hb'⟩ | hab
        · right; subst ha; subst hb'; exact hreach
        · exact h.sound a b hab
      · intro a b hab
        exact (mark_eq _ _ _ _ _).2 (Or.inr (h.mono a b hab))
      · exact (mark_eq _ _ _ _ _).2 (Or.inr h.start)
      · intro f hf hvf hnq hne f' hstep
        simp only [enqueue, List.mem_append, List.mem_singleton, not_or] at hnq
        have hvf' : st.1 f.x f.y = true := by
          rcases (mark_eq _ _ _ _ _).1 hvf with ⟨ha, hb'⟩ | hvf
          · exfalso; apply hnq.2; cases f; cases n; simp_all
          · exact hvf
        exact (mark_eq _ _ _ _ _).2 (Or.inr (h.closed f hf hvf' hnq.1 hne f' hstep))
      · intro a b hab
        exact (mark_eq _ _ _ _ _).2 (Or.inr hab)
      · intro _ _
        exact (mark_eq _ _ _ _ _).2 (Or.inl ⟨rfl, rfl⟩)
      · have := unmarked_mark g st.1 n hin hv
        simp only [enqueue, List.length_append, List.length_singleton]
        omega
    · simp only [if_neg hc]
      refine ⟨h, fun a b hab => hab, ?_, le_refl _⟩
      intro _ hb
      cases hv : st.1 n.x n.y
      · exfalso; apply hc; simp [hv, hb]
      · rfl
  · simp only [if_neg hguard]
    exact ⟨h, fun a b hab => hab, fun hgd => absurd hgd hguard, le_refl _⟩


theorem adjacent_shift_x_neg (g : gamma_t) (cur : field_t) (hin : in_board g cur) (h : cur.x ≠ 0) :
    adjacent cur (shift cur .x (-1)) ∧ in_board g (shift cur .x (-1)) := by
  rw [shift_x_neg]
  refine ⟨Or.inl ⟨rfl, Or.inr ?_⟩, ?_, hin.2⟩
  · show cur.x - 1 + 1 = cur.x; omega
  · show cur.x - 1 < g.width; have := hin.1; omega

theorem adjacent_shift_x_pos (g : gamma_t) (cur : field_t) (hin : in_board g cur)
    (h : cur.x ≠ UINT32_MAX ∧ cur.x + 1 < g.width) :
    adjacent cur (shift cur .x 1) ∧ in_board g (shift cur .x 1) := by
  rw [shift_x_pos]
  exact ⟨Or.inl ⟨rfl, Or.inl rfl⟩, h.2, hin.2⟩

theorem adjacent_shift_y_neg (g : gamma_t) (cur : field_t) (hin : in_board g cur) (h : cur.y ≠ 0) :
    adjacent cur (shift cur .y (-1)) ∧ in_board g (shift cur .y (-1)) := by
  rw [shift_y_neg]
  refine ⟨Or.inr ⟨rfl, Or.inr ?_⟩, hin.1, ?_⟩
  · show cur.y - 1 + 1 = cur.y; omega
  · show cur.y - 1 < g.height; have := hin.2; omega

theorem adjacent_shift_y_pos (g : gamma_t) (cur : field_t) (hin : in_board g cur)
    (h : cur.y ≠ UINT32_MAX ∧ cur.y + 1 < g.height) :
    adjacent cur (shift cur .y 1) ∧ in_board g (shift cur .y 1) := by
  rw [shift_y_pos]
  exact ⟨Or.inr ⟨rfl, Or.inl rfl⟩, hin.1, h.2⟩

/-- A neighbour on the board is one of the four shifted fields, and the guard
of its step holds. -/
theorem adjacent_cases (g : gamma_t) (ht : typed g) (cur n : field_t)
    (hadj : adjacent cur n) (hin : in_board g n) :
    (cur.x ≠ 0 ∧ n = shift cur .x (-1))
    ∨ ((cur.x ≠ UINT32_MAX ∧ cur.x + 1 < g.width) ∧ n = shift cur .x 1)
    ∨ (cur.y ≠ 0 ∧ n = shift cur .y (-1))
    ∨ ((cur.y ≠ UINT32_MAX ∧ cur.y + 1 < g.height) ∧ n = shift cur .y 1) := by
  rw [shift_x_neg, shift_x_pos, shift_y_neg, shift_y_pos]
  obtain ⟨hw, hh⟩ := ht
  obtain ⟨hx, hy⟩ := hin
  cases n with
  | mk nx ny =>
    simp only [adjacent] at hadj
    simp only at hx hy
    simp only [field_t.mk.injEq]
    rcases hadj with ⟨h1, h2 | h2⟩ | ⟨h1, h2 | h2⟩
    · right; left; exact ⟨⟨by omega, by omega⟩, by omega, by omega⟩
    · left; exact ⟨by omega, by omega, by omega⟩
    · right; right; right; exact ⟨⟨by omega, by omega⟩, by omega, by omega⟩
    · right; right; left; exact ⟨by omega, by omega, by omega⟩

/-- Examining the four neighbours of `cur` keeps the invariant of the search,
marks every neighbour on the board that `p` owns, and does not increase the
number of unmarked fields plus the length of the queue. -/
theorem add_to_queue_fields_around_inv (g : gamma_t) (ht : typed g) (p : Nat)
    (visited0 : visited_t) (s cur : field_t) (visited : visited_t) (queue : queue_t)
    (h : bfs_inv g p visited0 s visited queue cur) :
    bfs_inv g p visited0 s (add_to_queue_fields_around g visited queue cur p).1
        (add_to_queue_fields_around g visited queue cur p).2 cur
      ∧ (∀ n, adjacent cur n → in_board g n → g.board n.x n.y = p →
          (add_to_queue_fields_around g visited queue cur p).1 n.x n.y = true)
      ∧ (unmarked g (add_to_queue_fields_around g visited queue cur p).1).card
          + (add_to_queue_fields_around g visited queue cur p).2.length
          ≤ (unmarked g visited).card + queue.length := by
  have h1 := add_to_queue_inv g p visited0 s cur (visited, queue) .x (-1) (cur.x ≠ 0) h
    (adjacent_shift_x_neg g cur h.cur_in)
  have h2 := add_to_queue_inv g p visited0 s cur _ .x 1
    (cur.x ≠ UINT32_MAX ∧ cur.x + 1 < g.width) h1.1 (adjacent_shift_x_pos g cur h.cur_in)
  have h3 := add_to_queue_inv g p visited0 s cur _ .y (-1) (cur.y ≠ 0) h2.1
    (adjacent_shift_y_neg g cur h.cur_in)
  have h4 := add_to_queue_inv g p visited0 s cur _ .y 1
    (cur.y ≠ UINT32_MAX ∧ cur.y + 1 < g.height) h3.1 (adjacent_shift_y_pos g cur h.cur_in)
  refine ⟨h4.1, ?_, ?_⟩
  · intro n hadj hin hb
    rcases adjacent_cases g ht cur n hadj hin with ⟨hg, hn⟩ | ⟨hg, hn⟩ | ⟨hg, hn⟩ | ⟨hg, hn⟩
    · subst hn
      exact h4.2.1 _ _ (h3.2.1 _ _ (h2.2.1 _ _ (h1.2.2.1 hg hb)))
    · subst hn
      exact h4.2.1 _ _ (h3.2.1 _ _ (h2.2.2.1 hg hb))
    · subst hn
      exact h4.2.1 _ _ (h3.2.2.1 hg hb)
    · subst hn
      exact h4.2.2.1 hg hb
  · exact le_trans h4.2.2.2 (le_trans h3.2.2.2 (le_trans h2.2.2.2 h1.2.2.2))


/-- The invariant of the loop of `make_BFS`, between two iterations: the
fields that left the queue have all their neighbours of `p` marked. -/
theorem make_BFS_loop_spec (g : gamma_t) (ht : typed g) (p : Nat) (visited0 : visited_t)
    (s : field_t) :
    ∀ (fuel : Nat) (visited : visited_t) (queue : queue_t) (field : field_t),
      queue ≠ [] →
      (∀ f ∈ queue, in_board g f ∧ fresh_reach g p visited0 s f) →
      (∀ a b, visited a b = true →
        visited0 a b = true ∨ fresh_reach g p visited0 s { x := a, y := b }) →
      (∀ a b, visited0 a b = true → visited a b = true) →
      visited s.x s.y = true →
      (∀ f, fresh_reach g p visited0 s f → visited f.x f.y = true → f ∉ queue →
        ∀ f', fresh_step g p visited0 f f' → visited f'.x f'.y = true) →
      (unmarked g visited).card + queue.length ≤ fuel →
      ∀ a b, make_BFS_loop g p fuel visited queue field a b = true
        ↔ (visited0 a b = true ∨ fresh_reach g p visited0 s { x := a, y := b }) := by
  intro fuel
  induction fuel with
  | zero =>
    intro visited queue field hne _ _ _ _ _ hfuel
    cases queue with
    | nil => exact absurd rfl hne
    | cons f rest => simp only [List.length_cons] at hfuel; omega
  | succ fuel ih =>
    intro visited queue field hne hq hsound hmono hstart hclosed hfuel
    cases queue with
    | nil => exact absurd rfl hne
    | cons f rest =>
      have hinv : bfs_inv g p visited0 s visited rest f :=
        { cur_in := (hq f (List.mem_cons_self _ _)).1
          cur_reach := (hq f (List.mem_cons_self _ _)).2
          queue_ok := fun f' hf' => hq f' (List.mem_cons_of_mem _ hf')
          sound := hsound
          mono := hmono
          start := hstart
          closed := fun f' hr hv hnq hnf =>
            hclosed f' hr hv (by
              intro hmem
              rcases List.mem_cons.1 hmem with h | h
              · exact hnf h
              · exact hnq h) }
      obtain ⟨hinv', hmarked, hmeasure⟩ :=
        add_to_queue_fields_around_inv g ht p visited0 s f visited rest hinv
      have hclosed' : ∀ f', fresh_reach g p visited0 s f' →
          (add_to_queue_fields_around g visited rest f p).1 f'.x f'.y = true →
          f' ∉ (add_to_queue_fields_around g visited rest f p).2 →
          ∀ f'', fresh_step g p visited0 f' f'' →
            (add_to_queue_fields_around g visited rest f p).1 f''.x f''.y = true := by
        intro f' hr hv hnq f'' hstep
        by_cases hf : f' = f
        · subst hf
          exact hmarked f'' hstep.1 hstep.2.1 hstep.2.2.1
        · exact hinv'.closed f' hr hv hnq hf f'' hstep
      simp only [make_BFS_loop, dequeue]
      by_cases hemp : empty_queue (add_to_queue_fields_around g visited rest f p).2 = true
      · rw [if_pos hemp]
        have hnil : (add_to_queue_fields_around g visited rest f p).2 = [] := by
          simpa [empty_queue] using hemp
        intro a b
        constructor
        · exact hinv'.sound a b
        · rintro (h0 | hr)
          · exact hinv'.mono a b h0
          · have hall : ∀ t, fresh_reach g p visited0 s t →
                (add_to_queue_fields_around g visited rest f p).1 t.x t.y = true := by
              intro t ht'
              induction ht' with
              | refl => exact hinv'.start
              | tail hab hbc ihab =>
                exact hclosed' _ hab ihab (by rw [hnil]; exact List.not_mem_nil _) _ hbc
            exact hall _ hr
      · rw [if_neg hemp]
        have hne' : (add_to_queue_fields_around g visited rest f p).2 ≠ [] := by
          intro h; apply hemp; rw [h]; rfl
        apply ih _ _ f hne' hinv'.queue_ok hinv'.sound hinv'.mono hinv'.start hclosed'
        simp only [List.length_cons] at hfuel
        omega

/-- The loop of `make_BFS`, started as `make_BFS` starts it, with any bound of
at least `width * height + 1` iterations. -/
theorem make_BFS_loop_start (g : gamma_t) (ht : typed g) (p : Nat) (visited0 : visited_t)
    (s : field_t) (hin : in_board g s) (fuel : Nat) (hfuel : g.width * g.height + 1 ≤ fuel)
    (a b : Nat) :
    make_BFS_loop g p fuel (mark visited0 s.x s.y) (enqueue init_queue s) s a b = true
      ↔ (visited0 a b = true ∨ fresh_reach g p visited0 s { x := a, y := b }) := by
  have hkey := make_BFS_loop_spec g ht p visited0 s fuel
    (mark visited0 s.x s.y) [s] s (by simp)
    (by
      intro f hf
      rw [List.mem_singleton] at hf
      subst hf
      exact ⟨hin, Relation.ReflTransGen.refl⟩)
    (by
      intro a b hab
      rcases (mark_eq _ _ _ _ _).1 hab with ⟨ha, hb⟩ | hab
      · right; subst ha; subst hb; exact Relation.ReflTransGen.refl
      · exact Or.inl hab)
    (fun a b hab => (mark_eq _ _ _ _ _).2 (Or.inr hab))
    ((mark_eq _ _ _ _ _).2 (Or.inl ⟨rfl, rfl⟩))
    (by
      intro f hr hv hnq
      exfalso
      rw [List.mem_singleton] at hnq
      rcases Relation.ReflTransGen.cases_tail hr with h | ⟨c, _, hstep⟩
      · exact hnq h
      · rcases (mark_eq _ _ _ _ _).1 hv with ⟨ha, hb⟩ | hv
        · apply hnq; cases f; cases s; simp_all
        · rw [hstep.2.2.2] at hv; exact Bool.noConfusion hv)
    (by
      have := unmarked_card_le g (mark visited0 s.x s.y)
      simp only [List.length_singleton]
      omega)
    a b
  exact hkey

/-- The marks after `make_BFS`: the marks there were before and the fields
the search can arrive at from the start field. -/
theorem make_BFS_spec (g : gamma_t) (ht : typed g) (p : Nat) (visited0 : visited_t)
    (s : field_t) (hin : in_board g s) (a b : Nat) :
    make_BFS g p visited0 s a b = true
      ↔ (visited0 a b = true ∨ fresh_reach g p visited0 s { x := a, y := b }) :=
  make_BFS_loop_start g ht p visited0 s hin _ (le_refl _) a b

/-- The bound on the number of iterations in `make_BFS` is never reached: a
larger bound gives the same marks. -/
theorem make_BFS_loop_fuel (g : gamma_t) (ht : typed g) (p : Nat) (visited0 : visited_t)
    (s : field_t) (hin : in_board g s) (fuel : Nat) (hfuel : g.width * g.height + 1 ≤ fuel) :
    make_BFS_loop g p fuel (mark visited0 s.x s.y) (enqueue init_queue s) s
      = make_BFS g p visited0 s := by
  funext a b
  rw [Bool.eq_iff_iff, make_BFS_loop_start g ht p visited0 s hin fuel hfuel a b,
    make_BFS_spec g ht p visited0 s hin a b]


/-! ## Areas -/

theorem adjacent_symm {a b : field_t} (h : adjacent a b) : adjacent b a := by
  unfold adjacent at h ⊢
  rcases h with ⟨h1, h2⟩ | ⟨h1, h2⟩
  · exact Or.inl ⟨h1.symm, h2.symm⟩
  · exact Or.inr ⟨h1.symm, h2.symm⟩

theorem adjacent_irrefl (a : field_t) : ¬ adjacent a a := by
  unfold adjacent
  omega

theorem linked_symm {g : gamma_t} {p : Nat} {a b : field_t} (h : linked g p a b) :
    linked g p b a :=
  ⟨h.2.1, h.1, adjacent_symm h.2.2⟩

theorem same_area_symm {g : gamma_t} {p : Nat} {a b : field_t} (h : same_area g p a b) :
    same_area g p b a :=
  Relation.ReflTransGen.symmetric (fun _ _ h => linked_symm h) h

theorem same_area_trans {g : gamma_t} {p : Nat} {a b c : field_t} (h : same_area g p a b)
    (h' : same_area g p b c) : same_area g p a c :=
  Relation.ReflTransGen.trans h h'

/-- A path between two different fields only passes fields of `p`. -/
theorem same_area_owns {g : gamma_t} {p : Nat} {a b : field_t} (h : same_area g p a b) :
    a = b ∨ (owns g p a ∧ owns g p b) := by
  induction h with
  | refl => exact Or.inl rfl
  | tail hab hbc ih =>
    rcases ih with ih | ih
    · subst ih; exact Or.inr ⟨hbc.1, hbc.2.1⟩
    · exact Or.inr ⟨ih.1, hbc.2.1⟩

/-- The notions about the areas of `p` only depend on which fields `p` owns. -/
theorem same_area_congr {g g' : gamma_t} {p : Nat} (h : ∀ f, owns g p f ↔ owns g' p f) :
    same_area g p = same_area g' p := by
  have ho : owns g p = owns g' p := funext fun f => propext (h f)
  unfold same_area linked
  rw [ho]

theorem area_representatives_congr {g g' : gamma_t} {p : Nat}
    (h : ∀ f, owns g p f ↔ owns g' p f) (touch : field_t → Prop) (reps : Finset field_t) :
    area_representatives g p touch reps ↔ area_representatives g' p touch reps := by
  have ho : owns g p = owns g' p := funext fun f => propext (h f)
  unfold area_representatives
  rw [same_area_congr h, ho]

theorem area_count_congr {g g' : gamma_t} {p : Nat} (h : ∀ f, owns g p f ↔ owns g' p f)
    (n : Nat) : area_count g p n ↔ area_count g' p n := by
  unfold area_count
  simp only [area_representatives_congr h]

theorem areas_around_congr {g g' : gamma_t} {p : Nat} (h : ∀ f, owns g p f ↔ owns g' p f)
    (x y k : Nat) : areas_around g p x y k ↔ areas_around g' p x y k := by
  unfold areas_around
  simp only [area_representatives_congr h]

/-- A set of fields in pairwise different areas is no larger than a set that
meets each of their areas. -/
theorem card_le_of_cover (g : gamma_t) (p : Nat) (A B : Finset field_t)
    (hA : ∀ a ∈ A, ∀ a' ∈ A, same_area g p a a' → a = a')
    (hcover : ∀ a ∈ A, ∃ b ∈ B, same_area g p b a) : A.card ≤ B.card := by
  classical
  have hex : ∀ a, ∃ b, a ∈ A → b ∈ B ∧ same_area g p b a := by
    intro a
    by_cases ha : a ∈ A
    · obtain ⟨b, hb, hab⟩ := hcover a ha
      exact ⟨b, fun _ => ⟨hb, hab⟩⟩
    · exact ⟨a, fun h => absurd h ha⟩
  choose φ hφ using hex
  apply Finset.card_le_card_of_injOn φ
  · intro a ha
    exact (hφ a ha).1
  · intro a ha a' ha' heq
    apply hA a ha a' ha'
    have h1 := (hφ a ha).2
    have h2 := (hφ a' ha').2
    rw [Finset.mem_coe] at ha ha'
    rw [heq] at h1
    exact same_area_trans (same_area_symm h1) h2

/-- Two sets of representatives of the same areas have the same size. -/
theorem area_representatives_card (g : gamma_t) (p : Nat) (touch : field_t → Prop)
    (A B : Finset field_t) (hA : area_representatives g p touch A)
    (hB : area_representatives g p touch B) : A.card = B.card := by
  apply le_antisymm
  · exact card_le_of_cover g p A B hA.2.2 (fun a ha => hB.2.1 a (hA.1 a ha).1 (hA.1 a ha).2)
  · exact card_le_of_cover g p B A hB.2.2 (fun b hb => hA.2.1 b (hB.1 b hb).1 (hB.1 b hb).2)

/-- The number of areas of a player is determined by the board. -/
theorem area_count_unique (g : gamma_t) (p n m : Nat) (hn : area_count g p n)
    (hm : area_count g p m) : n = m := by
  obtain ⟨A, hA, hA'⟩ := hn
  obtain ⟨B, hB, hB'⟩ := hm
  rw [← hA, ← hB]
  exact area_representatives_card g p _ A B hA' hB'

/-- The number of areas of a player around a field is determined by the board. -/
theorem areas_around_unique (g : gamma_t) (p x y n m : Nat) (hn : areas_around g p x y n)
    (hm : areas_around g p x y m) : n = m := by
  obtain ⟨A, hA, hA'⟩ := hn
  obtain ⟨B, hB, hB'⟩ := hm
  rw [← hA, ← hB]
  exact area_representatives_card g p _ A B hA' hB'

/-- A player has no more areas than fields. -/
theorem area_count_le_count_owned (g : gamma_t) (p n : Nat) (hn : area_count g p n) :
    n ≤ count_owned g p := by
  obtain ⟨A, hA, hA'⟩ := hn
  rw [← hA]
  unfold count_owned
  apply Finset.card_le_card_of_injOn (fun r : field_t => (r.x, r.y))
  · intro r hr
    have := (hA'.1 r hr).1
    simp only [Finset.mem_filter, Finset.mem_product, Finset.mem_range]
    exact ⟨⟨this.1.1, this.1.2⟩, this.2⟩
  · intro r _ r' _ heq
    cases r; cases r'
    simp only [Prod.mk.injEq] at heq
    simp [heq.1, heq.2]

theorem count_owned_le (g : gamma_t) (p : Nat) : count_owned g p ≤ g.width * g.height := by
  unfold count_owned
  calc _ ≤ (Finset.range g.width ×ˢ Finset.range g.height).card := Finset.card_filter_le _ _
    _ = g.width * g.height := by simp

/-- The fields of every finite set of fields of `p` have representatives. -/
theorem exists_representatives (g : gamma_t) (p : Nat) (S : Finset field_t) :
    (∀ f ∈ S, owns g p f) →
    ∃ reps : Finset field_t, (∀ r ∈ reps, owns g p r)
      ∧ (∀ f ∈ S, ∃ r ∈ reps, same_area g p r f)
      ∧ (∀ r ∈ reps, ∀ r' ∈ reps, same_area g p r r' → r = r') := by
  classical
  induction S using Finset.induction_on with
  | empty =>
    intro _
    exact ⟨∅, by simp, by simp, by simp⟩
  | insert hnot ih =>
    rename_i f S
    intro hS
    obtain ⟨reps, h1, h2, h3⟩ := ih (fun f' hf' => hS f' (Finset.mem_insert_of_mem hf'))
    by_cases hex : ∃ r ∈ reps, same_area g p r f
    · refine ⟨reps, h1, ?_, h3⟩
      intro f' hf'
      rcases Finset.mem_insert.1 hf' with h | h
      · subst h; exact hex
      · exact h2 f' h
    · refine ⟨insert f reps, ?_, ?_, ?_⟩
      · intro r hr
        rcases Finset.mem_insert.1 hr with h | h
        · subst h; exact hS _ (Finset.mem_insert_self _ _)
        · exact h1 r h
      · intro f' hf'
        rcases Finset.mem_insert.1 hf' with h | h
        · subst h; exact ⟨_, Finset.mem_insert_self _ _, Relation.ReflTransGen.refl⟩
        · obtain ⟨r, hr, hrf⟩ := h2 f' h
          exact ⟨r, Finset.mem_insert_of_mem hr, hrf⟩
      · intro r hr r' hr' hrr
        rcases Finset.mem_insert.1 hr with h | h <;> rcases Finset.mem_insert.1 hr' with h' | h'
        · rw [h, h']
        · subst h; exact absurd ⟨r', h', same_area_symm hrr⟩ hex
        · subst h'; exact absurd ⟨r, h, hrr⟩ hex
        · exact h3 r h r' h' hrr

/-- Every board splits the fields of a player into some number of areas. -/
theorem area_count_exists (g : gamma_t) (p : Nat) : ∃ n, area_count g p n := by
  classical
  have hS := exists_representatives g p
    (((Finset.range g.width ×ˢ Finset.range g.height).filter
      (fun c => g.board c.1 c.2 = p)).image (fun c => ({ x := c.1, y := c.2 } : field_t)))
    (by
      intro f hf
      simp only [Finset.mem_image, Finset.mem_filter, Finset.mem_product, Finset.mem_range] at hf
      obtain ⟨c, ⟨⟨hx, hy⟩, hb⟩, hc⟩ := hf
      subst hc
      exact ⟨⟨hx, hy⟩, hb⟩)
  obtain ⟨reps, h1, h2, h3⟩ := hS
  refine ⟨reps.card, reps, rfl, fun r hr => ⟨h1 r hr, trivial⟩, ?_, h3⟩
  intro f hf _
  apply h2
  simp only [Finset.mem_image, Finset.mem_filter, Finset.mem_product, Finset.mem_range]
  exact ⟨(f.x, f.y), ⟨⟨hf.1.1, hf.1.2⟩, hf.2⟩, rfl⟩


/-! ## Placing a pawn on a field that the player does not own -/

theorem owns_set_board (g : gamma_t) (x y v p : Nat) (f : field_t) :
    owns (set_board g x y v) p f
      ↔ (f = { x := x, y := y } ∧ in_board g f ∧ v = p)
        ∨ (f ≠ { x := x, y := y } ∧ owns g p f) := by
  cases f with
  | mk fx fy =>
    simp only [owns, in_board, set_board, field_t.mk.injEq]
    by_cases h : fx = x ∧ fy = y
    · simp [h]
    · simp [h]

theorem owns_place (g : gamma_t) (p x y : Nat) (hin : in_board g { x := x, y := y })
    (hne : g.board x y ≠ p) (f : field_t) :
    owns (set_board g x y p) p f ↔ f = { x := x, y := y } ∨ owns g p f := by
  rw [owns_set_board]
  constructor
  · rintro (⟨h, _, _⟩ | ⟨_, h⟩)
    · exact Or.inl h
    · exact Or.inr h
  · rintro (h | h)
    · subst h; exact Or.inl ⟨rfl, hin, rfl⟩
    · refine Or.inr ⟨?_, h⟩
      intro hf; subst hf; exact hne h.2

/-- Writing an owner to a field changes nothing for a player who neither had
nor gets the field. -/
theorem owns_frame (g : gamma_t) (x y v q : Nat) (hv : v ≠ q) (hq : g.board x y ≠ q)
    (f : field_t) : owns (set_board g x y v) q f ↔ owns g q f := by
  rw [owns_set_board]
  constructor
  · rintro (⟨_, _, h⟩ | ⟨_, h⟩)
    · exact absurd h hv
    · exact h
  · intro h
    refine Or.inr ⟨?_, h⟩
    intro hf; subst hf; exact hq h.2

theorem same_area_place_mono (g : gamma_t) (p x y : Nat) (hin : in_board g { x := x, y := y })
    (hne : g.board x y ≠ p) {a b : field_t} (h : same_area g p a b) :
    same_area (set_board g x y p) p a b := by
  apply Relation.ReflTransGen.mono _ h
  intro a b hab
  exact ⟨(owns_place g p x y hin hne a).2 (Or.inr hab.1),
    (owns_place g p x y hin hne b).2 (Or.inr hab.2.1), hab.2.2⟩

theorem touches_place (g : gamma_t) (p x y : Nat) (hin : in_board g { x := x, y := y })
    (hne : g.board x y ≠ p) {a : field_t} (h : a = { x := x, y := y } ∨ touches g p x y a) :
    same_area (set_board g x y p) p a { x := x, y := y } := by
  rcases h with h | ⟨n, hn, hadj, han⟩
  · subst h; exact Relation.ReflTransGen.refl
  · apply Relation.ReflTransGen.tail (same_area_place_mono g p x y hin hne han)
    exact ⟨(owns_place g p x y hin hne n).2 (Or.inr hn),
      (owns_place g p x y hin hne _).2 (Or.inl rfl), adjacent_symm hadj⟩

/-- After the field `(x, y)` went to `p`, two fields are in the same area of
`p` exactly when they were before, or when both are the new field or were in an
area with a neighbour of it. -/
theorem same_area_place_iff (g : gamma_t) (p x y : Nat) (hin : in_board g { x := x, y := y })
    (hne : g.board x y ≠ p) (a b : field_t) :
    same_area (set_board g x y p) p a b
      ↔ same_area g p a b
        ∨ ((a = { x := x, y := y } ∨ touches g p x y a)
          ∧ (b = { x := x, y := y } ∨ touches g p x y b)) := by
  constructor
  · intro h
    induction h with
    | refl => exact Or.inl Relation.ReflTransGen.refl
    | tail hab hbd ih =>
      rename_i b d
      have hnotc : ¬ owns g p { x := x, y := y } := fun h => hne h.2
      obtain ⟨hb, hd, hadj⟩ := hbd
      rw [owns_place g p x y hin hne] at hb hd
      rcases hb with hb | hb
      · -- the step leaves the new field
        subst hb
        rcases hd with hd | hd
        · subst hd; exact absurd hadj (adjacent_irrefl _)
        · have htd : touches g p x y d := ⟨d, hd, hadj, Relation.ReflTransGen.refl⟩
          rcases ih with ih | ih
          · rcases same_area_owns ih with h | h
            · exact Or.inr ⟨Or.inl h, Or.inr htd⟩
            · exact absurd h.2 hnotc
          · exact Or.inr ⟨ih.1, Or.inr htd⟩
      · rcases hd with hd | hd
        · -- the step enters the new field
          subst hd
          have htb : touches g p x y b := ⟨b, hb, adjacent_symm hadj, Relation.ReflTransGen.refl⟩
          rcases ih with ih | ih
          · refine Or.inr ⟨Or.inr ?_, Or.inl rfl⟩
            exact ⟨b, hb, adjacent_symm hadj, ih⟩
          · exact Or.inr ⟨ih.1, Or.inl rfl⟩
        · -- a step of the old board
          have hl : linked g p b d := ⟨hb, hd, hadj⟩
          rcases ih with ih | ih
          · exact Or.inl (Relation.ReflTransGen.tail ih hl)
          · refine Or.inr ⟨ih.1, Or.inr ?_⟩
            rcases ih.2 with h | ⟨n, hn, hcn, hbn⟩
            · subst h; exact absurd hb hnotc
            · exact ⟨n, hn, hcn,
                same_area_trans (Relation.ReflTransGen.single (linked_symm hl)) hbn⟩
  · rintro (h | ⟨ha, hb⟩)
    · exact same_area_place_mono g p x y hin hne h
    · exact same_area_trans (touches_place g p x y hin hne ha)
        (same_area_symm (touches_place g p x y hin hne hb))

/-- Placing a pawn of `p` on a field that `p` does not own joins the `k` areas
of `p` around the field and the field into one area. -/
theorem area_count_place (g : gamma_t) (p x y N k : Nat) (hin : in_board g { x := x, y := y })
    (hne : g.board x y ≠ p) (hN : area_count g p N) (hk : areas_around g p x y k) :
    k ≤ N ∧ area_count (set_board g x y p) p (N + 1 - k) := by
  classical
  obtain ⟨reps, hcard, hr1, hr2, hr3⟩ := hN
  obtain ⟨nreps, hkcard, hn1, hn2, hn3⟩ := hk
  have hnotc : ¬ owns g p { x := x, y := y } := fun h => hne h.2
  -- the representatives of the areas around the field
  have hT1 : (reps.filter (fun r => touches g p x y r)).card ≤ nreps.card := by
    apply card_le_of_cover g p
    · intro a ha a' ha' h
      exact hr3 a (Finset.mem_filter.1 ha).1 a' (Finset.mem_filter.1 ha').1 h
    · intro a ha
      obtain ⟨n, hn, hcn, han⟩ := (Finset.mem_filter.1 ha).2
      obtain ⟨r, hr, hrn⟩ := hn2 n hn hcn
      exact ⟨r, hr, same_area_trans hrn (same_area_symm han)⟩
  have hT2 : nreps.card ≤ (reps.filter (fun r => touches g p x y r)).card := by
    apply card_le_of_cover g p
    · exact hn3
    · intro n hn
      obtain ⟨r, hr, hrn⟩ := hr2 n (hn1 n hn).1 trivial
      exact ⟨r, Finset.mem_filter.2 ⟨hr, n, (hn1 n hn).1, (hn1 n hn).2, hrn⟩, hrn⟩
  have hT : (reps.filter (fun r => touches g p x y r)).card = k := by omega
  have hsub : reps.filter (fun r => touches g p x y r) ⊆ reps := Finset.filter_subset _ _
  have hkN : k ≤ N := by
    rw [← hT, ← hcard]; exact Finset.card_le_card hsub
  refine ⟨hkN, insert { x := x, y := y } (reps \ reps.filter (fun r => touches g p x y r)),
    ?_, ?_, ?_, ?_⟩
  · rw [Finset.card_insert_of_not_mem, Finset.card_sdiff hsub, hT, hcard]
    · omega
    · intro h
      exact hnotc (hr1 _ (Finset.mem_sdiff.1 h).1).1
  · intro r hr
    refine ⟨?_, trivial⟩
    rw [owns_place g p x y hin hne]
    rcases Finset.mem_insert.1 hr with h | h
    · exact Or.inl h
    · exact Or.inr (hr1 r (Finset.mem_sdiff.1 h).1).1
  · intro f hf _
    rw [owns_place g p x y hin hne] at hf
    rcases hf with hf | hf
    · subst hf
      exact ⟨_, Finset.mem_insert_self _ _, Relation.ReflTransGen.refl⟩
    · obtain ⟨r, hr, hrf⟩ := hr2 f hf trivial
      by_cases ht : touches g p x y r
      · refine ⟨_, Finset.mem_insert_self _ _, ?_⟩
        exact same_area_trans (same_area_symm (touches_place g p x y hin hne (Or.inr ht)))
          (same_area_place_mono g p x y hin hne hrf)
      · refine ⟨r, Finset.mem_insert_of_mem (Finset.mem_sdiff.2 ⟨hr, ?_⟩),
          same_area_place_mono g p x y hin hne hrf⟩
        intro h
        exact ht (Finset.mem_filter.1 h).2
  · intro r hr r' hr' hrr
    have hold : ∀ t, t ∈ insert ({ x := x, y := y } : field_t)
        (reps \ reps.filter (fun r => touches g p x y r)) →
        t = { x := x, y := y } ∨ (t ∈ reps ∧ ¬ touches g p x y t) := by
      intro t ht
      rcases Finset.mem_insert.1 ht with h | h
      · exact Or.inl h
      · refine Or.inr ⟨(Finset.mem_sdiff.1 h).1, fun htt => ?_⟩
        exact (Finset.mem_sdiff.1 h).2 (Finset.mem_filter.2 ⟨(Finset.mem_sdiff.1 h).1, htt⟩)
    have hnc : ∀ t, t ∈ reps → t ≠ { x := x, y := y } := by
      intro t ht h
      subst h
      exact hnotc (hr1 _ ht).1
    rcases (same_area_place_iff g p x y hin hne r r').1 hrr with h | ⟨h1, h2⟩
    · rcases hold r hr with h1 | h1 <;> rcases hold r' hr' with h2 | h2
      · rw [h1, h2]
      · rcases same_area_owns h with h3 | h3
        · exact h3
        · subst h1; exact absurd h3.1 hnotc
      · rcases same_area_owns h with h3 | h3
        · exact h3
        · subst h2; exact absurd h3.2 hnotc
      · exact hr3 r h1.1 r' h2.1 h
    · have e1 : r = { x := x, y := y } := by
        rcases hold r hr with h | h
        · exact h
        · rcases h1 with h1 | h1
          · exact h1
          · exact absurd h1 h.2
      have e2 : r' = { x := x, y := y } := by
        rcases hold r' hr' with h | h
        · exact h
        · rcases h2 with h2 | h2
          · exact h2
          · exact absurd h2 h.2
      rw [e1, e2]


/-- Taking a field away from its owner `o`: the area of the field is replaced
by the `s` areas that remain around it. -/
theorem area_count_capture (g : gamma_t) (o x y N s : Nat) (hin : in_board g { x := x, y := y })
    (ho : g.board x y = o) (ho0 : o ≠ 0) (hN : area_count g o N)
    (hs : areas_around (set_board g x y 0) o x y s) :
    1 ≤ N + s ∧ area_count (set_board g x y 0) o (N + s - 1) := by
  obtain ⟨M, hM⟩ := area_count_exists (set_board g x y 0) o
  have hb0 : (set_board g x y 0).board x y ≠ o := by
    simp only [set_board, and_self, if_true]
    exact fun h => ho0 h.symm
  obtain ⟨hsM, hback⟩ := area_count_place (set_board g x y 0) o x y M s hin hb0 hM hs
  have hsame : ∀ f, owns (set_board (set_board g x y 0) x y o) o f ↔ owns g o f := by
    intro f
    rw [owns_set_board, owns_set_board]
    constructor
    · rintro (⟨h, h', _⟩ | ⟨_, ⟨h, _, _⟩ | ⟨_, h⟩⟩)
      · subst h; exact ⟨hin, ho⟩
      · subst h; exact ⟨hin, ho⟩
      · exact h
    · intro h
      by_cases hf : f = { x := x, y := y }
      · exact Or.inl ⟨hf, h.1, rfl⟩
      · exact Or.inr ⟨hf, Or.inr ⟨hf, h⟩⟩
  have hN' := (area_count_congr hsame _).1 hback
  have heq := area_count_unique g o _ _ hN hN'
  have hM' : M = N + s - 1 := by omega
  rw [← hM']
  exact ⟨by omega, hM⟩

/-! ## Counting the areas around a field -/

/-- While the marks are whole areas of `p`, the search from an unmarked field
of `p` arrives exactly at the fields of its area. -/
theorem fresh_reach_iff_same_area (g : gamma_t) (p : Nat) (visited : visited_t) (n : field_t)
    (hclosed : ∀ f f', visited f.x f.y = true → same_area g p f f' → visited f'.x f'.y = true)
    (hn : owns g p n) (hv : visited n.x n.y = false) (f : field_t) :
    fresh_reach g p visited n f ↔ same_area g p n f := by
  constructor
  · intro h
    have : same_area g p n f ∧ owns g p f := by
      induction h with
      | refl => exact ⟨Relation.ReflTransGen.refl, hn⟩
      | tail _ hbc ih =>
        have hb : owns g p _ := ⟨hbc.2.1, hbc.2.2.1⟩
        exact ⟨Relation.ReflTransGen.tail ih.1 ⟨ih.2, hb, hbc.1⟩, hb⟩
    exact this.1
  · intro h
    induction h with
    | refl => exact Relation.ReflTransGen.refl
    | tail hab hbc ih =>
      rename_i b d
      apply Relation.ReflTransGen.tail ih
      refine ⟨hbc.2.2, hbc.2.1.1, hbc.2.1.2, ?_⟩
      cases hvd : visited d.x d.y
      · rfl
      · have hnd : same_area g p n d := Relation.ReflTransGen.tail hab hbc
        have := hclosed d n hvd (same_area_symm hnd)
        rw [hv] at this
        exact Bool.noConfusion this

/-- One guarded call of `is_another_area` keeps the invariant of
`number_of_connected_areas`. -/
theorem is_another_area_inv (g : gamma_t) (ht : typed g) (p x y : Nat)
    (st : visited_t × Nat) (done : field_t → Prop) (c : coordinate_t) (k : Int)
    (guard : Prop) [Decidable guard] (h : scan_inv g p x y st.1 st.2 done)
    (hg : guard → adjacent { x := x, y := y } (shift { x := x, y := y } c k)
      ∧ in_board g (shift { x := x, y := y } c k)) :
    scan_inv g p x y
      (if guard then
        ((is_another_area g st.1 { x := x, y := y } p c k).1,
          st.2 + (is_another_area g st.1 { x := x, y := y } p c k).2.toNat)
      else st).1
      (if guard then
        ((is_another_area g st.1 { x := x, y := y } p c k).1,
          st.2 + (is_another_area g st.1 { x := x, y := y } p c k).2.toNat)
      else st).2
      (fun f => done f ∨ (guard ∧ f = shift { x := x, y := y } c k)) := by
  classical
  obtain ⟨reps, hcard, h1, h2, h3, h4⟩ := h
  by_cases hguard : guard
  · obtain ⟨hadj, hin⟩ := hg hguard
    simp only [if_pos hguard]
    unfold is_another_area
    generalize shift { x := x, y := y } c k = n at hadj hin ⊢
    by_cases hc : (st.1 n.x n.y == false && g.board n.x n.y == p) = true
    · simp only [if_pos hc]
      simp only [Bool.and_eq_true, beq_iff_eq] at hc
      obtain ⟨hv, hb⟩ := hc
      have hown : owns g p n := ⟨hin, hb⟩
      have hclosed : ∀ f f', st.1 f.x f.y = true → same_area g p f f' →
          st.1 f'.x f'.y = true := by
        intro f f' hf hff
        obtain ⟨r, hr, hrf⟩ := (h4 f.x f.y).1 hf
        exact (h4 f'.x f'.y).2 ⟨r, hr, same_area_trans hrf hff⟩
      have hnr : ∀ r ∈ reps, ¬ same_area g p r n := by
        intro r hr hrn
        have := (h4 n.x n.y).2 ⟨r, hr, hrn⟩
        rw [hv] at this
        exact Bool.noConfusion this
      have hnot : n ∉ reps := fun hmem => hnr n hmem Relation.ReflTransGen.refl
      refine ⟨insert n reps, ?_, ?_, ?_, ?_, ?_⟩
      · rw [Finset.card_insert_of_not_mem hnot, hcard]; rfl
      · intro r hr
        rcases Finset.mem_insert.1 hr with h | h
        · subst h; exact ⟨hown, hadj⟩
        · exact h1 r h
      · intro f hf hfo
        rcases hf with hf | ⟨_, hf⟩
        · obtain ⟨r, hr, hrf⟩ := h2 f hf hfo
          exact ⟨r, Finset.mem_insert_of_mem hr, hrf⟩
        · subst hf
          exact ⟨_, Finset.mem_insert_self _ _, Relation.ReflTransGen.refl⟩
      · intro r hr r' hr' hrr
        rcases Finset.mem_insert.1 hr with h | h <;> rcases Finset.mem_insert.1 hr' with h' | h'
        · rw [h, h']
        · subst h; exact absurd (same_area_symm hrr) (hnr r' h')
        · subst h'; exact absurd hrr (hnr r h)
        · exact h3 r h r' h' hrr
      · intro a b
        rw [make_BFS_spec g ht p st.1 n hin a b,
          fresh_reach_iff_same_area g p st.1 n hclosed hown hv, h4 a b]
        constructor
        · rintro (⟨r, hr, hrf⟩ | h)
          · exact ⟨r, Finset.mem_insert_of_mem hr, hrf⟩
          · exact ⟨n, Finset.mem_insert_self _ _, h⟩
        · rintro ⟨r, hr, hrf⟩
          rcases Finset.mem_insert.1 hr with h | h
          · subst h; exact Or.inr hrf
          · exact Or.inl ⟨r, h, hrf⟩
    · simp only [if_neg hc]
      refine ⟨reps, ?_, h1, ?_, h3, h4⟩
      · rw [hcard]; rfl
      · intro f hf hfo
        rcases hf with hf | ⟨_, hf⟩
        · exact h2 f hf hfo
        · subst hf
          apply (h4 f.x f.y).1
          cases hv : st.1 f.x f.y
          · exfalso; apply hc; simp [hv, hfo.2]
          · rfl
  · simp only [if_neg hguard]
    refine ⟨reps, hcard, h1, ?_, h3, h4⟩
    intro f hf hfo
    rcases hf with hf | ⟨hf, _⟩
    · exact h2 f hf hfo
    · exact absurd hf hguard

/-- The value of `number_of_connected_areas` is the number of areas of `p`
that contain a neighbour of the field `(x, y)`. -/
theorem number_of_connected_areas_spec (g : gamma_t) (ht : typed g) (p x y : Nat)
    (hin : in_board g { x := x, y := y }) :
    areas_around g p x y (number_of_connected_areas g p x y) := by
  have h0 : scan_inv g p x y (init_board, 0).1 (init_board, 0).2 (fun _ => False) := by
    refine ⟨∅, rfl, by simp, by simp, by simp, ?_⟩
    intro a b
    simp [init_board]
  have h1 := is_another_area_inv g ht p x y _ _ .x (-1) (x ≠ 0) h0
    (adjacent_shift_x_neg g { x := x, y := y } hin)
  have h2 := is_another_area_inv g ht p x y _ _ .x 1 (x ≠ UINT32_MAX ∧ x + 1 < g.width) h1
    (adjacent_shift_x_pos g { x := x, y := y } hin)
  have h3 := is_another_area_inv g ht p x y _ _ .y (-1) (y ≠ 0) h2
    (adjacent_shift_y_neg g { x := x, y := y } hin)
  have h4 := is_another_area_inv g ht p x y _ _ .y 1 (y ≠ UINT32_MAX ∧ y + 1 < g.height) h3
    (adjacent_shift_y_pos g { x := x, y := y } hin)
  obtain ⟨reps, hcard, hr1, hr2, hr3, _⟩ := h4
  refine ⟨reps, hcard, hr1, ?_, hr3⟩
  intro f hf hadj
  apply hr2 f _ hf
  rcases adjacent_cases g ht { x := x, y := y } f hadj hf.1 with
    ⟨hg, hn⟩ | ⟨hg, hn⟩ | ⟨hg, hn⟩ | ⟨hg, hn⟩
  · exact Or.inl (Or.inl (Or.inl (Or.inr ⟨hg, hn⟩)))
  · exact Or.inl (Or.inl (Or.inr ⟨hg, hn⟩))
  · exact Or.inl (Or.inr ⟨hg, hn⟩)
  · exact Or.inr ⟨hg, hn⟩


/-! ## Machine arithmetic without wrap-around -/

theorem to_u32_eq (i : Int) (n : Nat) (h : i = n) (hn : n ≤ UINT32_MAX) : to_u32 i = n := by
  unfold to_u32; unfold UINT32_MAX at hn; omega

theorem to_u64_eq (i : Int) (n : Nat) (h : i = n) (hn : n ≤ UINT32_MAX) : to_u64 i = n := by
  unfold to_u64; unfold UINT32_MAX at hn; omega

/-- The subtraction `areas -= k - 1` in 32-bit arithmetic. -/
theorem to_u32_sub (N k : Nat) (hk : k ≤ N) (hN : N + 1 - k ≤ UINT32_MAX) (hk4 : k ≤ UINT32_MAX) :
    to_u32 ((N : Int) - to_u32 ((k : Int) - 1)) = N + 1 - k := by
  unfold to_u32; unfold UINT32_MAX at hN hk4; omega


/-! ## Counting the fields of a player -/

theorem count_owned_frame (g : gamma_t) (x y v q : Nat) (hv : v ≠ q) (hq : g.board x y ≠ q) :
    count_owned (set_board g x y v) q = count_owned g q := by
  unfold count_owned
  congr 1
  apply Finset.filter_congr
  intro c _
  simp only [set_board]
  by_cases h : c.1 = x ∧ c.2 = y
  · rw [if_pos h, h.1, h.2]
    exact ⟨fun h' => absurd h' hv, fun h' => absurd h' hq⟩
  · rw [if_neg h]

theorem count_owned_gain (g : gamma_t) (x y v : Nat) (hin : in_board g { x := x, y := y })
    (hv : g.board x y ≠ v) : count_owned (set_board g x y v) v = count_owned g v + 1 := by
  unfold count_owned
  have hset : (Finset.range (set_board g x y v).width ×ˢ Finset.range (set_board g x y v).height).filter
      (fun c => (set_board g x y v).board c.1 c.2 = v)
      = insert (x, y) ((Finset.range g.width ×ˢ Finset.range g.height).filter
          (fun c => g.board c.1 c.2 = v)) := by
    ext c
    simp only [set_board, Finset.mem_filter, Finset.mem_product, Finset.mem_range,
      Finset.mem_insert]
    by_cases h : c.1 = x ∧ c.2 = y
    · rw [if_pos h]
      have hc : c = (x, y) := Prod.ext h.1 h.2
      subst hc
      simp only [true_or, iff_true, and_true]
      exact ⟨hin.1, hin.2⟩
    · rw [if_neg h]
      have hc : c ≠ (x, y) := fun hc => h (by rw [hc]; exact ⟨rfl, rfl⟩)
      simp [hc]
  rw [hset, Finset.card_insert_of_not_mem]
  simp only [Finset.mem_filter, not_and]
  intro _ h
  exact hv h

theorem count_owned_loss (g : gamma_t) (x y v o : Nat) (hin : in_board g { x := x, y := y })
    (ho : g.board x y = o) (hv : v ≠ o) :
    count_owned (set_board g x y v) o + 1 = count_owned g o := by
  unfold count_owned
  have hmem : (x, y) ∈ (Finset.range g.width ×ˢ Finset.range g.height).filter
      (fun c => g.board c.1 c.2 = o) := by
    simp only [Finset.mem_filter, Finset.mem_product, Finset.mem_range]
    exact ⟨⟨hin.1, hin.2⟩, ho⟩
  have hset : (Finset.range (set_board g x y v).width ×ˢ Finset.range (set_board g x y v).height).filter
      (fun c => (set_board g x y v).board c.1 c.2 = o)
      = ((Finset.range g.width ×ˢ Finset.range g.height).filter
          (fun c => g.board c.1 c.2 = o)).erase (x, y) := by
    ext c
    simp only [set_board, Finset.mem_filter, Finset.mem_product, Finset.mem_range,
      Finset.mem_erase]
    by_cases h : c.1 = x ∧ c.2 = y
    · rw [if_pos h]
      have hc : c = (x, y) := Prod.ext h.1 h.2
      subst hc
      simp [hv]
    · rw [if_neg h]
      have hc : c ≠ (x, y) := fun hc => h (by rw [hc]; exact ⟨rfl, rfl⟩)
      simp [hc]
  rw [hset, Finset.card_erase_of_mem hmem]
  have := Finset.card_pos.2 ⟨_, hmem⟩
  omega

/-! ## Neighbours -/

/-- The test `player_fields_around` finds the neighbours on the board that
`player` owns. -/
theorem player_fields_around_iff (g : gamma_t) (ht : typed g) (player x y : Nat)
    (hin : in_board g { x := x, y := y }) :
    player_fields_around g player x y = true
      ↔ ∃ n, adjacent { x := x, y := y } n ∧ owns g player n := by
  obtain ⟨hw, hh⟩ := ht
  obtain ⟨hx, hy⟩ := hin
  simp only at hx hy
  unfold player_fields_around
  simp only [Bool.or_eq_true, Bool.and_eq_true, bne_iff_ne, ne_eq, beq_iff_eq, decide_eq_true_eq]
  constructor
  · rintro (((⟨h1, h2⟩ | ⟨⟨h1, h1'⟩, h2⟩) | ⟨h1, h2⟩) | ⟨⟨h1, h1'⟩, h2⟩)
    · exact ⟨{ x := x - 1, y := y }, Or.inl ⟨rfl, Or.inr (by show x - 1 + 1 = x; omega)⟩,
        ⟨by show x - 1 < g.width; omega, hy⟩, h2⟩
    · exact ⟨{ x := x + 1, y := y }, Or.inl ⟨rfl, Or.inl rfl⟩, ⟨h1', hy⟩, h2⟩
    · exact ⟨{ x := x, y := y - 1 }, Or.inr ⟨rfl, Or.inr (by show y - 1 + 1 = y; omega)⟩,
        ⟨hx, by show y - 1 < g.height; omega⟩, h2⟩
    · exact ⟨{ x := x, y := y + 1 }, Or.inr ⟨rfl, Or.inl rfl⟩, ⟨hx, h1'⟩, h2⟩
  · rintro ⟨n, hadj, ⟨hnx, hny⟩, hb⟩
    cases n with
    | mk nx ny =>
      simp only [adjacent] at hadj
      simp only at hnx hny hb
      rcases hadj with ⟨h1, h2 | h2⟩ | ⟨h1, h2 | h2⟩
      · subst h1; subst h2
        left; left; right
        exact ⟨⟨by unfold UINT32_MAX at *; omega, hnx⟩, hb⟩
      · subst h1; subst h2
        left; left; left
        exact ⟨by omega, by simpa using hb⟩
      · subst h1; subst h2
        right
        exact ⟨⟨by unfold UINT32_MAX at *; omega, hny⟩, hb⟩
      · subst h1; subst h2
        left; right
        exact ⟨by omega, by simpa using hb⟩

/-- No area of `player` is around a field without a neighbour of `player`. -/
theorem areas_around_zero (g : gamma_t) (player x y : Nat)
    (h : ¬ ∃ n, adjacent { x := x, y := y } n ∧ owns g player n) :
    areas_around g player x y 0 := by
  refine ⟨∅, rfl, by simp, ?_, by simp⟩
  intro f hf hadj
  exact absurd ⟨f, hadj, hf⟩ h

/-- Some area of `player` is around a field with a neighbour of `player`. -/
theorem areas_around_pos (g : gamma_t) (player x y k : Nat) (hk : areas_around g player x y k)
    (h : ∃ n, adjacent { x := x, y := y } n ∧ owns g player n) : 1 ≤ k := by
  obtain ⟨reps, hcard, _, h2, _⟩ := hk
  obtain ⟨n, hadj, hn⟩ := h
  obtain ⟨r, hr, _⟩ := h2 n hn hadj
  rw [← hcard]
  exact Finset.card_pos.2 ⟨r, hr⟩

/-! ## The state after the operations -/

/-- Emptying a field and writing its owner back gives the state back. -/
theorem set_board_restore (g : gamma_t) (x y : Nat) :
    set_board (set_board g x y 0) x y (g.board x y) = g := by
  cases g with
  | mk board busy free areas golden all players max width height =>
    simp only [set_board, gamma_t.mk.injEq, and_true]
    funext a b
    by_cases h : a = x ∧ b = y
    · rw [if_pos h, h.1, h.2]
    · rw [if_neg h, if_neg h]

theorem number_of_split_areas_eq (g : gamma_t) (x y : Nat) :
    number_of_split_areas g (g.board x y) x y
      = (g, number_of_connected_areas (set_board g x y 0) (g.board x y) x y) := by
  unfold number_of_split_areas
  simp only [set_board_restore]


/-! ## The invariant of the game -/

theorem game_inv.typed {g : gamma_t} (h : game_inv g) : typed g := by
  have h1 := h.width_pos
  have h2 := h.height_pos
  have h3 := h.size
  constructor
  · calc g.width = g.width * 1 := (Nat.mul_one _).symm
      _ ≤ g.width * g.height := Nat.mul_le_mul_left _ h2
      _ ≤ UINT32_MAX := h3
  · calc g.height = 1 * g.height := (Nat.one_mul _).symm
      _ ≤ g.width * g.height := Nat.mul_le_mul_right _ h1
      _ ≤ UINT32_MAX := h3

theorem area_count_le_max (g : gamma_t) (hsize : g.width * g.height ≤ UINT32_MAX) (p n : Nat)
    (hn : area_count g p n) : n ≤ UINT32_MAX :=
  le_trans (area_count_le_count_owned g p n hn) (le_trans (count_owned_le g p) hsize)

/-- The new value of `areas[player]` when `player` takes a field of somebody
else: with `k` areas of `player` around the field, the old value plus `1 - k`,
which is the number of areas of `player` on the new board. -/
theorem areas_after_placing_spec (g : gamma_t) (h : game_inv g) (player x y : Nat)
    (hp : 1 ≤ player) (hin : in_board g { x := x, y := y }) (hne : g.board x y ≠ player) :
    ∃ k, areas_around g player x y k
      ∧ k ≤ g.areas player
      ∧ areas_after_placing g player x y = g.areas player + 1 - k
      ∧ area_count (set_board g x y player) player (g.areas player + 1 - k)
      ∧ (player_fields_around g player x y = true → 1 ≤ k)
      ∧ (player_fields_around g player x y = false → k = 0) := by
  have ht := h.typed
  have hN := h.areas player hp
  by_cases hpfa : player_fields_around g player x y = true
  · have hk := number_of_connected_areas_spec g ht player x y hin
    obtain ⟨hkN, hcount⟩ := area_count_place g player x y _ _ hin hne hN hk
    refine ⟨_, hk, hkN, ?_, hcount, ?_, ?_⟩
    · unfold areas_after_placing
      simp only [hpfa, Bool.not_true, Bool.false_eq_true, if_false]
      apply to_u32_sub _ _ hkN
      · exact area_count_le_max (set_board g x y player) h.size player _ hcount
      · exact le_trans hkN (area_count_le_max g h.size player _ hN)
    · intro _
      exact areas_around_pos g player x y _ hk
        ((player_fields_around_iff g ht player x y hin).1 hpfa)
    · intro hf
      rw [hf] at hpfa
      exact Bool.noConfusion hpfa
  · have hnone : ¬ ∃ n, adjacent { x := x, y := y } n ∧ owns g player n :=
      fun hex => hpfa ((player_fields_around_iff g ht player x y hin).2 hex)
    have hk := areas_around_zero g player x y hnone
    obtain ⟨hkN, hcount⟩ := area_count_place g player x y _ _ hin hne hN hk
    refine ⟨0, hk, hkN, ?_, hcount, ?_, ?_⟩
    · unfold areas_after_placing
      have hf : player_fields_around g player x y = false := by
        cases hv : player_fields_around g player x y
        · rfl
        · exact absurd hv hpfa
      simp only [hf, Bool.not_false, if_true]
      apply to_u32_eq
      · push_cast; rfl
      · exact area_count_le_max (set_board g x y player) h.size player _ hcount
    · intro ht'
      exact absurd ht' hpfa
    · intro _
      rfl

/-- The state after a successful `gamma_move`. -/
theorem gamma_move_state (g : gamma_t) (player x y : Nat)
    (h : (gamma_move g player x y).1 = true) :
    (1 ≤ player ∧ player ≤ g.players ∧ x < g.width ∧ y < g.height ∧ g.board x y = 0
      ∧ ¬ (player_fields_around g player x y = false ∧ g.areas player = g.max_areas))
    ∧ (gamma_move g player x y).2 =
      set_board { g with
        areas := set_entry g.areas player (areas_after_placing g player x y)
        busy_fields := set_entry g.busy_fields player (to_u64 ((g.busy_fields player : Int) + 1))
        all_free_fields := to_u64 ((g.all_free_fields : Int) - 1) } x y player := by
  unfold gamma_move at h ⊢
  by_cases h1 : player > g.players ∨ player ≤ 0 ∨ x ≥ g.width ∨ y ≥ g.height
  · rw [if_pos h1] at h; exact Bool.noConfusion h
  · rw [if_neg h1] at h ⊢
    by_cases h2 : g.board x y ≠ 0
        ∨ (!player_fields_around g player x y && g.areas player == g.max_areas) = true
    · rw [if_pos h2] at h; exact Bool.noConfusion h
    · rw [if_neg h2]
      simp only [not_or, not_le, not_lt, ge_iff_le, gt_iff_lt, ne_eq, not_not] at h1 h2
      refine ⟨⟨by omega, by omega, by omega, by omega, h2.1, ?_⟩, rfl⟩
      intro hc
      apply h2.2
      simp [hc.1, hc.2]

/-- The state after a failed `gamma_move`. -/
theorem gamma_move_failed (g : gamma_t) (player x y : Nat)
    (h : (gamma_move g player x y).1 = false) : (gamma_move g player x y).2 = g := by
  unfold gamma_move at h ⊢
  by_cases h1 : player > g.players ∨ player ≤ 0 ∨ x ≥ g.width ∨ y ≥ g.height
  · rw [if_pos h1]
  · rw [if_neg h1] at h ⊢
    by_cases h2 : g.board x y ≠ 0
        ∨ (!player_fields_around g player x y && g.areas player == g.max_areas) = true
    · rw [if_pos h2]
    · rw [if_neg h2] at h; exact Bool.noConfusion h


theorem set_entry_same {α : Type} (array : Nat → α) (i : Nat) (v : α) :
    set_entry array i v i = v := by
  simp [set_entry]

theorem set_entry_other {α : Type} (array : Nat → α) (i j : Nat) (v : α) (h : j ≠ i) :
    set_entry array i v j = array j := by
  simp [set_entry, h]

/-- A call of `gamma_move` keeps the bookkeeping in agreement with the board. -/
theorem gamma_move_inv (g : gamma_t) (h : game_inv g) (player x y : Nat) :
    game_inv (gamma_move g player x y).2 := by
  cases hres : (gamma_move g player x y).1
  · rw [gamma_move_failed g player x y hres]; exact h
  · obtain ⟨⟨hp1, hp2, hx, hy, hb, hlim⟩, hstate⟩ := gamma_move_state g player x y hres
    rw [hstate]
    have hin : in_board g { x := x, y := y } := ⟨hx, hy⟩
    have hne : g.board x y ≠ player := by omega
    obtain ⟨k, hk, hkN, hval, hcount, hk1, hk0⟩ :=
      areas_after_placing_spec g h player x y hp1 hin hne
    have hbusy := h.busy player hp1
    have hfree := h.free
    have hgain := count_owned_gain g x y player hin hne
    have hloss := count_owned_loss g x y player 0 hin hb (by omega)
    have hle := le_trans (count_owned_le (set_board g x y player) player) h.size
    have hle0 := le_trans (count_owned_le g 0) h.size
    refine
      { width_pos := h.width_pos
        height_pos := h.height_pos
        size := h.size
        owners := ?_
        busy := ?_
        free := ?_
        areas := ?_
        limit := ?_ }
    · intro f hf
      show (if f.x = x ∧ f.y = y then player else g.board f.x f.y) ≤ g.players
      by_cases hc : f.x = x ∧ f.y = y
      · rw [if_pos hc]; exact hp2
      · rw [if_neg hc]; exact h.owners f hf
    · intro p hp
      show set_entry g.busy_fields player (to_u64 ((g.busy_fields player : Int) + 1)) p
        = count_owned (set_board g x y player) p
      by_cases hpp : p = player
      · subst hpp
        rw [set_entry_same, hgain]
        apply to_u64_eq
        · rw [hbusy]; push_cast; rfl
        · rw [← hgain]; exact hle
      · rw [set_entry_other _ _ _ _ hpp, count_owned_frame g x y player p (Ne.symm hpp) (by omega)]
        exact h.busy p hp
    · show to_u64 ((g.all_free_fields : Int) - 1) = count_owned (set_board g x y player) 0
      apply to_u64_eq
      · rw [hfree]; omega
      · exact le_trans (count_owned_le (set_board g x y player) 0) h.size
    · intro p hp
      show area_count (set_board g x y player) p
        (set_entry g.areas player (areas_after_placing g player x y) p)
      by_cases hpp : p = player
      · subst hpp
        rw [set_entry_same, hval]
        exact hcount
      · rw [set_entry_other _ _ _ _ hpp]
        exact (area_count_congr (owns_frame g x y player p (Ne.symm hpp) (by omega)) _).2
          (h.areas p hp)
    · intro p hp
      show set_entry g.areas player (areas_after_placing g player x y) p ≤ g.max_areas
      by_cases hpp : p = player
      · subst hpp
        rw [set_entry_same, hval]
        have hl := h.limit p hp
        cases hpfa : player_fields_around g p x y
        · have := hk0 hpfa
          have hneq : g.areas p ≠ g.max_areas := fun hc => hlim ⟨hpfa, hc⟩
          omega
        · have := hk1 hpfa
          omega
      · rw [set_entry_other _ _ _ _ hpp]
        exact h.limit p hp


/-- The state after a successful `gamma_golden_move`. -/
theorem gamma_golden_move_state (g : gamma_t) (player x y : Nat)
    (h : (gamma_golden_move g player x y).1 = true) :
    (1 ≤ player ∧ player ≤ g.players ∧ x < g.width ∧ y < g.height
      ∧ g.golden_move_available player = true ∧ g.board x y ≠ 0 ∧ g.board x y ≠ player
      ∧ ¬ (player_fields_around g player x y = false ∧ g.areas player = g.max_areas)
      ∧ to_u32 ((g.areas (g.board x y) : Int)
          + number_of_connected_areas (set_board g x y 0) (g.board x y) x y - 1)
          ≤ g.max_areas)
    ∧ (gamma_golden_move g player x y).2 =
      set_board { g with
        areas := set_entry (set_entry g.areas player (areas_after_placing g player x y))
          (g.board x y)
          (to_u32 (((set_entry g.areas player (areas_after_placing g player x y)
              (g.board x y) : Nat) : Int)
            + ((number_of_connected_areas (set_board g x y 0) (g.board x y) x y : Int) - 1)))
        busy_fields := set_entry
          (set_entry g.busy_fields (g.board x y) (to_u64 ((g.busy_fields (g.board x y) : Int) - 1)))
          player
          (to_u64 (((set_entry g.busy_fields (g.board x y)
            (to_u64 ((g.busy_fields (g.board x y) : Int) - 1)) player : Nat) : Int) + 1))
        golden_move_available := set_entry g.golden_move_available player false } x y player := by
  unfold gamma_golden_move at h ⊢
  by_cases h1 : player > g.players ∨ player ≤ 0 ∨ x ≥ g.width ∨ y ≥ g.height
  · rw [if_pos h1] at h; exact Bool.noConfusion h
  · rw [if_neg h1] at h ⊢
    simp only [number_of_split_areas_eq] at h ⊢
    by_cases h2 : g.golden_move_available player = false
        ∨ g.board x y = 0
        ∨ g.board x y = player
        ∨ (!player_fields_around g player x y && g.areas player == g.max_areas) = true
        ∨ to_u32 ((g.areas (g.board x y) : Int)
            + number_of_connected_areas (set_board g x y 0) (g.board x y) x y - 1)
            > g.max_areas
    · rw [if_pos h2] at h; exact Bool.noConfusion h
    · rw [if_neg h2]
      simp only [not_or, not_le, not_lt, ge_iff_le, gt_iff_lt, ne_eq, Bool.not_eq_false] at h1 h2
      refine ⟨⟨by omega, by omega, by omega, by omega, h2.1, h2.2.1, h2.2.2.1, ?_,
        h2.2.2.2.2⟩, rfl⟩
      intro hc
      apply h2.2.2.2.1
      simp [hc.1, hc.2]

/-- The state after a failed `gamma_golden_move`. -/
theorem gamma_golden_move_failed (g : gamma_t) (player x y : Nat)
    (h : (gamma_golden_move g player x y).1 = false) :
    (gamma_golden_move g player x y).2 = g := by
  unfold gamma_golden_move at h ⊢
  by_cases h1 : player > g.players ∨ player ≤ 0 ∨ x ≥ g.width ∨ y ≥ g.height
  · rw [if_pos h1]
  · rw [if_neg h1] at h ⊢
    simp only [number_of_split_areas_eq] at h ⊢
    by_cases h2 : g.golden_move_available player = false
        ∨ g.board x y = 0
        ∨ g.board x y = player
        ∨ (!player_fields_around g player x y && g.areas player == g.max_areas) = true
        ∨ to_u32 ((g.areas (g.board x y) : Int)
            + number_of_connected_areas (set_board g x y 0) (g.board x y) x y - 1)
            > g.max_areas
    · rw [if_pos h2]
    · rw [if_neg h2] at h; exact Bool.noConfusion h


/-- The areas of the previous owner after a capture: the fields it keeps are
its fields on the board with the captured field emptied. -/
theorem owns_captured (g : gamma_t) (x y player o : Nat) (hop : o ≠ player) (ho0 : o ≠ 0)
    (f : field_t) : owns (set_board g x y player) o f ↔ owns (set_board g x y 0) o f := by
  rw [owns_set_board, owns_set_board]
  constructor
  · rintro (⟨_, _, h⟩ | h)
    · exact absurd h.symm hop
    · exact Or.inr h
  · rintro (⟨_, _, h⟩ | h)
    · exact absurd h.symm ho0
    · exact Or.inr h

/-- The number of areas of the owner of a field once the field is taken away,
as `gamma_golden_move` computes it, without wrap-around. -/
theorem split_areas_spec (g : gamma_t) (h : game_inv g) (x y : Nat)
    (hin : in_board g { x := x, y := y }) (ho0 : g.board x y ≠ 0) :
    areas_around (set_board g x y 0) (g.board x y) x y
        (number_of_connected_areas (set_board g x y 0) (g.board x y) x y)
      ∧ 1 ≤ g.areas (g.board x y)
          + number_of_connected_areas (set_board g x y 0) (g.board x y) x y
      ∧ area_count (set_board g x y 0) (g.board x y)
          (g.areas (g.board x y)
            + number_of_connected_areas (set_board g x y 0) (g.board x y) x y - 1)
      ∧ g.areas (g.board x y)
          + number_of_connected_areas (set_board g x y 0) (g.board x y) x y - 1 ≤ UINT32_MAX := by
  have ht : typed (set_board g x y 0) := h.typed
  have hs := number_of_connected_areas_spec (set_board g x y 0) ht (g.board x y) x y hin
  obtain ⟨h1, h2⟩ := area_count_capture g (g.board x y) x y _ _ hin rfl ho0
    (h.areas _ (by omega)) hs
  exact ⟨hs, h1, h2, area_count_le_max (set_board g x y 0) h.size _ _ h2⟩

/-- A call of `gamma_golden_move` keeps the bookkeeping in agreement with the board. -/
theorem gamma_golden_move_inv (g : gamma_t) (h : game_inv g) (player x y : Nat) :
    game_inv (gamma_golden_move g player x y).2 := by
  cases hres : (gamma_golden_move g player x y).1
  · rw [gamma_golden_move_failed g player x y hres]; exact h
  · obtain ⟨⟨hp1, hp2, hx, hy, _, ho0, hop, hlim, hcheck⟩, hstate⟩ :=
      gamma_golden_move_state g player x y hres
    rw [hstate]
    have hin : in_board g { x := x, y := y } := ⟨hx, hy⟩
    obtain ⟨k, hk, hkN, hval, hcount, hk1, hk0⟩ :=
      areas_after_placing_spec g h player x y hp1 hin hop
    obtain ⟨hs, hs1, hscount, hsmax⟩ := split_areas_spec g h x y hin ho0
    have ho1 : 1 ≤ g.board x y := by omega
    have hbusy := h.busy player hp1
    have hbusyo := h.busy (g.board x y) ho1
    have hgain := count_owned_gain g x y player hin hop
    have hloss := count_owned_loss g x y player (g.board x y) hin rfl (Ne.symm hop)
    have hle := le_trans (count_owned_le (set_board g x y player) player) h.size
    have hleo := le_trans (count_owned_le g (g.board x y)) h.size
    refine
      { width_pos := h.width_pos
        height_pos := h.height_pos
        size := h.size
        owners := ?_
        busy := ?_
        free := ?_
        areas := ?_
        limit := ?_ }
    · intro f hf
      show (if f.x = x ∧ f.y = y then player else g.board f.x f.y) ≤ g.players
      by_cases hc : f.x = x ∧ f.y = y
      · rw [if_pos hc]; exact hp2
      · rw [if_neg hc]; exact h.owners f hf
    · intro p hp
      show set_entry
          (set_entry g.busy_fields (g.board x y)
            (to_u64 ((g.busy_fields (g.board x y) : Int) - 1)))
          player
          (to_u64 (((set_entry g.busy_fields (g.board x y)
            (to_u64 ((g.busy_fields (g.board x y) : Int) - 1)) player : Nat) : Int) + 1)) p
        = count_owned (set_board g x y player) p
      by_cases hpp : p = player
      · subst hpp
        rw [set_entry_same, set_entry_other _ _ _ _ (Ne.symm hop), hgain]
        apply to_u64_eq
        · rw [hbusy]; push_cast; rfl
        · rw [← hgain]; exact hle
      · rw [set_entry_other _ _ _ _ hpp]
        by_cases hpo : p = g.board x y
        · rw [hpo, set_entry_same]
          apply to_u64_eq
          · rw [hbusyo]; omega
          · omega
        · rw [set_entry_other _ _ _ _ hpo,
            count_owned_frame g x y player p (Ne.symm hpp) (Ne.symm hpo)]
          exact h.busy p hp
    · show g.all_free_fields = count_owned (set_board g x y player) 0
      rw [count_owned_frame g x y player 0 (by omega) ho0]
      exact h.free
    · intro p hp
      show area_count (set_board g x y player) p
        (set_entry (set_entry g.areas player (areas_after_placing g player x y))
          (g.board x y)
          (to_u32 (((set_entry g.areas player (areas_after_placing g player x y)
              (g.board x y) : Nat) : Int)
            + ((number_of_connected_areas (set_board g x y 0) (g.board x y) x y : Int) - 1))) p)
      by_cases hpo : p = g.board x y
      · rw [hpo, set_entry_same, set_entry_other _ _ _ _ hop]
        rw [to_u32_eq _ _ (by omega) hsmax]
        exact (area_count_congr (owns_captured g x y player _ hop ho0) _).2 hscount
      · rw [set_entry_other _ _ _ _ hpo]
        by_cases hpp : p = player
        · subst hpp
          rw [set_entry_same, hval]
          exact hcount
        · rw [set_entry_other _ _ _ _ hpp]
          exact (area_count_congr (owns_frame g x y player p (Ne.symm hpp) (Ne.symm hpo)) _).2
            (h.areas p hp)
    · intro p hp
      show set_entry (set_entry g.areas player (areas_after_placing g player x y))
          (g.board x y)
          (to_u32 (((set_entry g.areas player (areas_after_placing g player x y)
              (g.board x y) : Nat) : Int)
            + ((number_of_connected_areas (set_board g x y 0) (g.board x y) x y : Int) - 1))) p
        ≤ g.max_areas
      by_cases hpo : p = g.board x y
      · rw [hpo, set_entry_same, set_entry_other _ _ _ _ hop]
        rw [to_u32_eq _ _ (by omega) hsmax]
        rw [to_u32_eq _ _ (by omega) hsmax] at hcheck
        exact hcheck
      · rw [set_entry_other _ _ _ _ hpo]
        by_cases hpp : p = player
        · subst hpp
          rw [set_entry_same, hval]
          have hl := h.limit p hp
          cases hpfa : player_fields_around g p x y
          · have := hk0 hpfa
            have hneq : g.areas p ≠ g.max_areas := fun hc => hlim ⟨hpfa, hc⟩
            omega
          · have := hk1 hpfa
            omega
        · rw [set_entry_other _ _ _ _ hpp]
          exact h.limit p hp

/-- The state made by `gamma_new` has an empty board and empty bookkeeping. -/
theorem gamma_new_inv (width height players areas : Nat) (g : gamma_t)
    (h : gamma_new width height players areas = some g) : game_inv g := by
  unfold gamma_new at h
  by_cases hc : width ≤ 0 ∨ height ≤ 0 ∨ players ≤ 0 ∨ areas ≤ 0
      ∨ width * height > BOARD_SIZE_HARD_LIMIT
  · rw [if_pos hc] at h; exact Option.noConfusion h
  · rw [if_neg hc] at h
    simp only [not_or, not_le, not_lt, gt_iff_lt] at hc
    have hg := Option.some.inj h
    subst hg
    refine
      { width_pos := hc.1
        height_pos := hc.2.1
        size := hc.2.2.2.2
        owners := fun _ _ => Nat.zero_le _
        busy := ?_
        free := ?_
        areas := ?_
        limit := fun _ _ => Nat.zero_le _ }
    · intro p hp
      show 0 = count_owned _ p
      unfold count_owned
      rw [eq_comm, Finset.card_eq_zero, Finset.filter_eq_empty_iff]
      intro c _
      show ¬ (0 = p)
      omega
    · show width * height = count_owned _ 0
      unfold count_owned
      rw [Finset.filter_true_of_mem (fun _ _ => rfl)]
      simp
    · intro p hp
      refine ⟨∅, rfl, by simp, ?_, by simp⟩
      intro f hf _
      have : (0 : Nat) = p := hf.2
      omega

/-- Every state of a game keeps its bookkeeping in agreement with its board. -/
theorem reachable_inv (g : gamma_t) (h : reachable g) : game_inv g := by
  induction h with
  | new width height players areas g h => exact gamma_new_inv width height players areas g h
  | move g player x y _ ih => exact gamma_move_inv g ih player x y
  | golden_move g player x y _ ih => exact gamma_golden_move_inv g ih player x y

/-! ## The example games are games -/

theorem game_4_4_new : gamma_new 4 4 2 2 = some game_4_4 := by rfl

theorem game_5_1_new : gamma_new 5 1 2 2 = some game_5_1 := by rfl

theorem game_4_4_reachable : reachable game_4_4 := reachable.new 4 4 2 2 _ game_4_4_new

theorem game_4_4_played_reachable : reachable game_4_4_played :=
  reachable.move _ 2 2 1 (reachable.move _ 1 1 1 game_4_4_reachable)

theorem game_5_1_reachable : reachable game_5_1 := reachable.new 5 1 2 2 _ game_5_1_new

theorem game_5_1_played_reachable : reachable game_5_1_played :=
  reachable.move _ 1 2 0 (reachable.move _ 1 0 0 game_5_1_reachable)

/-! ## The invariants of the game -/

/-- C1: in every state reached from a successful `gamma_new` by calls of
`gamma_move` and `gamma_golden_move` (whatever they return), `areas[p]` of every
player `p` in `[1, players]` is the number of areas of `p`: the number of
maximal sets of fields of `p` joined by paths of 4-neighbours owned by `p`. -/
theorem areas_are_counted (g : gamma_t) (h : reachable g) (p : Nat) (hp1 : 1 ≤ p)
    (_hp2 : p ≤ g.players) : area_count g p (g.areas p) :=
  (reachable_inv g h).areas p hp1

/-- After the two moves on the board of 16 fields player 1 has one area. -/
theorem areas_are_counted_witness :
    game_4_4_played.areas 1 = 1 ∧ area_count game_4_4_played 1 (game_4_4_played.areas 1) :=
  ⟨by decide, areas_are_counted game_4_4_played game_4_4_played_reachable 1 (by decide)
    (by decide)⟩

/-- The fields of the board split into the fields of the players `1 .. players`
and the free fields when no field has another owner. -/
theorem count_owned_sum (g : gamma_t) (h : ∀ f, in_board g f → g.board f.x f.y ≤ g.players) :
    (∑ p in Finset.Icc 1 g.players, count_owned g p) + count_owned g 0
      = g.width * g.height := by
  have hcard := Finset.card_eq_sum_card_fiberwise
    (s := Finset.range g.width ×ˢ Finset.range g.height) (t := Finset.range (g.players + 1))
    (f := fun c => g.board c.1 c.2)
    (by
      intro c hc
      simp only [Finset.mem_product, Finset.mem_range] at hc
      have := h { x := c.1, y := c.2 } ⟨hc.1, hc.2⟩
      simp only [Finset.mem_range]
      exact Nat.lt_succ_of_le this)
  simp only [Finset.card_product, Finset.card_range] at hcard
  have hsplit : ∀ F : Nat → Nat,
      ∑ b in Finset.range (g.players + 1), F b = F 0 + ∑ p in Finset.Icc 1 g.players, F p := by
    intro F
    rw [Finset.range_eq_Ico, Finset.sum_eq_sum_Ico_succ_bot (Nat.succ_pos _)]
    have hI : Finset.Ico (0 + 1) (g.players + 1) = Finset.Icc 1 g.players := by
      ext p
      simp only [Finset.mem_Ico, Finset.mem_Icc]
      omega
    rw [hI]
  rw [hcard, hsplit, add_comm]
  rfl

/-- C2: in every state reached from a successful `gamma_new` by calls of
`gamma_move` and `gamma_golden_move`, the sum of `busy_fields[p]` over the
players `p` in `[1, players]` plus `all_free_fields` is `width * height`. -/
theorem fields_add_up (g : gamma_t) (h : reachable g) :
    (∑ p in Finset.Icc 1 g.players, g.busy_fields p) + g.all_free_fields
      = g.width * g.height := by
  have hinv := reachable_inv g h
  rw [hinv.free, ← count_owned_sum g hinv.owners]
  congr 1
  apply Finset.sum_congr rfl
  intro p hp
  exact hinv.busy p (Finset.mem_Icc.1 hp).1

/-- The fields add up after the two moves on the board of 16 fields. -/
theorem fields_add_up_witness :
    game_4_4_played.all_free_fields = 14
      ∧ game_4_4_played.width * game_4_4_played.height = 16
      ∧ (∑ p in Finset.Icc 1 game_4_4_played.players, game_4_4_played.busy_fields p)
        + game_4_4_played.all_free_fields = game_4_4_played.width * game_4_4_played.height :=
  ⟨by decide, by decide, fields_add_up game_4_4_played game_4_4_played_reachable⟩

/-- C3: in every state reached from a successful `gamma_new` by calls of
`gamma_move` and `gamma_golden_move`, no player `p` in `[1, players]` has more
than `max_areas` areas, the player who moved and the player who lost a field
alike: `areas[p] ≤ max_areas`, and the fields of `p` on the board form at most
`max_areas` areas. -/
theorem areas_within_limit (g : gamma_t) (h : reachable g) (p : Nat) (hp1 : 1 ≤ p)
    (_hp2 : p ≤ g.players) :
    g.areas p ≤ g.max_areas ∧ ∀ n, area_count g p n → n ≤ g.max_areas := by
  have hinv := reachable_inv g h
  refine ⟨hinv.limit p hp1, fun n hn => ?_⟩
  rw [area_count_unique g p n _ hn (hinv.areas p hp1)]
  exact hinv.limit p hp1

/-- The limit holds after player 1 took two separate fields of the board of
width 5 with `max_areas = 2`. -/
theorem areas_within_limit_witness :
    game_5_1_played.areas 1 = 2
      ∧ game_5_1_played.areas 1 ≤ game_5_1_played.max_areas
      ∧ ∀ n, area_count game_5_1_played 1 n → n ≤ game_5_1_played.max_areas :=
  ⟨by decide, areas_within_limit game_5_1_played game_5_1_played_reachable 1 (by decide)
    (by decide)⟩

/-- C4: when `gamma_move` returns `false` the state after the call is the state
before the call, in every member of the structure. -/
theorem move_false_keeps_state (g : gamma_t) (player x y : Nat)
    (h : (gamma_move g player x y).1 = false) : (gamma_move g player x y).2 = g :=
  gamma_move_failed g player x y h

/-- A move on a taken field fails and changes nothing. -/
theorem move_false_keeps_state_witness :
    (gamma_move game_4_4_played 2 1 1).1 = false
      ∧ (gamma_move game_4_4_played 2 1 1).2 = game_4_4_played :=
  ⟨by decide, move_false_keeps_state game_4_4_played 2 1 1 (by decide)⟩

/-- C5: when `gamma_golden_move` returns `false` the state after the call is
the state before the call, in every member of the structure and in every field
of the board, although `number_of_split_areas` empties the field `(x, y)` and
writes its owner back before the arguments are validated. -/
theorem golden_move_false_keeps_state (g : gamma_t) (player x y : Nat)
    (h : (gamma_golden_move g player x y).1 = false) :
    (gamma_golden_move g player x y).2 = g :=
  gamma_golden_move_failed g player x y h

/-- A golden move on a field of the player fails and changes nothing. -/
theorem golden_move_false_keeps_state_witness :
    (gamma_golden_move game_4_4_played 1 1 1).1 = false
      ∧ (gamma_golden_move game_4_4_played 1 1 1).2 = game_4_4_played :=
  ⟨by decide, golden_move_false_keeps_state game_4_4_played 1 1 1 (by decide)⟩


/-! ## When the moves are accepted -/

/-- C6: `gamma_move` returns `true` exactly when `player` is in `[1, players]`,
the field `(x, y)` is on the board, its owner is 0, and it is not so that both
no neighbour of `(x, y)` on the board is owned by `player` and `areas[player]`
equals `max_areas`. -/
theorem move_true_iff (g : gamma_t) (ht : typed g) (player x y : Nat) :
    (gamma_move g player x y).1 = true
      ↔ (1 ≤ player ∧ player ≤ g.players) ∧ x < g.width ∧ y < g.height ∧ g.board x y = 0
        ∧ ¬ ((¬ ∃ n, adjacent { x := x, y := y } n ∧ owns g player n)
          ∧ g.areas player = g.max_areas) := by
  constructor
  · intro h
    obtain ⟨⟨hp1, hp2, hx, hy, hb, hlim⟩, _⟩ := gamma_move_state g player x y h
    refine ⟨⟨hp1, hp2⟩, hx, hy, hb, ?_⟩
    rintro ⟨hn, ha⟩
    apply hlim
    refine ⟨?_, ha⟩
    cases hv : player_fields_around g player x y
    · rfl
    · exact absurd ((player_fields_around_iff g ht player x y ⟨hx, hy⟩).1 hv) hn
  · rintro ⟨⟨hp1, hp2⟩, hx, hy, hb, hlim⟩
    unfold gamma_move
    rw [if_neg (by omega), if_neg]
    rintro (h | h)
    · exact h hb
    · simp only [Bool.and_eq_true, Bool.not_eq_true', beq_iff_eq] at h
      apply hlim
      refine ⟨?_, h.2⟩
      intro hex
      have := (player_fields_around_iff g ht player x y ⟨hx, hy⟩).2 hex
      rw [h.1] at this
      exact Bool.noConfusion this

/-- The test of `gamma_move` for player 1 on the free field `(2, 2)`. -/
theorem move_true_iff_witness :
    typed game_4_4_played
      ∧ ((gamma_move game_4_4_played 1 2 2).1 = true
        ↔ (1 ≤ 1 ∧ 1 ≤ game_4_4_played.players) ∧ 2 < game_4_4_played.width
          ∧ 2 < game_4_4_played.height ∧ game_4_4_played.board 2 2 = 0
          ∧ ¬ ((¬ ∃ n, adjacent { x := 2, y := 2 } n ∧ owns game_4_4_played 1 n)
            ∧ game_4_4_played.areas 1 = game_4_4_played.max_areas)) :=
  ⟨by decide, move_true_iff game_4_4_played (by decide) 1 2 2⟩

/-- The test of `gamma_golden_move`, with the sum `areas[owner] + split - 1`
as the code computes it, in 32-bit arithmetic. -/
theorem golden_move_true_iff_u32 (g : gamma_t) (ht : typed g) (player x y : Nat) :
    (gamma_golden_move g player x y).1 = true
      ↔ (1 ≤ player ∧ player ≤ g.players) ∧ x < g.width ∧ y < g.height
        ∧ g.golden_move_available player = true
        ∧ (g.board x y ≠ 0 ∧ g.board x y ≠ player)
        ∧ ¬ ((¬ ∃ n, adjacent { x := x, y := y } n ∧ owns g player n)
          ∧ g.areas player = g.max_areas)
        ∧ to_u32 ((g.areas (g.board x y) : Int)
            + (number_of_split_areas g (g.board x y) x y).2 - 1) ≤ g.max_areas := by
  simp only [number_of_split_areas_eq]
  constructor
  · intro hres
    obtain ⟨⟨hp1, hp2, hx, hy, hgold, ho0, hop, hlim, hcheck⟩, _⟩ :=
      gamma_golden_move_state g player x y hres
    refine ⟨⟨hp1, hp2⟩, hx, hy, hgold, ⟨ho0, hop⟩, ?_, hcheck⟩
    rintro ⟨hn, ha⟩
    apply hlim
    refine ⟨?_, ha⟩
    cases hv : player_fields_around g player x y
    · rfl
    · exact absurd ((player_fields_around_iff g ht player x y ⟨hx, hy⟩).1 hv) hn
  · rintro ⟨⟨hp1, hp2⟩, hx, hy, hgold, ⟨ho0, hop⟩, hlim, hcheck⟩
    unfold gamma_golden_move
    rw [if_neg (by omega)]
    simp only [number_of_split_areas_eq]
    rw [if_neg]
    rintro (hc | hc | hc | hc | hc)
    · rw [hgold] at hc; exact Bool.noConfusion hc
    · exact ho0 hc
    · exact hop hc
    · simp only [Bool.and_eq_true, Bool.not_eq_true', beq_iff_eq] at hc
      apply hlim
      refine ⟨?_, hc.2⟩
      intro hex
      have := (player_fields_around_iff g ht player x y ⟨hx, hy⟩).2 hex
      rw [hc.1] at this
      exact Bool.noConfusion this
    · omega

/-- The test of `gamma_golden_move` with the flag: the function returns `true`
exactly when `player` is in `[1, players]`, the field `(x, y)` is on the board,
the flag `golden_move_available[player]` is set, the owner of the field is
neither 0 nor `player`, it is not
so that both no neighbour of `(x, y)` on the board is owned by `player` and
`areas[player]` equals `max_areas`, and `areas[owner] + split - 1 ≤ max_areas`,
where `split` is the value of `number_of_split_areas` for the owner and the
field.  In every state whose sizes are `uint32_t` values this holds with the
sum taken in 32-bit arithmetic, as the code takes it; in every state of a game
the sum does not wrap around and this holds for the sum of the integers. -/
theorem golden_move_flag_iff :
    (∀ (g : gamma_t) (player x y : Nat), typed g →
      ((gamma_golden_move g player x y).1 = true
        ↔ (1 ≤ player ∧ player ≤ g.players) ∧ x < g.width ∧ y < g.height
          ∧ g.golden_move_available player = true
          ∧ (g.board x y ≠ 0 ∧ g.board x y ≠ player)
          ∧ ¬ ((¬ ∃ n, adjacent { x := x, y := y } n ∧ owns g player n)
            ∧ g.areas player = g.max_areas)
          ∧ to_u32 ((g.areas (g.board x y) : Int)
              + (number_of_split_areas g (g.board x y) x y).2 - 1) ≤ g.max_areas))
    ∧ (∀ (g : gamma_t) (player x y : Nat), reachable g →
      ((gamma_golden_move g player x y).1 = true
        ↔ (1 ≤ player ∧ player ≤ g.players) ∧ x < g.width ∧ y < g.height
          ∧ g.golden_move_available player = true
          ∧ (g.board x y ≠ 0 ∧ g.board x y ≠ player)
          ∧ ¬ ((¬ ∃ n, adjacent { x := x, y := y } n ∧ owns g player n)
            ∧ g.areas player = g.max_areas)
          ∧ (g.areas (g.board x y) : Int) + (number_of_split_areas g (g.board x y) x y).2 - 1
            ≤ g.max_areas)) := by
  refine ⟨fun g player x y ht => golden_move_true_iff_u32 g ht player x y, ?_⟩
  intro g player x y h
  have hinv := reachable_inv g h
  rw [golden_move_true_iff_u32 g hinv.typed player x y]
  simp only [number_of_split_areas_eq]
  have hexact : x < g.width → y < g.height → g.board x y ≠ 0 →
      (to_u32 ((g.areas (g.board x y) : Int)
          + number_of_connected_areas (set_board g x y 0) (g.board x y) x y - 1) ≤ g.max_areas
        ↔ (g.areas (g.board x y) : Int)
          + number_of_connected_areas (set_board g x y 0) (g.board x y) x y - 1
          ≤ g.max_areas) := by
    intro hx hy ho0
    obtain ⟨_, hs1, _, hsmax⟩ := split_areas_spec g hinv x y ⟨hx, hy⟩ ho0
    rw [to_u32_eq _ _ (by omega) hsmax]
    omega
  constructor
  · rintro ⟨hp, hx, hy, hgold, ho, hlim, hcheck⟩
    exact ⟨hp, hx, hy, hgold, ho, hlim, (hexact hx hy ho.1).1 hcheck⟩
  · rintro ⟨hp, hx, hy, hgold, ho, hlim, hcheck⟩
    exact ⟨hp, hx, hy, hgold, ho, hlim, (hexact hx hy ho.1).2 hcheck⟩

/-- The test of `gamma_golden_move` for player 2 on the field `(1, 1)` of player 1,
which is accepted. -/
theorem golden_move_flag_iff_example :
    (gamma_golden_move game_4_4_played 2 1 1).1 = true
      ∧ ((gamma_golden_move game_4_4_played 2 1 1).1 = true
        ↔ (1 ≤ 2 ∧ 2 ≤ game_4_4_played.players) ∧ 1 < game_4_4_played.width
          ∧ 1 < game_4_4_played.height
          ∧ game_4_4_played.golden_move_available 2 = true
          ∧ (game_4_4_played.board 1 1 ≠ 0 ∧ game_4_4_played.board 1 1 ≠ 2)
          ∧ ¬ ((¬ ∃ n, adjacent { x := 1, y := 1 } n ∧ owns game_4_4_played 2 n)
            ∧ game_4_4_played.areas 2 = game_4_4_played.max_areas)
          ∧ (game_4_4_played.areas (game_4_4_played.board 1 1) : Int)
              + (number_of_split_areas game_4_4_played (game_4_4_played.board 1 1) 1 1).2 - 1
            ≤ game_4_4_played.max_areas) :=
  ⟨by decide, golden_move_flag_iff.2 game_4_4_played 2 1 1 game_4_4_played_reachable⟩

/-- C8: in a state of a game, when the fields of the owner of `(x, y)` would
form more than `max_areas` areas on the board with the field `(x, y)` taken
away, `gamma_golden_move` on `(x, y)` returns `false`, whoever makes it. -/
theorem golden_move_rejects_split (g : gamma_t) (h : reachable g) (player x y n : Nat)
    (hn : area_count (set_board g x y 0) (g.board x y) n) (hmax : g.max_areas < n) :
    (gamma_golden_move g player x y).1 = false := by
  have hinv := reachable_inv g h
  cases hres : (gamma_golden_move g player x y).1
  · rfl
  · exfalso
    obtain ⟨⟨_, _, hx, hy, _, ho0, _, _, hcheck⟩, _⟩ :=
      gamma_golden_move_state g player x y hres
    obtain ⟨_, hs1, hscount, hsmax⟩ := split_areas_spec g hinv x y ⟨hx, hy⟩ ho0
    rw [to_u32_eq _ _ (by omega) hsmax] at hcheck
    have := area_count_unique _ _ _ _ hn hscount
    omega

theorem game_3_1_played_reachable : reachable game_3_1_played :=
  reachable.move _ 1 2 0 (reachable.move _ 1 1 0 (reachable.move _ 1 0 0
    (reachable.new 3 1 2 1 _ (by rfl))))

theorem game_3_1_split : area_count (set_board game_3_1_played 1 0 0) 1 2 :=
  (split_areas_spec game_3_1_played (reachable_inv _ game_3_1_played_reachable) 1 0
    ⟨by decide, by decide⟩ (by decide)).2.2.1

/-- Taking the middle of the three fields of player 1 would leave two areas
with `max_areas = 1`, and the golden move is rejected. -/
theorem golden_move_rejects_split_witness :
    area_count (set_board game_3_1_played 1 0 0) (game_3_1_played.board 1 0) 2
      ∧ game_3_1_played.max_areas < 2
      ∧ (gamma_golden_move game_3_1_played 2 1 0).1 = false :=
  ⟨game_3_1_split, by decide,
    golden_move_rejects_split game_3_1_played game_3_1_played_reachable 2 1 0 2
      game_3_1_split (by decide)⟩

/-! ## What the moves do -/

/-- C9: a successful `gamma_move` in a state of a game increases
`busy_fields[player]` by exactly 1, decreases `all_free_fields` by exactly 1 and
makes `player` the owner of `(x, y)`; a move of a player with fewer than
`max_areas` areas on a free field of the board is successful, whoever owns the
neighbours; and after `gamma_new(4, 4, 2, 2)` the call `gamma_move(1, 1, 1)`
returns `true` with `gamma_busy_fields(1) = 1`, and then `gamma_move(2, 2, 1)`
returns `true` with `gamma_busy_fields(2) = 1`. -/
theorem move_takes_field :
    (∀ (g : gamma_t) (player x y : Nat), reachable g → (gamma_move g player x y).1 = true →
      (gamma_move g player x y).2.busy_fields player = g.busy_fields player + 1
        ∧ (gamma_move g player x y).2.all_free_fields + 1 = g.all_free_fields
        ∧ (gamma_move g player x y).2.board x y = player)
    ∧ (∀ (g : gamma_t) (player x y : Nat), 1 ≤ player → player ≤ g.players →
        x < g.width → y < g.height → g.board x y = 0 → g.areas player < g.max_areas →
        (gamma_move g player x y).1 = true)
    ∧ (∃ g, gamma_new 4 4 2 2 = some g
        ∧ (gamma_move g 1 1 1).1 = true
        ∧ gamma_busy_fields (gamma_move g 1 1 1).2 1 = 1
        ∧ (gamma_move (gamma_move g 1 1 1).2 2 2 1).1 = true
        ∧ gamma_busy_fields (gamma_move (gamma_move g 1 1 1).2 2 2 1).2 2 = 1) := by
  refine ⟨?_, ?_, ?_⟩
  · intro g player x y h hres
    have hinv := reachable_inv g h
    have hinv' := gamma_move_inv g hinv player x y
    obtain ⟨⟨hp1, hp2, hx, hy, hb, _⟩, hstate⟩ := gamma_move_state g player x y hres
    have hbusy' := hinv'.busy player hp1
    have hfree' := hinv'.free
    rw [hstate] at hbusy' hfree' ⊢
    have hgain := count_owned_gain g x y player ⟨hx, hy⟩ (by omega)
    have hloss := count_owned_loss g x y player 0 ⟨hx, hy⟩ hb (by omega)
    refine ⟨?_, ?_, ?_⟩
    · rw [hbusy', hinv.busy player hp1]; exact hgain
    · rw [hfree', hinv.free]; exact hloss
    · simp [set_board]
  · intro g player x y hp1 hp2 hx hy hb hlt
    unfold gamma_move
    rw [if_neg (by omega), if_neg]
    rintro (h | h)
    · exact h hb
    · simp only [Bool.and_eq_true, beq_iff_eq] at h
      omega
  · exact ⟨game_4_4, game_4_4_new, by decide, by decide, by decide, by decide⟩

/-- The first move on the board of 16 fields. -/
theorem move_takes_field_witness :
    (gamma_move game_4_4 1 1 1).1 = true
      ∧ (gamma_move game_4_4 1 1 1).2.busy_fields 1 = game_4_4.busy_fields 1 + 1
      ∧ (gamma_move game_4_4 1 1 1).2.all_free_fields + 1 = game_4_4.all_free_fields
      ∧ (gamma_move game_4_4 1 1 1).2.board 1 1 = 1 :=
  ⟨by decide, move_takes_field.1 game_4_4 1 1 1 game_4_4_reachable (by decide)⟩

/-- C10: when `gamma_move` or `gamma_golden_move` returns `true` in a state of
a game, `areas[player]` after the call is `areas[player]` before the call plus 1
minus `k`, where `k` is the number of areas of `player` on the board before
the call that contain a neighbour of `(x, y)`; and on the board of width 5 and
height 1, with any number of players and `max_areas` at least 2, after player 1
took the fields `x = 0` and `x = 2` (`areas[1] = 2`) the call
`gamma_move(1, 1, 0)` returns `true` and leaves `areas[1] = 1`. -/
theorem placing_joins_areas :
    (∀ (g : gamma_t) (player x y k : Nat), reachable g → areas_around g player x y k →
      ((gamma_move g player x y).1 = true →
        ((gamma_move g player x y).2.areas player : Int) = g.areas player + 1 - k)
      ∧ ((gamma_golden_move g player x y).1 = true →
        ((gamma_golden_move g player x y).2.areas player : Int) = g.areas player + 1 - k))
    ∧ (∀ (players areas : Nat), 1 ≤ players → 2 ≤ areas →
        ∃ g, gamma_new 5 1 players areas = some g
          ∧ (gamma_move g 1 0 0).1 = true
          ∧ (gamma_move (gamma_move g 1 0 0).2 1 2 0).1 = true
          ∧ (gamma_move (gamma_move g 1 0 0).2 1 2 0).2.areas 1 = 2
          ∧ (gamma_move (gamma_move (gamma_move g 1 0 0).2 1 2 0).2 1 1 0).1 = true
          ∧ (gamma_move (gamma_move (gamma_move g 1 0 0).2 1 2 0).2 1 1 0).2.areas 1 = 1) := by
  refine ⟨?_, ?_⟩
  · intro g player x y k h hk
    have hinv := reachable_inv g h
    constructor
    · intro hres
      obtain ⟨⟨hp1, hp2, hx, hy, hb, _⟩, hstate⟩ := gamma_move_state g player x y hres
      obtain ⟨k', hk', hkN, hval, _⟩ :=
        areas_after_placing_spec g hinv player x y hp1 ⟨hx, hy⟩ (by omega)
      have hkk := areas_around_unique g player x y k k' hk hk'
      rw [hstate]
      show ((set_entry g.areas player (areas_after_placing g player x y) player : Nat) : Int)
        = g.areas player + 1 - k
      rw [set_entry_same, hval]
      omega
    · intro hres
      obtain ⟨⟨hp1, hp2, hx, hy, _, ho0, hop, _, _⟩, hstate⟩ :=
        gamma_golden_move_state g player x y hres
      obtain ⟨k', hk', hkN, hval, _⟩ :=
        areas_after_placing_spec g hinv player x y hp1 ⟨hx, hy⟩ hop
      have hkk := areas_around_unique g player x y k k' hk hk'
      rw [hstate]
      show ((set_entry (set_entry g.areas player (areas_after_placing g player x y))
          (g.board x y)
          (to_u32 (((set_entry g.areas player (areas_after_placing g player x y)
              (g.board x y) : Nat) : Int)
            + ((number_of_connected_areas (set_board g x y 0) (g.board x y) x y : Int) - 1)))
          player : Nat) : Int) = g.areas player + 1 - k
      rw [set_entry_other _ _ _ _ (Ne.symm hop), set_entry_same, hval]
      omega
  · intro players areas hp ha
    have hnew : gamma_new 5 1 players areas = some
        { board := fun _ _ => 0
          busy_fields := fun _ => 0
          free_fields := fun _ => 0
          areas := fun _ => 0
          golden_move_available := init_boolean_array (to_u32 ((players : Int) + 1))
          all_free_fields := 5 * 1
          players := players
          max_areas := areas
          width := 5
          height := 1 } := by
      unfold gamma_new BOARD_SIZE_HARD_LIMIT UINT32_MAX
      rw [if_neg (by omega)]
    refine ⟨_, hnew, ?_⟩
    have h0 : (0 : Nat) ≠ areas := by omega
    have h1 : (1 : Nat) ≠ areas := by omega
    have hp' : ¬ (1 > players) := by omega
    simp [gamma_move, player_fields_around, areas_after_placing, set_board, set_entry, to_u32,
      to_u64, UINT32_MAX, hp, h0, h1, hp', number_of_connected_areas, connected_areas_scan,
      is_another_area, make_BFS, make_BFS_loop, add_to_queue_fields_around, add_to_queue, shift,
      mark, init_board, enqueue, dequeue, init_queue, empty_queue]

/-- Player 1 joins the two areas around the field `(1, 0)`. -/
theorem placing_joins_areas_witness :
    areas_around game_5_1_played 1 1 0 (number_of_connected_areas game_5_1_played 1 1 0)
      ∧ number_of_connected_areas game_5_1_played 1 1 0 = 2
      ∧ (gamma_move game_5_1_played 1 1 0).1 = true
      ∧ ((gamma_move game_5_1_played 1 1 0).2.areas 1 : Int)
        = game_5_1_played.areas 1 + 1 - number_of_connected_areas game_5_1_played 1 1 0 :=
  ⟨number_of_connected_areas_spec game_5_1_played (by decide) 1 1 0 (by decide), by decide,
    by decide,
    (placing_joins_areas.1 game_5_1_played 1 1 0 _ game_5_1_played_reachable
      (number_of_connected_areas_spec game_5_1_played (by decide) 1 1 0 (by decide))).1
      (by decide)⟩

/-! ## What a golden move does -/

theorem game_3_1_two_played_reachable : reachable game_3_1_two_played :=
  reachable.move _ 1 2 0 (reachable.move _ 1 1 0 (reachable.move _ 1 0 0
    (reachable.new 3 1 2 2 _ (by rfl))))

/-- C11: when `gamma_golden_move` returns `true`, with `owner` the owner of
`(x, y)` before the call, the state after the call has `player` as the owner of
`(x, y)`, the golden move of `player` marked as used and `all_free_fields`
unchanged; in a state of a game `busy_fields[owner]` is decreased by exactly 1
and `busy_fields[player]` is increased by exactly 1. -/
theorem golden_move_takes_field (g : gamma_t) (player x y : Nat)
    (hres : (gamma_golden_move g player x y).1 = true) :
    ((gamma_golden_move g player x y).2.board x y = player
      ∧ (gamma_golden_move g player x y).2.golden_move_available player = false
      ∧ (gamma_golden_move g player x y).2.all_free_fields = g.all_free_fields)
    ∧ (reachable g →
      (gamma_golden_move g player x y).2.busy_fields (g.board x y) + 1
          = g.busy_fields (g.board x y)
        ∧ (gamma_golden_move g player x y).2.busy_fields player = g.busy_fields player + 1) := by
  obtain ⟨⟨hp1, hp2, hx, hy, _, ho0, hop, _, _⟩, hstate⟩ :=
    gamma_golden_move_state g player x y hres
  refine ⟨⟨?_, ?_, ?_⟩, ?_⟩
  · rw [hstate]; simp [set_board]
  · rw [hstate]
    show set_entry g.golden_move_available player false player = false
    exact set_entry_same _ _ _
  · rw [hstate]; rfl
  · intro h
    have hinv := reachable_inv g h
    have hinv' := gamma_golden_move_inv g hinv player x y
    have hb1 := hinv'.busy player hp1
    have hb2 := hinv'.busy (g.board x y) (by omega)
    rw [hstate] at hb1 hb2 ⊢
    have hgain := count_owned_gain g x y player ⟨hx, hy⟩ hop
    have hloss := count_owned_loss g x y player (g.board x y) ⟨hx, hy⟩ rfl (Ne.symm hop)
    constructor
    · rw [hb2, hinv.busy (g.board x y) (by omega)]; exact hloss
    · rw [hb1, hinv.busy player hp1]; exact hgain

/-- Player 2 takes the field `(1, 1)` of player 1 on the board of 16 fields. -/
theorem golden_move_takes_field_witness :
    (gamma_golden_move game_4_4_played 2 1 1).1 = true
      ∧ game_4_4_played.board 1 1 = 1
      ∧ (gamma_golden_move game_4_4_played 2 1 1).2.board 1 1 = 2
      ∧ (gamma_golden_move game_4_4_played 2 1 1).2.busy_fields 1 + 1
          = game_4_4_played.busy_fields 1
      ∧ (gamma_golden_move game_4_4_played 2 1 1).2.busy_fields 2
          = game_4_4_played.busy_fields 2 + 1 :=
  ⟨by decide, by decide,
    (golden_move_takes_field game_4_4_played 2 1 1 (by decide)).1.1,
    (golden_move_takes_field game_4_4_played 2 1 1 (by decide)).2 game_4_4_played_reachable⟩

/-- The value of `areas[owner]` after a successful golden move in a state of a
game, with `split` the value of `number_of_split_areas`. -/
theorem golden_move_areas_owner (g : gamma_t) (h : reachable g) (player x y : Nat)
    (hres : (gamma_golden_move g player x y).1 = true) :
    1 ≤ g.areas (g.board x y)
        + number_of_connected_areas (set_board g x y 0) (g.board x y) x y
      ∧ (gamma_golden_move g player x y).2.areas (g.board x y)
        = g.areas (g.board x y)
          + number_of_connected_areas (set_board g x y 0) (g.board x y) x y - 1
      ∧ areas_around (set_board g x y 0) (g.board x y) x y
          (number_of_connected_areas (set_board g x y 0) (g.board x y) x y) := by
  have hinv := reachable_inv g h
  obtain ⟨⟨_, _, hx, hy, _, ho0, hop, _, _⟩, hstate⟩ :=
    gamma_golden_move_state g player x y hres
  obtain ⟨hs, hs1, _, hsmax⟩ := split_areas_spec g hinv x y ⟨hx, hy⟩ ho0
  refine ⟨hs1, ?_, hs⟩
  rw [hstate]
  show set_entry (set_entry g.areas player (areas_after_placing g player x y))
      (g.board x y)
      (to_u32 (((set_entry g.areas player (areas_after_placing g player x y)
          (g.board x y) : Nat) : Int)
        + ((number_of_connected_areas (set_board g x y 0) (g.board x y) x y : Int) - 1)))
      (g.board x y) = _
  rw [set_entry_same, set_entry_other _ _ _ _ hop]
  exact to_u32_eq _ _ (by omega) hsmax

/-- The fields the previous owner keeps after a successful golden move. -/
theorem owns_after_golden_move (g : gamma_t) (player x y : Nat)
    (hres : (gamma_golden_move g player x y).1 = true) (f : field_t) :
    owns (gamma_golden_move g player x y).2 (g.board x y) f
      ↔ owns (set_board g x y 0) (g.board x y) f := by
  obtain ⟨⟨_, _, _, _, _, ho0, hop, _, _⟩, hstate⟩ :=
    gamma_golden_move_state g player x y hres
  rw [hstate]
  exact owns_captured g x y player (g.board x y) hop ho0 f

/-- C12: when `gamma_golden_move` returns `true` in a state of a game, with
`owner` the owner of `(x, y)` before the call, `areas[owner]` after the call is
`areas[owner]` before the call plus `split` minus 1, where `split` is the number
of areas of the fields that `owner` keeps (the fields of `owner` on the board
without `(x, y)`, which are the fields of `owner` after the call) that contain a
neighbour of `(x, y)`; so a capture that leaves two such areas increases
`areas[owner]` by exactly 1. -/
theorem golden_move_splits_area (g : gamma_t) (h : reachable g) (player x y : Nat)
    (hres : (gamma_golden_move g player x y).1 = true) :
    (∀ split, areas_around (set_board g x y 0) (g.board x y) x y split →
      ((gamma_golden_move g player x y).2.areas (g.board x y) : Int)
        = g.areas (g.board x y) + split - 1)
    ∧ (∀ split, areas_around (gamma_golden_move g player x y).2 (g.board x y) x y split →
      ((gamma_golden_move g player x y).2.areas (g.board x y) : Int)
        = g.areas (g.board x y) + split - 1)
    ∧ (areas_around (gamma_golden_move g player x y).2 (g.board x y) x y 2 →
      (gamma_golden_move g player x y).2.areas (g.board x y) = g.areas (g.board x y) + 1) := by
  obtain ⟨h1, hval, hs⟩ := golden_move_areas_owner g h player x y hres
  have key : ∀ split, areas_around (set_board g x y 0) (g.board x y) x y split →
      ((gamma_golden_move g player x y).2.areas (g.board x y) : Int)
        = g.areas (g.board x y) + split - 1 := by
    intro split hsplit
    have := areas_around_unique _ _ _ _ _ _ hsplit hs
    rw [hval, this]
    omega
  have hcongr : ∀ split,
      areas_around (gamma_golden_move g player x y).2 (g.board x y) x y split →
      areas_around (set_board g x y 0) (g.board x y) x y split :=
    fun split hsplit =>
      (areas_around_congr (owns_after_golden_move g player x y hres) x y split).1 hsplit
  refine ⟨key, fun split hsplit => key split (hcongr split hsplit), fun h2 => ?_⟩
  have := key 2 (hcongr 2 h2)
  omega

/-- Player 2 takes the middle of the three fields of player 1, whose area
splits into two. -/
theorem golden_move_splits_area_witness :
    (gamma_golden_move game_3_1_two_played 2 1 0).1 = true
      ∧ game_3_1_two_played.board 1 0 = 1
      ∧ game_3_1_two_played.areas 1 = 1
      ∧ (gamma_golden_move game_3_1_two_played 2 1 0).2.areas 1 = 2
      ∧ areas_around (set_board game_3_1_two_played 1 0 0) 1 1 0 2
      ∧ ((gamma_golden_move game_3_1_two_played 2 1 0).2.areas
            (game_3_1_two_played.board 1 0) : Int)
          = game_3_1_two_played.areas (game_3_1_two_played.board 1 0) + 2 - 1 :=
  ⟨by decide, by decide, by decide, by decide,
    (golden_move_areas_owner game_3_1_two_played game_3_1_two_played_reachable 2 1 0
      (by decide)).2.2,
    (golden_move_splits_area game_3_1_two_played game_3_1_two_played_reachable 2 1 0
      (by decide)).1 2
      (golden_move_areas_owner game_3_1_two_played game_3_1_two_played_reachable 2 1 0
        (by decide)).2.2⟩

/-- C13: when `gamma_golden_move` returns `true` in a state of a game and no
neighbour of `(x, y)` was owned by the owner of `(x, y)`, the value of
`number_of_split_areas` is 0 and `areas[owner]` decreases by exactly 1, from a
value of at least 1. -/
theorem golden_move_lone_field (g : gamma_t) (h : reachable g) (player x y : Nat)
    (hres : (gamma_golden_move g player x y).1 = true)
    (hlone : ¬ has_neighbour g (g.board x y) { x := x, y := y }) :
    (number_of_split_areas g (g.board x y) x y).2 = 0
      ∧ 1 ≤ g.areas (g.board x y)
      ∧ (gamma_golden_move g player x y).2.areas (g.board x y) + 1
          = g.areas (g.board x y) := by
  obtain ⟨h1, hval, hs⟩ := golden_move_areas_owner g h player x y hres
  have hzero : areas_around (set_board g x y 0) (g.board x y) x y 0 := by
    apply areas_around_zero
    rintro ⟨n, hadj, hn⟩
    apply hlone
    refine ⟨n, hadj, ?_⟩
    rcases (owns_set_board g x y 0 _ n).1 hn with ⟨_, _, h0⟩ | ⟨_, hn'⟩
    · obtain ⟨⟨_, _, _, _, _, ho0, _, _, _⟩, _⟩ := gamma_golden_move_state g player x y hres
      exact absurd h0.symm ho0
    · exact hn'
  have hk := areas_around_unique _ _ _ _ _ _ hs hzero
  rw [hk] at h1 hval
  simp only [number_of_split_areas_eq]
  refine ⟨hk, by omega, by omega⟩

/-- Player 2 takes the only field of player 1 on the board of 16 fields. -/
theorem golden_move_lone_field_witness :
    (gamma_golden_move game_4_4_played 2 1 1).1 = true
      ∧ ¬ has_neighbour game_4_4_played (game_4_4_played.board 1 1) { x := 1, y := 1 }
      ∧ game_4_4_played.areas (game_4_4_played.board 1 1) = 1
      ∧ (number_of_split_areas game_4_4_played (game_4_4_played.board 1 1) 1 1).2 = 0
      ∧ 1 ≤ game_4_4_played.areas (game_4_4_played.board 1 1)
      ∧ (gamma_golden_move game_4_4_played 2 1 1).2.areas (game_4_4_played.board 1 1) + 1
          = game_4_4_played.areas (game_4_4_played.board 1 1) :=
  ⟨by decide, by decide, by decide,
    golden_move_lone_field game_4_4_played game_4_4_played_reachable 2 1 1 (by decide)
      (by decide)⟩

/-! ## Creating a game -/

/-- C20: `gamma_new` fails (memory allocation assumed to succeed) exactly when
one of its four arguments is 0 or the product `width * height`, taken without
wrap-around, exceeds `2^32 - 1`; `gamma_new(65536, 65536, 1, 1)` fails although
the product is 0 in 32-bit arithmetic. -/
theorem gamma_new_fails_iff :
    (∀ width height players areas : Nat,
      gamma_new width height players areas = none
        ↔ width = 0 ∨ height = 0 ∨ players = 0 ∨ areas = 0
          ∨ width * height > 4294967295)
    ∧ gamma_new 65536 65536 1 1 = none
    ∧ to_u32 ((65536 : Int) * 65536) = 0 := by
  refine ⟨?_, by rfl, by decide⟩
  intro width height players areas
  unfold gamma_new BOARD_SIZE_HARD_LIMIT UINT32_MAX
  by_cases hc : width ≤ 0 ∨ height ≤ 0 ∨ players ≤ 0 ∨ areas ≤ 0
      ∨ width * height > 4294967295
  · rw [if_pos hc]
    simp only [Nat.le_zero_eq] at hc
    simp [hc]
  · rw [if_neg hc]
    simp only [Nat.le_zero_eq] at hc
    simp [hc]

/-! ## The golden move is made once -/

/-- The flags of the golden moves are not touched by `gamma_move`. -/
theorem gamma_move_flags (g : gamma_t) (player x y : Nat) :
    (gamma_move g player x y).2.golden_move_available = g.golden_move_available
      ∧ (gamma_move g player x y).2.players = g.players := by
  cases hres : (gamma_move g player x y).1
  · rw [gamma_move_failed g player x y hres]; exact ⟨rfl, rfl⟩
  · rw [(gamma_move_state g player x y hres).2]; exact ⟨rfl, rfl⟩

/-- A call of `gamma_golden_move` only changes the flag of the player who made
it, to `false` and only when it returns `true`. -/
theorem gamma_golden_move_flags (g : gamma_t) (player x y : Nat) :
    (∀ q, (q ≠ player ∨ (gamma_golden_move g player x y).1 = false) →
      (gamma_golden_move g player x y).2.golden_move_available q = g.golden_move_available q)
    ∧ ((gamma_golden_move g player x y).1 = true →
      (gamma_golden_move g player x y).2.golden_move_available player = false)
    ∧ (gamma_golden_move g player x y).2.players = g.players := by
  cases hres : (gamma_golden_move g player x y).1
  · rw [gamma_golden_move_failed g player x y hres]
    exact ⟨fun _ _ => rfl, fun h => Bool.noConfusion h, rfl⟩
  · rw [(gamma_golden_move_state g player x y hres).2]
    refine ⟨?_, fun _ => set_entry_same _ _ _, rfl⟩
    rintro q (hq | hq)
    · exact set_entry_other _ _ _ _ hq
    · exact Bool.noConfusion hq

/-- A golden move of a player whose flag is `false` is rejected. -/
theorem gamma_golden_move_unavailable (g : gamma_t) (player x y : Nat)
    (h : g.golden_move_available player = false) :
    (gamma_golden_move g player x y).1 = false := by
  cases hres : (gamma_golden_move g player x y).1
  · rfl
  · have := (gamma_golden_move_state g player x y hres).1.2.2.2.2.1
    rw [h] at this
    exact Bool.noConfusion this

/-- A flag that is `false` stays `false` in every later state. -/
theorem later_flag (g g' : gamma_t) (h : later g g') (q : Nat)
    (hq : g.golden_move_available q = false) : g'.golden_move_available q = false := by
  induction h with
  | now => exact hq
  | move g' player x y _ ih =>
    rw [(gamma_move_flags g' player x y).1]; exact ih
  | golden_move g' player x y _ ih =>
    by_cases hc : q ≠ player ∨ (gamma_golden_move g' player x y).1 = false
    · rw [(gamma_golden_move_flags g' player x y).1 q hc]; exact ih
    · simp only [not_or, ne_eq, not_not, Bool.not_eq_false] at hc
      rw [hc.1]
      exact (gamma_golden_move_flags g' player x y).2.1 hc.2

/-- After a successful golden move of `player` the flag of `player` is `false`
in every later state. -/
theorem golden_flag_stays_spent (g : gamma_t) (player x y : Nat)
    (hres : (gamma_golden_move g player x y).1 = true) (g' : gamma_t)
    (hl : later (gamma_golden_move g player x y).2 g') :
    g'.golden_move_available player = false :=
  later_flag _ g' hl player ((gamma_golden_move_flags g player x y).2.1 hres)

/-- In a game of fewer than `2^32 - 1` players the flag of a player in
`[1, players]` is `true` as long as the player has made no successful golden
move. -/
theorem uncaptured_flag (p : Nat) (g : gamma_t) (h : uncaptured p g) :
    g.players < UINT32_MAX → 1 ≤ p → p ≤ g.players → g.golden_move_available p = true := by
  induction h with
  | new width height players areas g hnew =>
    intro hmax _ hp
    unfold gamma_new at hnew
    by_cases hc : width ≤ 0 ∨ height ≤ 0 ∨ players ≤ 0 ∨ areas ≤ 0
        ∨ width * height > BOARD_SIZE_HARD_LIMIT
    · rw [if_pos hc] at hnew; exact Option.noConfusion hnew
    · rw [if_neg hc] at hnew
      have hg := Option.some.inj hnew
      subst hg
      show init_boolean_array (to_u32 ((players : Int) + 1)) p = true
      have hp' : p ≤ players := hp
      have hmax' : players < UINT32_MAX := hmax
      simp only [init_boolean_array, decide_eq_true_eq]
      unfold to_u32
      unfold UINT32_MAX at hmax'
      omega
  | move g player x y _ ih =>
    intro hmax hp1 hp
    rw [(gamma_move_flags g player x y).2] at hmax hp
    rw [(gamma_move_flags g player x y).1]
    exact ih hmax hp1 hp
  | golden_move g player x y _ hcase ih =>
    intro hmax hp1 hp
    rw [(gamma_golden_move_flags g player x y).2.2] at hmax hp
    have hc : p ≠ player ∨ (gamma_golden_move g player x y).1 = false := by
      rcases hcase with hc | hc
      · exact Or.inl (Ne.symm hc)
      · exact Or.inr hc
    rw [(gamma_golden_move_flags g player x y).1 p hc]
    exact ih hmax hp1 hp

/-- When a game is made for `2^32 - 1` players, the size `players + 1` given to
`init_boolean_array` is 0, no flag is set, and no golden move is ever
accepted. -/
theorem max_players_flags (width height areas : Nat) (g : gamma_t)
    (h : gamma_new width height UINT32_MAX areas = some g) :
    (∀ p, g.golden_move_available p = false)
      ∧ ∀ g', later g g' → ∀ p x y, (gamma_golden_move g' p x y).1 = false := by
  have hflags : ∀ p, g.golden_move_available p = false := by
    intro p
    unfold gamma_new at h
    by_cases hc : width ≤ 0 ∨ height ≤ 0 ∨ UINT32_MAX ≤ 0 ∨ areas ≤ 0
        ∨ width * height > BOARD_SIZE_HARD_LIMIT
    · rw [if_pos hc] at h; exact Option.noConfusion h
    · rw [if_neg hc] at h
      have hg := Option.some.inj h
      subst hg
      show init_boolean_array (to_u32 ((UINT32_MAX : Int) + 1)) p = false
      have : to_u32 ((UINT32_MAX : Int) + 1) = 0 := by decide
      rw [this]
      simp [init_boolean_array]
  refine ⟨hflags, fun g' hl p x y => ?_⟩
  exact gamma_golden_move_unavailable g' p x y (later_flag g g' hl p (hflags p))

/-- C14: the game made by `gamma_new(1, 1, 4294967295, 1)`: no golden move has
been made, and yet the flag `golden_move_available` of player 1, and of every
player, is `false` as after a golden move, and every golden move is rejected. -/
theorem golden_flag_max_players :
    gamma_new 1 1 4294967295 1 = some game_max_players
      ∧ uncaptured 1 game_max_players
      ∧ (1 ≤ 1 ∧ 1 ≤ game_max_players.players)
      ∧ game_max_players.golden_move_available 1 = false
      ∧ (∀ p, game_max_players.golden_move_available p = false)
      ∧ ∀ p x y, (gamma_golden_move game_max_players p x y).1 = false :=
  ⟨by rfl, uncaptured.new 1 1 4294967295 1 _ (by rfl), by decide, by decide,
    (max_players_flags 1 1 1 game_max_players (by rfl)).1,
    fun p x y => (max_players_flags 1 1 1 game_max_players (by rfl)).2 _ (later.now _) p x y⟩

/-- C15: after `gamma_golden_move` of `player` has returned `true`, every
later call of `gamma_golden_move` of `player`, after any calls of `gamma_move`
and `gamma_golden_move` of any players, returns `false` for all `x` and `y`. -/
theorem golden_move_once (g : gamma_t) (player x y : Nat)
    (hres : (gamma_golden_move g player x y).1 = true) (g' : gamma_t)
    (hl : later (gamma_golden_move g player x y).2 g') (x' y' : Nat) :
    (gamma_golden_move g' player x' y').1 = false :=
  gamma_golden_move_unavailable g' player x' y'
    (golden_flag_stays_spent g player x y hres g' hl)

/-- After player 2 took the field `(1, 1)` and player 1 made a move, player 2
cannot take the field `(0, 0)` of player 1. -/
theorem golden_move_once_witness :
    (gamma_golden_move game_4_4_played 2 1 1).1 = true
      ∧ (gamma_move (gamma_golden_move game_4_4_played 2 1 1).2 1 0 0).1 = true
      ∧ (gamma_golden_move
          (gamma_move (gamma_golden_move game_4_4_played 2 1 1).2 1 0 0).2 2 0 0).1 = false :=
  ⟨by decide, by decide,
    golden_move_once game_4_4_played 2 1 1 (by decide) _
      (later.move _ _ 1 0 0 (later.now _)) 0 0⟩

/-! ## The fields a player can take -/

/-- The test that `gamma_move` makes before it places the pawn. -/
theorem gamma_move_accepts (g : gamma_t) (ht : typed g) (player x y : Nat) :
    (gamma_move g player x y).1 = true
      ↔ (1 ≤ player ∧ player ≤ g.players) ∧ x < g.width ∧ y < g.height ∧ g.board x y = 0
        ∧ ¬ (¬ has_neighbour g player { x := x, y := y } ∧ g.areas player = g.max_areas) := by
  constructor
  · intro h
    obtain ⟨⟨hp1, hp2, hx, hy, hb, hlim⟩, _⟩ := gamma_move_state g player x y h
    refine ⟨⟨hp1, hp2⟩, hx, hy, hb, ?_⟩
    rintro ⟨hn, ha⟩
    apply hlim
    refine ⟨?_, ha⟩
    cases hv : player_fields_around g player x y
    · rfl
    · exact absurd ((player_fields_around_iff g ht player x y ⟨hx, hy⟩).1 hv) hn
  · rintro ⟨⟨hp1, hp2⟩, hx, hy, hb, hlim⟩
    unfold gamma_move
    rw [if_neg (by omega), if_neg]
    rintro (h | h)
    · exact h hb
    · simp only [Bool.and_eq_true, Bool.not_eq_true', beq_iff_eq] at h
      apply hlim
      refine ⟨?_, h.2⟩
      intro hex
      have := (player_fields_around_iff g ht player x y ⟨hx, hy⟩).2 hex
      rw [h.1] at this
      exact Bool.noConfusion this

theorem count_free_fields_column_eq (g : gamma_t) (player x : Nat) (n : Nat) :
    count_free_fields_column g player x n
      = ∑ y in Finset.range n,
          (if (player_fields_around g player x y && g.board x y == 0) = true then 1 else 0) := by
  induction n with
  | zero => rfl
  | succ n ih => rw [Finset.sum_range_succ, ← ih]; rfl

theorem count_free_fields_upto_eq (g : gamma_t) (player : Nat) (n : Nat) :
    count_free_fields_upto g player n
      = ∑ x in Finset.range n, ∑ y in Finset.range g.height,
          (if (player_fields_around g player x y && g.board x y == 0) = true then 1 else 0) := by
  induction n with
  | zero => rfl
  | succ n ih =>
    rw [Finset.sum_range_succ, ← ih, ← count_free_fields_column_eq]; rfl

/-- The loops of `count_free_fields` count the free fields of the board with a
neighbour owned by `player`. -/
theorem count_free_fields_upto_width (g : gamma_t) (ht : typed g) (player : Nat) :
    count_free_fields_upto g player g.width = count_free_next_to g player := by
  rw [count_free_fields_upto_eq]
  unfold count_free_next_to
  rw [Finset.card_filter, Finset.sum_product]
  apply Finset.sum_congr rfl
  intro x hx
  apply Finset.sum_congr rfl
  intro y hy
  have hin : in_board g { x := x, y := y } := ⟨Finset.mem_range.1 hx, Finset.mem_range.1 hy⟩
  have hiff := player_fields_around_iff g ht player x y hin
  have hcond : (player_fields_around g player x y && g.board x y == 0) = true
      ↔ (g.board x y = 0 ∧ has_neighbour g player { x := x, y := y }) := by
    rw [Bool.and_eq_true, beq_iff_eq, hiff]
    exact and_comm
  exact if_congr hcond rfl rfl

theorem count_free_next_to_le (g : gamma_t) (player : Nat) :
    count_free_next_to g player ≤ g.width * g.height := by
  unfold count_free_next_to
  calc _ ≤ (Finset.range g.width ×ˢ Finset.range g.height).card := Finset.card_filter_le _ _
    _ = g.width * g.height := by simp

/-- The 64-bit counter of `count_free_fields` does not wrap around. -/
theorem count_free_fields_eq (g : gamma_t) (ht : typed g) (player : Nat) :
    count_free_fields g player = count_free_next_to g player := by
  unfold count_free_fields
  rw [count_free_fields_upto_width g ht player]
  have h1 := count_free_next_to_le g player
  have h2 : g.width * g.height ≤ UINT32_MAX * UINT32_MAX := Nat.mul_le_mul ht.1 ht.2
  have h3 : UINT32_MAX * UINT32_MAX < 18446744073709551616 := by decide
  unfold to_u64
  omega

/-- The two branches of `gamma_free_fields` for a player in `[1, players]`. -/
theorem gamma_free_fields_cases (g : gamma_t) (ht : typed g) (player : Nat) (hp1 : 1 ≤ player)
    (hp2 : player ≤ g.players) :
    (g.areas player < g.max_areas → gamma_free_fields g player = g.all_free_fields)
      ∧ (¬ g.areas player < g.max_areas →
        gamma_free_fields g player = count_free_next_to g player) := by
  unfold gamma_free_fields
  rw [if_neg (by omega)]
  constructor
  · intro h
    rw [if_pos h]
  · intro h
    rw [if_neg h]
    exact count_free_fields_eq g ht player

/-- C16: for every state whose sizes are `uint32_t` values and every player in
`[1, players]`: when `areas[player] < max_areas`, `gamma_free_fields` returns
`all_free_fields`; otherwise it returns the number of fields of the board that
have owner 0 and a neighbour on the board owned by `player`. -/
theorem free_fields_value (g : gamma_t) (ht : typed g) (player : Nat) (hp1 : 1 ≤ player)
    (hp2 : player ≤ g.players) :
    (g.areas player < g.max_areas → gamma_free_fields g player = g.all_free_fields)
      ∧ (¬ g.areas player < g.max_areas →
        gamma_free_fields g player = count_free_next_to g player) :=
  gamma_free_fields_cases g ht player hp1 hp2

/-- Player 1 has `max_areas = 2` areas on the board of width 5 and can take the
two free fields next to them; player 2 can take the three free fields. -/
theorem free_fields_value_witness :
    typed game_5_1_played
      ∧ ¬ game_5_1_played.areas 1 < game_5_1_played.max_areas
      ∧ count_free_next_to game_5_1_played 1 = 2
      ∧ gamma_free_fields game_5_1_played 1 = count_free_next_to game_5_1_played 1
      ∧ game_5_1_played.areas 2 < game_5_1_played.max_areas
      ∧ game_5_1_played.all_free_fields = 3
      ∧ gamma_free_fields game_5_1_played 2 = game_5_1_played.all_free_fields :=
  ⟨by decide, by decide, by decide,
    (free_fields_value game_5_1_played (by decide) 1 (by decide) (by decide)).2 (by decide),
    by decide, by decide,
    (free_fields_value game_5_1_played (by decide) 2 (by decide) (by decide)).1 (by decide)⟩

/-- C17: in every state of a game and for every player `p` in `[1, players]`,
`gamma_free_fields` returns the number of fields `(x, y)` of the board for
which `gamma_move` of `p` would return `true`; for no other `(x, y)` would it
return `true`. -/
theorem free_fields_counts_moves (g : gamma_t) (h : reachable g) (p : Nat) (hp1 : 1 ≤ p)
    (hp2 : p ≤ g.players) :
    gamma_free_fields g p = count_legal_moves g p
      ∧ ∀ x y, (gamma_move g p x y).1 = true →
          (x, y) ∈ Finset.range g.width ×ˢ Finset.range g.height := by
  have hinv := reachable_inv g h
  have ht := hinv.typed
  constructor
  · by_cases hlt : g.areas p < g.max_areas
    · rw [(gamma_free_fields_cases g ht p hp1 hp2).1 hlt, hinv.free]
      unfold count_owned count_legal_moves
      congr 1
      apply Finset.filter_congr
      intro c hc
      simp only [Finset.mem_product, Finset.mem_range] at hc
      rw [gamma_move_accepts g ht p c.1 c.2]
      constructor
      · intro hb
        exact ⟨⟨hp1, hp2⟩, hc.1, hc.2, hb, fun hcon => by omega⟩
      · intro hm
        exact hm.2.2.2.1
    · rw [(gamma_free_fields_cases g ht p hp1 hp2).2 hlt]
      have heq : g.areas p = g.max_areas := by
        have := hinv.limit p hp1
        omega
      unfold count_free_next_to count_legal_moves
      congr 1
      apply Finset.filter_congr
      intro c hc
      simp only [Finset.mem_product, Finset.mem_range] at hc
      rw [gamma_move_accepts g ht p c.1 c.2]
      constructor
      · rintro ⟨hb, hn⟩
        exact ⟨⟨hp1, hp2⟩, hc.1, hc.2, hb, fun hcon => hcon.1 hn⟩
      · intro hm
        refine ⟨hm.2.2.2.1, ?_⟩
        by_contra hn
        exact hm.2.2.2.2 ⟨hn, heq⟩
  · intro x y hm
    obtain ⟨⟨_, _, hx, hy, _, _⟩, _⟩ := gamma_move_state g p x y hm
    simp only [Finset.mem_product, Finset.mem_range]
    exact ⟨hx, hy⟩

/-- On the board of width 5 player 1, who has `max_areas` areas, can move to
two fields and player 2 to three. -/
theorem free_fields_counts_moves_witness :
    gamma_free_fields game_5_1_played 1 = 2
      ∧ count_legal_moves game_5_1_played 1 = 2
      ∧ gamma_free_fields game_5_1_played 1 = count_legal_moves game_5_1_played 1
      ∧ gamma_free_fields game_5_1_played 2 = count_legal_moves game_5_1_played 2 :=
  ⟨by decide, by decide,
    (free_fields_counts_moves game_5_1_played game_5_1_played_reachable 1 (by decide)
      (by decide)).1,
    (free_fields_counts_moves game_5_1_played game_5_1_played_reachable 2 (by decide)
      (by decide)).1⟩

/-! ## Is a golden move possible -/

/-- With fewer than `2^32 - 1` players the loop of `busy_fields_available`
returns, and it returns `true` exactly when it meets another player with a
field. -/
theorem busy_fields_available_loop_spec (busy_fields : Nat → Nat) (num player : Nat)
    (hnum : num < UINT32_MAX) :
    ∀ fuel i, i ≤ num + 1 → num + 2 ≤ fuel + i →
      ∃ b, busy_fields_available_loop busy_fields num player fuel i = some b
        ∧ (b = true ↔ ∃ j, i ≤ j ∧ j ≤ num ∧ busy_fields j ≠ 0 ∧ j ≠ player) := by
  intro fuel
  induction fuel with
  | zero => intro i hi hf; omega
  | succ fuel ih =>
    intro i hi hf
    unfold busy_fields_available_loop
    by_cases hle : i ≤ num
    · rw [if_pos hle]
      by_cases hc : busy_fields i ≠ 0 ∧ i ≠ player
      · rw [if_pos hc]
        exact ⟨true, rfl, fun _ => ⟨i, le_refl _, hle, hc⟩, fun _ => rfl⟩
      · rw [if_neg hc]
        have hnext : to_u32 ((i : Int) + 1) = i + 1 := by
          unfold to_u32; unfold UINT32_MAX at hnum; omega
        rw [hnext]
        obtain ⟨b, hb, hiff⟩ := ih (i + 1) (by omega) (by omega)
        refine ⟨b, hb, hiff.trans ⟨?_, ?_⟩⟩
        · rintro ⟨j, hj1, hj2, hj3⟩
          exact ⟨j, by omega, hj2, hj3⟩
        · rintro ⟨j, hj1, hj2, hj3⟩
          refine ⟨j, ?_, hj2, hj3⟩
          by_contra hlt
          have : j = i := by omega
          subst this
          exact hc hj3
    · rw [if_neg hle]
      refine ⟨false, rfl, fun h => Bool.noConfusion h, ?_⟩
      rintro ⟨j, hj1, hj2, _⟩
      omega

/-- A flag that is `true` belongs to an index below the size `players + 1`
that `gamma_new` gave to `init_boolean_array`. -/
theorem reachable_flags (g : gamma_t) (h : reachable g) (q : Nat)
    (hq : g.golden_move_available q = true) : q < to_u32 ((g.players : Int) + 1) := by
  induction h with
  | new width height players areas g hnew =>
    unfold gamma_new at hnew
    by_cases hc : width ≤ 0 ∨ height ≤ 0 ∨ players ≤ 0 ∨ areas ≤ 0
        ∨ width * height > BOARD_SIZE_HARD_LIMIT
    · rw [if_pos hc] at hnew; exact Option.noConfusion hnew
    · rw [if_neg hc] at hnew
      have hg := Option.some.inj hnew
      subst hg
      have hq' : init_boolean_array (to_u32 ((players : Int) + 1)) q = true := hq
      simpa [init_boolean_array] using hq'
  | move g player x y _ ih =>
    rw [(gamma_move_flags g player x y).1] at hq
    rw [(gamma_move_flags g player x y).2]
    exact ih hq
  | golden_move g player x y _ ih =>
    rw [(gamma_golden_move_flags g player x y).2.2]
    by_cases hc : q ≠ player ∨ (gamma_golden_move g player x y).1 = false
    · rw [(gamma_golden_move_flags g player x y).1 q hc] at hq
      exact ih hq
    · simp only [not_or, ne_eq, not_not, Bool.not_eq_false] at hc
      have := (gamma_golden_move_flags g player x y).2.1 hc.2
      rw [hc.1, this] at hq
      exact Bool.noConfusion hq

/-- A player has a field exactly when the count of its fields is not 0. -/
theorem count_owned_ne_zero (g : gamma_t) (p : Nat) :
    count_owned g p ≠ 0 ↔ ∃ f, owns g p f := by
  unfold count_owned
  rw [Finset.card_ne_zero, Finset.filter_nonempty_iff]
  constructor
  · rintro ⟨c, hc, hb⟩
    simp only [Finset.mem_product, Finset.mem_range] at hc
    exact ⟨{ x := c.1, y := c.2 }, ⟨hc.1, hc.2⟩, hb⟩
  · rintro ⟨f, ⟨hx, hy⟩, hb⟩
    exact ⟨(f.x, f.y), by simp only [Finset.mem_product, Finset.mem_range]; exact ⟨hx, hy⟩, hb⟩

/-- The result of `gamma_golden_possible` in a state of a game: the flag of the
player, and a field of another player on the board. -/
theorem gamma_golden_possible_spec (g : gamma_t) (h : reachable g)
    (hu : g.players ≤ UINT32_MAX) (p : Nat) (hp1 : 1 ≤ p) (hp2 : p ≤ g.players) :
    ∃ b, gamma_golden_possible g p = some b
      ∧ (b = true ↔ g.golden_move_available p = true
          ∧ ∃ f, in_board g f ∧ g.board f.x f.y ≠ 0 ∧ g.board f.x f.y ≠ p) := by
  have hinv := reachable_inv g h
  unfold gamma_golden_possible
  rw [if_neg (by omega)]
  by_cases hflag : g.golden_move_available p = true
  · rw [if_pos hflag]
    have hlt := reachable_flags g h p hflag
    have hnum : g.players < UINT32_MAX := by
      unfold to_u32 at hlt
      unfold UINT32_MAX at hu ⊢
      omega
    obtain ⟨b, hb, hiff⟩ := busy_fields_available_loop_spec g.busy_fields g.players p hnum
      (UINT32_MAX + 1) 1 (by omega) (by omega)
    have hb' : busy_fields_available g.busy_fields g.players p = some b := hb
    rw [hb']
    refine ⟨b, by cases b <;> rfl, hiff.trans ⟨?_, ?_⟩⟩
    · rintro ⟨j, hj1, hj2, hj3, hj4⟩
      rw [hinv.busy j hj1, count_owned_ne_zero] at hj3
      obtain ⟨f, hf⟩ := hj3
      refine ⟨hflag, f, hf.1, ?_, ?_⟩
      · rw [hf.2]; omega
      · rw [hf.2]; exact hj4
    · rintro ⟨_, f, hf, hf0, hfp⟩
      refine ⟨g.board f.x f.y, by omega, hinv.owners f hf, ?_, hfp⟩
      rw [hinv.busy _ (by omega), count_owned_ne_zero]
      exact ⟨f, hf, rfl⟩
  · rw [if_neg hflag]
    exact ⟨false, rfl, fun h => Bool.noConfusion h, fun h => absurd h.1 hflag⟩

/-- On the board of 16 fields with one field of each player, player 1 can make
a golden move. -/
theorem gamma_golden_possible_spec_example :
    gamma_golden_possible game_4_4_played 1 = some true
      ∧ ∃ b, gamma_golden_possible game_4_4_played 1 = some b
        ∧ (b = true ↔ game_4_4_played.golden_move_available 1 = true
          ∧ ∃ f, in_board game_4_4_played f ∧ game_4_4_played.board f.x f.y ≠ 0
            ∧ game_4_4_played.board f.x f.y ≠ 1) :=
  ⟨by decide,
    gamma_golden_possible_spec game_4_4_played game_4_4_played_reachable (by decide) 1
      (by decide)
      (by decide)⟩

/-- More iterations do not change what the loop of `busy_fields_available`
returns. -/
theorem busy_fields_available_loop_mono (busy_fields : Nat → Nat) (num player : Nat) :
    ∀ fuel i b, busy_fields_available_loop busy_fields num player fuel i = some b →
      busy_fields_available_loop busy_fields num player (fuel + 1) i = some b := by
  intro fuel
  induction fuel with
  | zero => intro i b h; exact Option.noConfusion h
  | succ fuel ih =>
    intro i b h
    unfold busy_fields_available_loop at h ⊢
    by_cases hle : i ≤ num
    · rw [if_pos hle] at h ⊢
      by_cases hc : busy_fields i ≠ 0 ∧ i ≠ player
      · rw [if_pos hc] at h ⊢; exact h
      · rw [if_neg hc] at h ⊢; exact ih _ b h
    · rw [if_neg hle] at h ⊢; exact h

/-- While the loop of `busy_fields_available` does not return, its counter
passes over fields that do not end it. -/
theorem busy_fields_available_loop_steps (busy_fields : Nat → Nat) (num player : Nat) :
    ∀ k i r, i ≤ UINT32_MAX → i + k ≤ UINT32_MAX + 1 →
      busy_fields_available_loop busy_fields num player (k + r) i = none →
      (∀ j, i ≤ j → j < i + k → j ≤ num ∧ ¬ (busy_fields j ≠ 0 ∧ j ≠ player))
        ∧ busy_fields_available_loop busy_fields num player r (to_u32 ((i : Int) + k))
          = none := by
  intro k
  induction k with
  | zero =>
    intro i r hi _ h
    refine ⟨fun j h1 h2 => by omega, ?_⟩
    have : to_u32 ((i : Int) + (0 : Nat)) = i := by
      unfold to_u32; unfold UINT32_MAX at hi; omega
    rw [this]
    simpa using h
  | succ k ih =>
    intro i r hi hik h
    have hfuel : k + 1 + r = (k + r) + 1 := by omega
    rw [hfuel] at h
    unfold busy_fields_available_loop at h
    by_cases hle : i ≤ num
    · rw [if_pos hle] at h
      by_cases hc : busy_fields i ≠ 0 ∧ i ≠ player
      · rw [if_pos hc] at h; exact Option.noConfusion h
      · rw [if_neg hc] at h
        by_cases hlast : i = UINT32_MAX
        · have hk : k = 0 := by omega
          subst hk
          refine ⟨fun j h1 h2 => ?_, ?_⟩
          · have : j = i := by omega
            subst this
            exact ⟨hle, hc⟩
          · simpa using h
        · have hnext : to_u32 ((i : Int) + 1) = i + 1 := by
            unfold to_u32; unfold UINT32_MAX at hi hlast; omega
          rw [hnext] at h
          obtain ⟨h1, h2⟩ := ih (i + 1) r (by omega) (by omega) h
          refine ⟨fun j hj1 hj2 => ?_, ?_⟩
          · by_cases hji : j = i
            · subst hji; exact ⟨hle, hc⟩
            · exact h1 j (by omega) (by omega)
          · have : ((i : Int) + ((k + 1 : Nat) : Int)) = (((i + 1 : Nat) : Int) + (k : Int)) := by
              push_cast; ring
            rw [this]
            exact h2
    · rw [if_neg hle] at h; exact Option.noConfusion h

/-- A loop of `busy_fields_available` that has not returned after `2^32`
iterations has seen every value of its counter and never returns. -/
theorem busy_fields_available_loop_none (busy_fields : Nat → Nat) (num player : Nat)
    (h : busy_fields_available busy_fields num player = none) :
    ∀ fuel i, i ≤ UINT32_MAX →
      busy_fields_available_loop busy_fields num player fuel i = none := by
  have hsteps := busy_fields_available_loop_steps busy_fields num player UINT32_MAX 1 1
    (by decide) (by decide) h
  have hzero : to_u32 (((1 : Nat) : Int) + (UINT32_MAX : Nat)) = 0 := by decide
  rw [hzero] at hsteps
  have hall : ∀ j, j ≤ UINT32_MAX → j ≤ num ∧ ¬ (busy_fields j ≠ 0 ∧ j ≠ player) := by
    intro j hj
    by_cases hj0 : j = 0
    · subst hj0
      have h0 := hsteps.2
      unfold busy_fields_available_loop at h0
      by_cases hle : 0 ≤ num
      · rw [if_pos hle] at h0
        by_cases hc : busy_fields 0 ≠ 0 ∧ 0 ≠ player
        · rw [if_pos hc] at h0; exact Option.noConfusion h0
        · exact ⟨hle, hc⟩
      · rw [if_neg hle] at h0; exact Option.noConfusion h0
    · exact hsteps.1 j (by omega) (by omega)
  intro fuel
  induction fuel with
  | zero => intro i _; rfl
  | succ fuel ih =>
    intro i hi
    unfold busy_fields_available_loop
    rw [if_pos (hall i hi).1, if_neg (hall i hi).2]
    apply ih
    unfold to_u32 UINT32_MAX
    omega

/-! ## The checked engine computes what the engine computes -/

theorem board_at_some {g : gamma_t} {x y v : Nat} (h : board_at g x y = some v) :
    v = g.board x y := by
  unfold board_at at h
  split_ifs at h
  exact (Option.some.inj h).symm

theorem owner_is_some {g : gamma_t} {x y p : Nat} {b : Bool} (h : owner_is g x y p = some b) :
    b = (g.board x y == p) := by
  unfold owner_is at h
  obtain ⟨v, hv, hb⟩ := Option.map_eq_some'.1 h
  rw [← hb, board_at_some hv]

theorem board_put_some {g g' : gamma_t} {x y v : Nat} (h : board_put g x y v = some g') :
    g' = set_board g x y v := by
  unfold board_put at h
  split_ifs at h
  exact (Option.some.inj h).symm

theorem visited_at_some {g : gamma_t} {visited : visited_t} {x y : Nat} {b : Bool}
    (h : visited_at g visited x y = some b) : b = visited x y := by
  unfold visited_at at h
  split_ifs at h
  exact (Option.some.inj h).symm

theorem visited_put_some {g : gamma_t} {visited visited' : visited_t} {x y : Nat}
    (h : visited_put g visited x y = some visited') : visited' = mark visited x y := by
  unfold visited_put at h
  split_ifs at h
  exact (Option.some.inj h).symm

theorem entry_at_some {α : Type} {g : gamma_t} {array : Nat → α} {i : Nat} {v : α}
    (h : entry_at g array i = some v) : v = array i := by
  unfold entry_at at h
  split_ifs at h
  exact (Option.some.inj h).symm

theorem entry_put_some {α : Type} {g : gamma_t} {array array' : Nat → α} {i : Nat} {v : α}
    (h : entry_put g array i v = some array') : array' = set_entry array i v := by
  unfold entry_put at h
  split_ifs at h
  exact (Option.some.inj h).symm

theorem player_fields_around_checked_some {g : gamma_t} {player x y : Nat} {b : Bool}
    (h : player_fields_around_checked g player x y = some b) :
    b = player_fields_around g player x y := by
  unfold player_fields_around_checked at h
  unfold player_fields_around
  obtain ⟨left, hleft, h⟩ := Option.bind_eq_some.1 h
  have e1 : left = (x != 0 && g.board (x - 1) y == player) := by
    by_cases hx : x ≠ 0
    · rw [if_pos hx] at hleft
      rw [owner_is_some hleft]
      simp [hx]
    · rw [if_neg hx] at hleft
      rw [← Option.some.inj hleft]
      simp only [ne_eq, not_not] at hx
      simp [hx]
  rw [← e1]
  cases left
  · simp only [Bool.false_eq_true, if_false] at h
    obtain ⟨right, hright, h⟩ := Option.bind_eq_some.1 h
    have e2 : right
        = (x != UINT32_MAX && decide (x + 1 < g.width) && g.board (x + 1) y == player) := by
      by_cases hx : x ≠ UINT32_MAX ∧ x + 1 < g.width
      · rw [if_pos hx] at hright
        rw [owner_is_some hright]
        simp [hx.1, hx.2]
      · rw [if_neg hx] at hright
        rw [← Option.some.inj hright]
        by_cases hx1 : x = UINT32_MAX
        · simp [hx1]
        · have : ¬ x + 1 < g.width := fun hc => hx ⟨hx1, hc⟩
          simp [this]
    rw [← e2]
    cases right
    · simp only [Bool.false_eq_true, if_false] at h
      obtain ⟨lower, hlower, h⟩ := Option.bind_eq_some.1 h
      have e3 : lower = (y != 0 && g.board x (y - 1) == player) := by
        by_cases hy : y ≠ 0
        · rw [if_pos hy] at hlower
          rw [owner_is_some hlower]
          simp [hy]
        · rw [if_neg hy] at hlower
          rw [← Option.some.inj hlower]
          simp only [ne_eq, not_not] at hy
          simp [hy]
      rw [← e3]
      cases lower
      · simp only [Bool.false_eq_true, if_false] at h
        have e4 : b
            = (y != UINT32_MAX && decide (y + 1 < g.height) && g.board x (y + 1) == player) := by
          by_cases hy : y ≠ UINT32_MAX ∧ y + 1 < g.height
          · rw [if_pos hy] at h
            rw [owner_is_some h]
            simp [hy.1, hy.2]
          · rw [if_neg hy] at h
            rw [← Option.some.inj h]
            by_cases hy1 : y = UINT32_MAX
            · simp [hy1]
            · have : ¬ y + 1 < g.height := fun hc => hy ⟨hy1, hc⟩
              simp [this]
        rw [← e4]
        simp
      · simp only [if_true] at h
        rw [← Option.some.inj h]
        simp
    · simp only [if_true] at h
      rw [← Option.some.inj h]
      simp
  · simp only [if_true] at h
    rw [← Option.some.inj h]
    simp

theorem count_free_fields_column_checked_some (g : gamma_t) (player x : Nat) :
    ∀ n c, count_free_fields_column_checked g player x n = some c →
      c = count_free_fields_column g player x n := by
  intro n
  induction n with
  | zero => intro c h; exact (Option.some.inj h).symm
  | succ n ih =>
    intro c h
    unfold count_free_fields_column_checked at h
    unfold count_free_fields_column
    obtain ⟨counter, hcounter, h⟩ := Option.bind_eq_some.1 h
    obtain ⟨around, haround, h⟩ := Option.bind_eq_some.1 h
    rw [← ih counter hcounter, ← player_fields_around_checked_some haround]
    cases around
    · simp only [Bool.false_eq_true, if_false] at h
      rw [← Option.some.inj h]
      simp
    · simp only [if_true] at h
      obtain ⟨free, hfree, h⟩ := Option.bind_eq_some.1 h
      rw [← Option.some.inj h, owner_is_some hfree]
      simp

theorem count_free_fields_upto_checked_some (g : gamma_t) (player : Nat) :
    ∀ n c, count_free_fields_upto_checked g player n = some c →
      c = count_free_fields_upto g player n := by
  intro n
  induction n with
  | zero => intro c h; exact (Option.some.inj h).symm
  | succ n ih =>
    intro c h
    unfold count_free_fields_upto_checked at h
    unfold count_free_fields_upto
    obtain ⟨counter, hcounter, h⟩ := Option.bind_eq_some.1 h
    obtain ⟨column, hcolumn, h⟩ := Option.bind_eq_some.1 h
    rw [← ih counter hcounter, ← count_free_fields_column_checked_some g player n _ _ hcolumn,
      ← Option.some.inj h]

theorem count_free_fields_checked_some {g : gamma_t} {player c : Nat}
    (h : count_free_fields_checked g player = some c) : c = count_free_fields g player := by
  unfold count_free_fields_checked at h
  unfold count_free_fields
  obtain ⟨counter, hcounter, h⟩ := Option.map_eq_some'.1 h
  rw [← h, count_free_fields_upto_checked_some g player _ _ hcounter]

theorem add_to_queue_checked_some {g : gamma_t} {visited : visited_t} {queue : queue_t}
    {field : field_t} {player : Nat} {coordinate : coordinate_t} {factor : Int}
    {r : visited_t × queue_t}
    (h : add_to_queue_checked g visited queue field player coordinate factor = some r) :
    r = add_to_queue g visited queue field player coordinate factor := by
  unfold add_to_queue_checked at h
  unfold add_to_queue
  simp only at h ⊢
  obtain ⟨seen, hseen, h⟩ := Option.bind_eq_some.1 h
  rw [visited_at_some hseen] at h
  by_cases hv : (visited (shift field coordinate factor).x (shift field coordinate factor).y
      == false) = true
  · rw [if_pos hv] at h
    obtain ⟨owned, howned, h⟩ := Option.bind_eq_some.1 h
    rw [owner_is_some howned] at h
    by_cases hb : (g.board (shift field coordinate factor).x (shift field coordinate factor).y
        == player) = true
    · rw [if_pos hb] at h
      obtain ⟨visited', hvisited', h⟩ := Option.bind_eq_some.1 h
      rw [if_pos (by rw [Bool.and_eq_true]; exact ⟨hv, hb⟩), ← Option.some.inj h,
        visited_put_some hvisited']
    · rw [if_neg hb] at h
      rw [if_neg (by rw [Bool.and_eq_true]; exact fun hc => hb hc.2), ← Option.some.inj h]
  · rw [if_neg hv] at h
    rw [if_neg (by rw [Bool.and_eq_true]; exact fun hc => hv hc.1), ← Option.some.inj h]

/-- One guarded step of the checked functions gives what the step of the
functions gives. -/
theorem guarded_some {α : Type} {guard : Prop} [Decidable guard] {checked : Option α}
    {value start r : α} (h : (if guard then checked else some start) = some r)
    (hc : ∀ r, checked = some r → r = value) :
    r = if guard then value else start := by
  by_cases hg : guard
  · rw [if_pos hg] at h ⊢; exact hc r h
  · rw [if_neg hg] at h ⊢; exact (Option.some.inj h).symm

theorem add_to_queue_fields_around_checked_some {g : gamma_t} {visited : visited_t}
    {queue : queue_t} {field : field_t} {player : Nat} {r : visited_t × queue_t}
    (h : add_to_queue_fields_around_checked g visited queue field player = some r) :
    r = add_to_queue_fields_around g visited queue field player := by
  unfold add_to_queue_fields_around_checked at h
  unfold add_to_queue_fields_around
  obtain ⟨s1, hs1, h⟩ := Option.bind_eq_some.1 h
  obtain ⟨s2, hs2, h⟩ := Option.bind_eq_some.1 h
  obtain ⟨s3, hs3, h⟩ := Option.bind_eq_some.1 h
  have e1 := guarded_some hs1 (fun r hr => add_to_queue_checked_some hr)
  have e2 := guarded_some hs2 (fun r hr => add_to_queue_checked_some hr)
  have e3 := guarded_some hs3 (fun r hr => add_to_queue_checked_some hr)
  have e4 := guarded_some h (fun r hr => add_to_queue_checked_some hr)
  rw [e4, e3, e2, e1]

theorem make_BFS_loop_checked_some (g : gamma_t) (player : Nat) :
    ∀ fuel visited queue field r,
      make_BFS_loop_checked g player fuel visited queue field = some r →
      r = make_BFS_loop g player fuel visited queue field := by
  intro fuel
  induction fuel with
  | zero => intro visited queue field r h; exact Option.noConfusion h
  | succ fuel ih =>
    intro visited queue field r h
    unfold make_BFS_loop_checked at h
    unfold make_BFS_loop
    simp only at h ⊢
    obtain ⟨s, hs, h⟩ := Option.bind_eq_some.1 h
    rw [← add_to_queue_fields_around_checked_some hs]
    by_cases he : empty_queue s.2 = true
    · rw [if_pos he] at h ⊢; exact (Option.some.inj h).symm
    · rw [if_neg he] at h ⊢; exact ih _ _ _ _ h

theorem make_BFS_checked_some {g : gamma_t} {player : Nat} {visited : visited_t}
    {field : field_t} {r : visited_t} (h : make_BFS_checked g player visited field = some r) :
    r = make_BFS g player visited field := by
  unfold make_BFS_checked at h
  unfold make_BFS
  simp only at h ⊢
  obtain ⟨visited', hvisited', h⟩ := Option.bind_eq_some.1 h
  rw [← visited_put_some hvisited']
  exact make_BFS_loop_checked_some g player _ _ _ _ _ h

theorem is_another_area_checked_some {g : gamma_t} {visited : visited_t} {field : field_t}
    {player : Nat} {coordinate : coordinate_t} {factor : Int} {r : visited_t × Bool}
    (h : is_another_area_checked g visited field player coordinate factor = some r) :
    r = is_another_area g visited field player coordinate factor := by
  unfold is_another_area_checked at h
  unfold is_another_area
  simp only at h ⊢
  obtain ⟨seen, hseen, h⟩ := Option.bind_eq_some.1 h
  rw [visited_at_some hseen] at h
  by_cases hv : (visited (shift field coordinate factor).x (shift field coordinate factor).y
      == false) = true
  · rw [if_pos hv] at h
    obtain ⟨owned, howned, h⟩ := Option.bind_eq_some.1 h
    rw [owner_is_some howned] at h
    by_cases hb : (g.board (shift field coordinate factor).x (shift field coordinate factor).y
        == player) = true
    · rw [if_pos hb] at h
      obtain ⟨visited', hvisited', h⟩ := Option.bind_eq_some.1 h
      rw [if_pos (by rw [Bool.and_eq_true]; exact ⟨hv, hb⟩), ← Option.some.inj h,
        make_BFS_checked_some hvisited']
    · rw [if_neg hb] at h
      rw [if_neg (by rw [Bool.and_eq_true]; exact fun hc => hb hc.2), ← Option.some.inj h]
  · rw [if_neg hv] at h
    rw [if_neg (by rw [Bool.and_eq_true]; exact fun hc => hv hc.1), ← Option.some.inj h]

theorem is_another_area_step_some {g : gamma_t} {visited : visited_t} {counter : Nat}
    {field : field_t} {player : Nat} {coordinate : coordinate_t} {factor : Int}
    (r : visited_t × Nat)
    (h : (is_another_area_checked g visited field player coordinate factor).map
      (fun r => (r.1, counter + r.2.toNat)) = some r) :
    r = ((is_another_area g visited field player coordinate factor).1,
      counter + (is_another_area g visited field player coordinate factor).2.toNat) := by
  obtain ⟨q, hq, h⟩ := Option.map_eq_some'.1 h
  rw [← h, is_another_area_checked_some hq]

theorem number_of_connected_areas_checked_some {g : gamma_t} {player x y n : Nat}
    (h : number_of_connected_areas_checked g player x y = some n) :
    n = number_of_connected_areas g player x y := by
  unfold number_of_connected_areas_checked at h
  unfold number_of_connected_areas connected_areas_scan
  simp only at h ⊢
  obtain ⟨s1, hs1, h⟩ := Option.bind_eq_some.1 h
  obtain ⟨s2, hs2, h⟩ := Option.bind_eq_some.1 h
  obtain ⟨s3, hs3, h⟩ := Option.bind_eq_some.1 h
  obtain ⟨s4, hs4, h⟩ := Option.map_eq_some'.1 h
  have e1 := guarded_some hs1 (fun r hr => is_another_area_step_some r hr)
  have e2 := guarded_some hs2 (fun r hr => is_another_area_step_some r hr)
  have e3 := guarded_some hs3 (fun r hr => is_another_area_step_some r hr)
  have e4 := guarded_some hs4 (fun r hr => is_another_area_step_some r hr)
  rw [← h, e4, e3, e2, e1]

theorem number_of_split_areas_checked_some {g : gamma_t} {owner x y : Nat} {r : gamma_t × Nat}
    (h : number_of_split_areas_checked g owner x y = some r) :
    r = number_of_split_areas g owner x y := by
  unfold number_of_split_areas_checked at h
  unfold number_of_split_areas
  obtain ⟨g1, hg1, h1⟩ := Option.bind_eq_some.1 h
  obtain ⟨number, hnumber, h2⟩ := Option.bind_eq_some.1 h1
  obtain ⟨g2, hg2, h3⟩ := Option.bind_eq_some.1 h2
  have e1 := board_put_some hg1
  subst e1
  rw [← Option.some.inj h3, board_put_some hg2, number_of_connected_areas_checked_some hnumber]

theorem areas_after_placing_checked_some {g : gamma_t} {player x y v : Nat}
    (h : areas_after_placing_checked g player x y = some v) :
    v = areas_after_placing g player x y := by
  unfold areas_after_placing_checked at h
  unfold areas_after_placing
  obtain ⟨around, haround, h1⟩ := Option.bind_eq_some.1 h
  rw [← player_fields_around_checked_some haround]
  cases around
  · simp only [Bool.not_false, if_true] at h1 ⊢
    obtain ⟨areas, hareas, h2⟩ := Option.bind_eq_some.1 h1
    rw [← Option.some.inj h2, entry_at_some hareas]
  · simp only [Bool.not_true, Bool.false_eq_true, if_false] at h1 ⊢
    obtain ⟨number, hnumber, h2⟩ := Option.bind_eq_some.1 h1
    obtain ⟨areas, hareas, h3⟩ := Option.bind_eq_some.1 h2
    rw [← Option.some.inj h3, entry_at_some hareas,
      number_of_connected_areas_checked_some hnumber]

theorem areas_full_checked_some {g : gamma_t} {player x y : Nat} {b : Bool}
    (h : areas_full_checked g player x y = some b) :
    b = (!player_fields_around g player x y && g.areas player == g.max_areas) := by
  unfold areas_full_checked at h
  obtain ⟨around, haround, h1⟩ := Option.bind_eq_some.1 h
  rw [← player_fields_around_checked_some haround]
  cases around
  · simp only [Bool.not_false, if_true] at h1
    obtain ⟨areas, hareas, h2⟩ := Option.map_eq_some'.1 h1
    rw [← h2, entry_at_some hareas]
    simp
  · simp only [Bool.not_true, Bool.false_eq_true, if_false] at h1
    rw [← Option.some.inj h1]
    simp

theorem move_apply_checked_some {g g' : gamma_t} {player x y : Nat}
    (h : move_apply_checked g player x y = some g') :
    g' = set_board { g with
      areas := set_entry g.areas player (areas_after_placing g player x y)
      busy_fields := set_entry g.busy_fields player (to_u64 ((g.busy_fields player : Int) + 1))
      all_free_fields := to_u64 ((g.all_free_fields : Int) - 1) } x y player := by
  unfold move_apply_checked at h
  obtain ⟨value, hvalue, h1⟩ := Option.bind_eq_some.1 h
  obtain ⟨areas, hareas, h2⟩ := Option.bind_eq_some.1 h1
  obtain ⟨busy, hbusy, h3⟩ := Option.bind_eq_some.1 h2
  obtain ⟨busy_fields, hbusy_fields, h4⟩ := Option.bind_eq_some.1 h3
  rw [board_put_some h4, entry_put_some hareas, entry_put_some hbusy_fields,
    entry_at_some hbusy, areas_after_placing_checked_some hvalue]

/-- When the checked `gamma_move` returns, it returns what `gamma_move` returns. -/
theorem gamma_move_checked_some {g : gamma_t} {player x y : Nat} {r : Bool × gamma_t}
    (h : gamma_move_checked g player x y = some r) : r = gamma_move g player x y := by
  unfold gamma_move_checked at h
  unfold gamma_move
  by_cases hg : player > g.players ∨ player ≤ 0 ∨ x ≥ g.width ∨ y ≥ g.height
  · rw [if_pos hg] at h ⊢; exact (Option.some.inj h).symm
  · rw [if_neg hg] at h ⊢
    obtain ⟨owner, howner, h1⟩ := Option.bind_eq_some.1 h
    rw [board_at_some howner] at h1
    by_cases hb : g.board x y ≠ 0
    · rw [if_pos hb] at h1
      rw [if_pos (Or.inl hb)]
      exact (Option.some.inj h1).symm
    · rw [if_neg hb] at h1
      obtain ⟨full, hfull, h2⟩ := Option.bind_eq_some.1 h1
      rw [areas_full_checked_some hfull] at h2
      by_cases hf : (!player_fields_around g player x y && g.areas player == g.max_areas) = true
      · rw [if_pos hf] at h2
        rw [if_pos (Or.inr hf)]
        exact (Option.some.inj h2).symm
      · rw [if_neg hf] at h2
        rw [if_neg (fun hc => hc.elim hb hf)]
        obtain ⟨g1, hg1, h3⟩ := Option.map_eq_some'.1 h2
        rw [← h3, move_apply_checked_some hg1]

theorem golden_move_rejected_checked_some {g : gamma_t} {player x y current_owner number : Nat}
    {b : Bool} (h : golden_move_rejected_checked g player x y current_owner number = some b) :
    (b = true ↔ (g.golden_move_available player = false
      ∨ g.board x y = 0
      ∨ g.board x y = player
      ∨ (!player_fields_around g player x y && g.areas player == g.max_areas) = true
      ∨ to_u32 ((g.areas current_owner : Int) + number - 1) > g.max_areas)) := by
  unfold golden_move_rejected_checked at h
  obtain ⟨available, havailable, h1⟩ := Option.bind_eq_some.1 h
  have ea := entry_at_some havailable
  cases available
  · simp only [Bool.not_false, if_true] at h1
    rw [← Option.some.inj h1]
    simp [← ea]
  · simp only [Bool.not_true, Bool.false_eq_true, if_false] at h1
    obtain ⟨free, hfree, h2⟩ := Option.bind_eq_some.1 h1
    have ef := owner_is_some hfree
    cases free
    · simp only [Bool.false_eq_true, if_false] at h2
      obtain ⟨own, hown, h3⟩ := Option.bind_eq_some.1 h2
      have eo := owner_is_some hown
      cases own
      · simp only [Bool.false_eq_true, if_false] at h3
        obtain ⟨full, hfull, h4⟩ := Option.bind_eq_some.1 h3
        have efull := areas_full_checked_some hfull
        cases full
        · simp only [Bool.false_eq_true, if_false] at h4
          obtain ⟨areas_owner, hao, h5⟩ := Option.map_eq_some'.1 h4
          rw [← h5, entry_at_some hao]
          have hf0 : ¬ g.board x y = 0 := by
            intro hc; rw [hc] at ef; simp at ef
          have hfp : ¬ g.board x y = player := by
            intro hc; rw [hc] at eo; simp at eo
          simp [← ea, hf0, hfp, ← efull]
        · simp only [if_true] at h4
          rw [← Option.some.inj h4]
          simp [← efull]
      · simp only [if_true] at h3
        rw [← Option.some.inj h3]
        have : g.board x y = player := by
          have := eo.symm; simpa using this
        simp [this]
    · simp only [if_true] at h2
      rw [← Option.some.inj h2]
      have : g.board x y = 0 := by
        have := ef.symm; simpa using this
      simp [this]

theorem golden_move_areas_checked_some {g g' : gamma_t} {player x y current_owner number : Nat}
    (h : golden_move_areas_checked g player x y current_owner number = some g') :
    g' = { g with
      areas := set_entry (set_entry g.areas player (areas_after_placing g player x y))
        current_owner
        (to_u32 (((set_entry g.areas player (areas_after_placing g player x y)
            current_owner : Nat) : Int) + ((number : Int) - 1))) } := by
  unfold golden_move_areas_checked at h
  obtain ⟨value, hvalue, h1⟩ := Option.bind_eq_some.1 h
  obtain ⟨areas, hareas, h2⟩ := Option.bind_eq_some.1 h1
  obtain ⟨areas_owner, hao, h3⟩ := Option.bind_eq_some.1 h2
  obtain ⟨areas', hareas', h4⟩ := Option.map_eq_some'.1 h3
  rw [← h4, entry_put_some hareas', entry_at_some hao, entry_put_some hareas,
    areas_after_placing_checked_some hvalue]

theorem golden_move_busy_checked_some {g g' : gamma_t} {player current_owner : Nat}
    (h : golden_move_busy_checked g player current_owner = some g') :
    g' = { g with
      busy_fields := set_entry
        (set_entry g.busy_fields current_owner
          (to_u64 ((g.busy_fields current_owner : Int) - 1)))
        player
        (to_u64 (((set_entry g.busy_fields current_owner
          (to_u64 ((g.busy_fields current_owner : Int) - 1)) player : Nat) : Int) + 1)) } := by
  unfold golden_move_busy_checked at h
  obtain ⟨busy, hbusy, h1⟩ := Option.bind_eq_some.1 h
  obtain ⟨busy_fields, hbf, h2⟩ := Option.bind_eq_some.1 h1
  obtain ⟨busy', hbusy', h3⟩ := Option.bind_eq_some.1 h2
  obtain ⟨busy_fields', hbf', h4⟩ := Option.map_eq_some'.1 h3
  rw [← h4, entry_put_some hbf', entry_at_some hbusy', entry_put_some hbf,
    entry_at_some hbusy]

theorem golden_move_board_checked_some {g g' : gamma_t} {player x y : Nat}
    (h : golden_move_board_checked g player x y = some g') :
    g' = set_board { g with
      golden_move_available := set_entry g.golden_move_available player false } x y player := by
  unfold golden_move_board_checked at h
  obtain ⟨available, hav, h1⟩ := Option.bind_eq_some.1 h
  rw [board_put_some h1, entry_put_some hav]

/-- When the checked `gamma_golden_move` returns, it returns what
`gamma_golden_move` returns. -/
theorem gamma_golden_move_checked_some {g : gamma_t} {player x y : Nat} {r : Bool × gamma_t}
    (h : gamma_golden_move_checked g player x y = some r) :
    r = gamma_golden_move g player x y := by
  unfold gamma_golden_move_checked at h
  unfold gamma_golden_move
  by_cases hg : player > g.players ∨ player ≤ 0 ∨ x ≥ g.width ∨ y ≥ g.height
  · rw [if_pos hg] at h ⊢; exact (Option.some.inj h).symm
  · rw [if_neg hg] at h ⊢
    obtain ⟨current_owner, howner, h1⟩ := Option.bind_eq_some.1 h
    have eo := board_at_some howner
    subst eo
    obtain ⟨split, hsplit, h2⟩ := Option.bind_eq_some.1 h1
    have es := number_of_split_areas_checked_some hsplit
    subst es
    obtain ⟨rejected, hrej, h3⟩ := Option.bind_eq_some.1 h2
    have er := golden_move_rejected_checked_some hrej
    simp only
    cases rejected
    · simp only [Bool.false_eq_true, if_false] at h3
      rw [if_neg (fun hc => Bool.false_ne_true (er.2 hc))]
      obtain ⟨g1, hg1, h4⟩ := Option.bind_eq_some.1 h3
      obtain ⟨g2, hg2, h5⟩ := Option.bind_eq_some.1 h4
      obtain ⟨g3, hg3, h6⟩ := Option.map_eq_some'.1 h5
      rw [← h6, golden_move_board_checked_some hg3, golden_move_busy_checked_some hg2,
        golden_move_areas_checked_some hg1]
    · simp only [if_true] at h3
      rw [if_pos (er.1 rfl)]
      exact (Option.some.inj h3).symm

theorem gamma_busy_fields_checked_some {g : gamma_t} {player v : Nat}
    (h : gamma_busy_fields_checked g player = some v) : v = gamma_busy_fields g player := by
  unfold gamma_busy_fields_checked at h
  unfold gamma_busy_fields
  by_cases hg : player > g.players ∨ player ≤ 0
  · rw [if_pos hg] at h ⊢; exact (Option.some.inj h).symm
  · rw [if_neg hg] at h ⊢; exact entry_at_some h

theorem gamma_free_fields_checked_some {g : gamma_t} {player v : Nat}
    (h : gamma_free_fields_checked g player = some v) : v = gamma_free_fields g player := by
  unfold gamma_free_fields_checked at h
  unfold gamma_free_fields
  by_cases hg : player > g.players ∨ player ≤ 0
  · rw [if_pos hg] at h ⊢; exact (Option.some.inj h).symm
  · rw [if_neg hg] at h ⊢
    obtain ⟨areas, hareas, h1⟩ := Option.bind_eq_some.1 h
    rw [entry_at_some hareas] at h1
    by_cases hlt : g.areas player < g.max_areas
    · rw [if_pos hlt] at h1 ⊢; exact (Option.some.inj h1).symm
    · rw [if_neg hlt] at h1 ⊢; exact count_free_fields_checked_some h1

theorem busy_fields_available_loop_checked_some (g : gamma_t) (busy_fields : Nat → Nat)
    (num player : Nat) :
    ∀ fuel i b, busy_fields_available_loop_checked g busy_fields num player fuel i = some b →
      busy_fields_available_loop busy_fields num player fuel i = some b := by
  intro fuel
  induction fuel with
  | zero => intro i b h; exact Option.noConfusion h
  | succ fuel ih =>
    intro i b h
    unfold busy_fields_available_loop_checked at h
    unfold busy_fields_available_loop
    by_cases hle : i ≤ num
    · rw [if_pos hle] at h ⊢
      obtain ⟨busy, hbusy, h1⟩ := Option.bind_eq_some.1 h
      rw [entry_at_some hbusy] at h1
      by_cases hc : busy_fields i ≠ 0 ∧ i ≠ player
      · rw [if_pos hc] at h1 ⊢; exact h1
      · rw [if_neg hc] at h1 ⊢; exact ih _ b h1
    · rw [if_neg hle] at h ⊢; exact h

theorem gamma_golden_possible_checked_some {g : gamma_t} {player : Nat} {b : Bool}
    (h : gamma_golden_possible_checked g player = some b) :
    gamma_golden_possible g player = some b := by
  unfold gamma_golden_possible_checked at h
  unfold gamma_golden_possible
  by_cases hg : player > g.players ∨ player ≤ 0
  · rw [if_pos hg] at h ⊢; exact h
  · rw [if_neg hg] at h ⊢
    obtain ⟨available, hav, h1⟩ := Option.bind_eq_some.1 h
    rw [entry_at_some hav] at h1
    by_cases hf : g.golden_move_available player = true
    · rw [if_pos hf] at h1 ⊢
      have := busy_fields_available_loop_checked_some g g.busy_fields g.players player _ _ _ h1
      unfold busy_fields_available
      rw [this]
      cases b <;> rfl
    · rw [if_neg hf] at h1 ⊢; exact h1

/-! ## Arguments out of range -/

/-- C19: for every state and every player number that is 0 or greater than
`players`, `gamma_move` and `gamma_golden_move` return `false`,
`gamma_busy_fields` and `gamma_free_fields` return 0 and `gamma_golden_possible`
returns `false`; for every `x ≥ width` or `y ≥ height`, `gamma_move` and
`gamma_golden_move` return `false`.  In all these cases the state is unchanged,
and the engine with its array accesses checked returns the same results: no
index out of range is read or written. -/
theorem out_of_range_rejected (g : gamma_t) :
    (∀ player x y, (player = 0 ∨ player > g.players) →
      gamma_move g player x y = (false, g)
        ∧ gamma_golden_move g player x y = (false, g)
        ∧ gamma_busy_fields g player = 0
        ∧ gamma_free_fields g player = 0
        ∧ gamma_golden_possible g player = some false
        ∧ gamma_move_checked g player x y = some (false, g)
        ∧ gamma_golden_move_checked g player x y = some (false, g)
        ∧ gamma_busy_fields_checked g player = some 0
        ∧ gamma_free_fields_checked g player = some 0
        ∧ gamma_golden_possible_checked g player = some false)
    ∧ (∀ player x y, (x ≥ g.width ∨ y ≥ g.height) →
      gamma_move g player x y = (false, g)
        ∧ gamma_golden_move g player x y = (false, g)
        ∧ gamma_move_checked g player x y = some (false, g)
        ∧ gamma_golden_move_checked g player x y = some (false, g)) := by
  constructor
  · intro player x y hp
    have h1 : player > g.players ∨ player ≤ 0 ∨ x ≥ g.width ∨ y ≥ g.height := by omega
    have h2 : player > g.players ∨ player ≤ 0 := by omega
    refine ⟨?_, ?_, ?_, ?_, ?_, ?_, ?_, ?_, ?_, ?_⟩
    · unfold gamma_move; rw [if_pos h1]
    · unfold gamma_golden_move; rw [if_pos h1]
    · unfold gamma_busy_fields; rw [if_pos h2]
    · unfold gamma_free_fields; rw [if_pos h2]
    · unfold gamma_golden_possible; rw [if_pos h2]
    · unfold gamma_move_checked; rw [if_pos h1]
    · unfold gamma_golden_move_checked; rw [if_pos h1]
    · unfold gamma_busy_fields_checked; rw [if_pos h2]
    · unfold gamma_free_fields_checked; rw [if_pos h2]
    · unfold gamma_golden_possible_checked; rw [if_pos h2]
  · intro player x y hxy
    have h1 : player > g.players ∨ player ≤ 0 ∨ x ≥ g.width ∨ y ≥ g.height := by omega
    refine ⟨?_, ?_, ?_, ?_⟩
    · unfold gamma_move; rw [if_pos h1]
    · unfold gamma_golden_move; rw [if_pos h1]
    · unfold gamma_move_checked; rw [if_pos h1]
    · unfold gamma_golden_move_checked; rw [if_pos h1]

/-- Player 3 of a game of two players, and the field `(4, 0)` of the board of
width 4. -/
theorem out_of_range_rejected_witness :
    (3 = 0 ∨ 3 > game_4_4_played.players)
      ∧ gamma_move_checked game_4_4_played 3 1 1 = some (false, game_4_4_played)
      ∧ gamma_golden_move_checked game_4_4_played 3 1 1 = some (false, game_4_4_played)
      ∧ (4 ≥ game_4_4_played.width ∨ 0 ≥ game_4_4_played.height)
      ∧ gamma_move_checked game_4_4_played 1 4 0 = some (false, game_4_4_played)
      ∧ gamma_golden_move_checked game_4_4_played 1 4 0 = some (false, game_4_4_played) :=
  ⟨by decide,
    ((out_of_range_rejected game_4_4_played).1 3 1 1 (by decide)).2.2.2.2.2.1,
    ((out_of_range_rejected game_4_4_played).1 3 1 1 (by decide)).2.2.2.2.2.2.1,
    by decide,
    ((out_of_range_rejected game_4_4_played).2 1 4 0 (by decide)).2.2.1,
    ((out_of_range_rejected game_4_4_played).2 1 4 0 (by decide)).2.2.2⟩

/-- The checked engine returns on the moves of the examples: no index is out
of range there. -/
theorem checked_engine_examples :
    (gamma_move_checked game_4_4 1 1 1).map (fun r => (r.1, r.2.board 1 1)) = some (true, 1)
      ∧ (gamma_golden_move_checked game_4_4_played 2 1 1).map
          (fun r => (r.1, r.2.board 1 1, r.2.areas 1)) = some (true, 2, 0)
      ∧ (gamma_golden_move_checked game_3_1_two_played 2 1 0).map
          (fun r => (r.1, r.2.areas 1)) = some (true, 2)
      ∧ gamma_busy_fields_checked game_5_1_played 1 = some 2
      ∧ gamma_free_fields_checked game_5_1_played 1 = some 2
      ∧ gamma_golden_possible_checked game_4_4_played 1 = some true := by
  decide

/-! ## The state after `gamma_new` -/

/-- The state made by a successful `gamma_new`, member by member. -/
theorem gamma_new_state (width height players areas : Nat) (g : gamma_t)
    (h : gamma_new width height players areas = some g) :
    g = { board := fun _ _ => 0
          busy_fields := fun _ => 0
          free_fields := fun _ => 0
          areas := fun _ => 0
          golden_move_available := init_boolean_array (to_u32 ((players : Int) + 1))
          all_free_fields := width * height
          players := players
          max_areas := areas
          width := width
          height := height } := by
  unfold gamma_new at h
  by_cases hc : width ≤ 0 ∨ height ≤ 0 ∨ players ≤ 0 ∨ areas ≤ 0
      ∨ width * height > BOARD_SIZE_HARD_LIMIT
  · rw [if_pos hc] at h; exact Option.noConfusion h
  · rw [if_neg hc] at h
    exact (Option.some.inj h).symm

/-- C21: the state made by a successful `gamma_new`: every field of the board
has owner 0, `busy_fields[p]` and `areas[p]` are 0 for every `p`,
`all_free_fields` is `width * height`, and `gamma_players`, `gamma_width`,
`gamma_height` return the arguments.  The flag
`golden_move_available[p]` of every player `p` in `[1, players]` is `true` (the
golden move is not used) when `players < 2^32 - 1`; when `players = 2^32 - 1`
the flag of every player is `false`, as after a golden move. -/
theorem new_game_state (width height players areas : Nat) (g : gamma_t)
    (h : gamma_new width height players areas = some g) :
    (∀ x y, g.board x y = 0)
      ∧ (∀ p, g.busy_fields p = 0 ∧ g.areas p = 0)
      ∧ g.all_free_fields = width * height
      ∧ gamma_players g = players ∧ gamma_width g = width ∧ gamma_height g = height
      ∧ (players < UINT32_MAX →
          ∀ p, 1 ≤ p → p ≤ players → g.golden_move_available p = true)
      ∧ (players = UINT32_MAX → ∀ p, g.golden_move_available p = false) := by
  rw [gamma_new_state width height players areas g h]
  refine ⟨fun _ _ => rfl, fun _ => ⟨rfl, rfl⟩, rfl, rfl, rfl, rfl, ?_, ?_⟩
  · intro hlt p _ hple
    show init_boolean_array (to_u32 ((players : Int) + 1)) p = true
    simp only [init_boolean_array, decide_eq_true_eq]
    unfold to_u32
    unfold UINT32_MAX at hlt
    omega
  · intro heq p
    show init_boolean_array (to_u32 ((players : Int) + 1)) p = false
    simp only [init_boolean_array, decide_eq_false_iff_not]
    unfold to_u32
    unfold UINT32_MAX at heq
    omega

/-- The game made by `gamma_new(1, 1, 4294967295, 1)`: the counters are those
of an empty board, and the flag of every player is `false` before any move;
in the game made by `gamma_new(4, 4, 2, 2)` the flag of player 1 is `true`. -/
theorem new_game_state_witness :
    gamma_new 1 1 4294967295 1 = some game_max_players
      ∧ game_max_players.all_free_fields = 1 * 1
      ∧ gamma_players game_max_players = 4294967295
      ∧ 4294967295 = UINT32_MAX
      ∧ (∀ p, game_max_players.golden_move_available p = false)
      ∧ gamma_new 4 4 2 2 = some game_4_4
      ∧ 2 < UINT32_MAX
      ∧ game_4_4.golden_move_available 1 = true :=
  ⟨by rfl,
    (new_game_state 1 1 4294967295 1 game_max_players (by rfl)).2.2.1,
    (new_game_state 1 1 4294967295 1 game_max_players (by rfl)).2.2.2.1,
    by rfl,
    (new_game_state 1 1 4294967295 1 game_max_players (by rfl)).2.2.2.2.2.2.2 (by rfl),
    by rfl, by decide,
    (new_game_state 4 4 2 2 game_4_4 (by rfl)).2.2.2.2.2.2.1 (by decide) 1 (by decide)
      (by decide)⟩

/-! ## The counters of fields and the owners on the board -/

/-- C22: in every state reached from a successful `gamma_new` by calls of
`gamma_move` and `gamma_golden_move`, for every player `p` in `[1, players]`,
`busy_fields[p]`, which is the value `gamma_busy_fields` returns, is the number
of fields of the board whose owner is `p`. -/
theorem busy_fields_counted (g : gamma_t) (h : reachable g) (p : Nat) (hp1 : 1 ≤ p)
    (hp2 : p ≤ g.players) :
    g.busy_fields p = count_owned g p ∧ gamma_busy_fields g p = count_owned g p := by
  have hb := (reachable_inv g h).busy p hp1
  refine ⟨hb, ?_⟩
  unfold gamma_busy_fields
  rw [if_neg (by omega)]
  exact hb

/-- After the two moves on the board of 16 fields player 2 has one field. -/
theorem busy_fields_counted_witness :
    count_owned game_4_4_played 2 = 1
      ∧ game_4_4_played.busy_fields 2 = count_owned game_4_4_played 2
      ∧ gamma_busy_fields game_4_4_played 2 = count_owned game_4_4_played 2 :=
  ⟨by decide,
    busy_fields_counted game_4_4_played game_4_4_played_reachable 2 (by decide) (by decide)⟩

/-- C23: in every state reached from a successful `gamma_new` by calls of
`gamma_move` and `gamma_golden_move`, `all_free_fields` is the number of fields
of the board whose owner is 0. -/
theorem all_free_fields_counted (g : gamma_t) (h : reachable g) :
    g.all_free_fields = count_owned g 0 :=
  (reachable_inv g h).free

/-- After player 1 took two fields of the board of width 5 three fields are free. -/
theorem all_free_fields_counted_witness :
    count_owned game_5_1_played 0 = 3
      ∧ game_5_1_played.all_free_fields = count_owned game_5_1_played 0 :=
  ⟨by decide, all_free_fields_counted game_5_1_played game_5_1_played_reachable⟩

/-- C24: in every state reached from a successful `gamma_new` by calls of
`gamma_move` and `gamma_golden_move`, the owner of every field `(x, y)` of the
board is 0 or a player number in `[1, players]`. -/
theorem owner_is_no_one_or_player (g : gamma_t) (h : reachable g) (x y : Nat)
    (hin : in_board g { x := x, y := y }) :
    g.board x y = 0 ∨ (1 ≤ g.board x y ∧ g.board x y ≤ g.players) := by
  have ho := (reachable_inv g h).owners { x := x, y := y } hin
  have ho' : g.board x y ≤ g.players := ho
  omega

/-- The field `(2, 1)` of the board of 16 fields after the two moves. -/
theorem owner_is_no_one_or_player_witness :
    in_board game_4_4_played { x := 2, y := 1 }
      ∧ game_4_4_played.board 2 1 = 2
      ∧ (game_4_4_played.board 2 1 = 0
        ∨ (1 ≤ game_4_4_played.board 2 1
          ∧ game_4_4_played.board 2 1 ≤ game_4_4_played.players)) :=
  ⟨by decide, by decide,
    owner_is_no_one_or_player game_4_4_played game_4_4_played_reachable 2 1 (by decide)⟩

/-! ## The search and the areas -/

/-- A neighbour of a field is one of its four `neighbours`. -/
theorem adjacent_mem_neighbours (f n : field_t) (h : adjacent f n) : n ∈ neighbours f := by
  cases f with
  | mk fx fy =>
    cases n with
    | mk nx ny =>
      simp only [adjacent] at h
      simp only [neighbours, List.mem_cons, field_t.mk.injEq, List.mem_singleton,
        List.not_mem_nil, or_false]
      omega

/-- At most four areas of a player contain a neighbour of a field. -/
theorem areas_around_le_four (g : gamma_t) (p x y k : Nat) (h : areas_around g p x y k) :
    k ≤ 4 := by
  obtain ⟨reps, hcard, hreps, _, _⟩ := h
  have hsub : reps ⊆ (neighbours { x := x, y := y }).toFinset := by
    intro r hr
    rw [List.mem_toFinset]
    exact adjacent_mem_neighbours _ r (hreps r hr).2
  have h1 := Finset.card_le_card hsub
  have h2 := List.toFinset_card_le (neighbours { x := x, y := y })
  have h3 : (neighbours { x := x, y := y }).length = 4 := rfl
  omega

/-- The marks after `make_BFS` on a board without marks: the area of the start field. -/
theorem make_BFS_init_board (g : gamma_t) (ht : typed g) (p : Nat) (s : field_t)
    (hin : in_board g s) (ho : g.board s.x s.y = p) (a b : Nat) :
    make_BFS g p init_board s a b = true ↔ same_area g p s { x := a, y := b } := by
  rw [make_BFS_spec g ht p init_board s hin a b]
  have hfr := fresh_reach_iff_same_area g p init_board s
    (fun f f' hf _ => Bool.noConfusion (show false = true from hf)) ⟨hin, ho⟩ rfl
    { x := a, y := b }
  rw [hfr]
  constructor
  · rintro (h | h)
    · exact Bool.noConfusion (show false = true from h)
    · exact h
  · exact Or.inr

/-- C28: for every board, every owner and every start field of the board owned
by `owner`, and every board of marks `visited`: after `make_BFS` a field is
marked exactly when it was marked before or can be arrived at from the start
field by steps to 4-neighbours on the board that are owned by `owner` and had
no mark in `visited`; a larger bound on the iterations of the loop gives the
same marks; and on a board without marks the marked fields are exactly the
fields of the area of `owner` that contains the start field. -/
theorem flood_marks_area (g : gamma_t) (ht : typed g) (owner : Nat) (start : field_t)
    (visited : visited_t) (hin : in_board g start)
    (ho : g.board start.x start.y = owner) :
    (∀ a b, make_BFS g owner visited start a b = true
        ↔ (visited a b = true ∨ fresh_reach g owner visited start { x := a, y := b }))
      ∧ (∀ fuel, g.width * g.height + 1 ≤ fuel →
          make_BFS_loop g owner fuel (mark visited start.x start.y)
            (enqueue init_queue start) start = make_BFS g owner visited start)
      ∧ (∀ a b, make_BFS g owner init_board start a b = true
          ↔ same_area g owner start { x := a, y := b }) :=
  ⟨fun a b => make_BFS_spec g ht owner visited start hin a b,
    fun fuel hfuel => make_BFS_loop_fuel g ht owner visited start hin fuel hfuel,
    fun a b => make_BFS_init_board g ht owner start hin ho a b⟩

/-- The search from the field `(0, 0)` of the board of width 3 owned by player 1
marks the field `(2, 0)`, which lies in the same area. -/
theorem flood_marks_area_witness :
    typed game_3_1_played
      ∧ in_board game_3_1_played { x := 0, y := 0 }
      ∧ make_BFS game_3_1_played 1 init_board { x := 0, y := 0 } 2 0 = true
      ∧ same_area game_3_1_played 1 { x := 0, y := 0 } { x := 2, y := 0 } :=
  ⟨by decide, by decide, by decide,
    ((flood_marks_area game_3_1_played (by decide) 1 { x := 0, y := 0 } init_board
      (by decide) (by decide)).2.2 2 0).1 (by decide)⟩

/-- C29: for every board, every owner and every field `(x, y)` of the board not
owned by `owner`, `number_of_connected_areas`, which starts from a board
without marks, returns a number between 0 and 4 that is the number of distinct
areas of `owner` (sets of fields of `owner` joined by paths of 4-neighbours)
containing a neighbour of `(x, y)` on the board: each such area is counted
once, however many neighbours lie in it, and no other number has this
property. -/
theorem connected_areas_counted (g : gamma_t) (ht : typed g) (owner x y : Nat)
    (hin : in_board g { x := x, y := y }) (_hno : g.board x y ≠ owner) :
    areas_around g owner x y (number_of_connected_areas g owner x y)
      ∧ 0 ≤ number_of_connected_areas g owner x y
      ∧ number_of_connected_areas g owner x y ≤ 4
      ∧ ∀ k, areas_around g owner x y k → k = number_of_connected_areas g owner x y := by
  have h := number_of_connected_areas_spec g ht owner x y hin
  exact ⟨h, Nat.zero_le _, areas_around_le_four g owner x y _ h,
    fun k hk => areas_around_unique g owner x y _ _ hk h⟩

/-- Around the free field `(1, 0)` of the board of width 5, between the two
fields of player 1, there are two areas of player 1. -/
theorem connected_areas_counted_witness :
    typed game_5_1_played
      ∧ in_board game_5_1_played { x := 1, y := 0 }
      ∧ game_5_1_played.board 1 0 ≠ 1
      ∧ number_of_connected_areas game_5_1_played 1 1 0 = 2
      ∧ areas_around game_5_1_played 1 1 0 (number_of_connected_areas game_5_1_played 1 1 0) :=
  ⟨by decide, by decide, by decide, by decide,
    (connected_areas_counted game_5_1_played (by decide) 1 1 0 (by decide) (by decide)).1⟩

/-! ## The search ends -/

/-- The record of the calls of `enqueue` changes neither the marks nor the queue. -/
theorem add_to_queue_log_sim (g : gamma_t) (st : visited_t × queue_t × List field_t)
    (st' : visited_t × queue_t) (cur : field_t) (p : Nat) (c : coordinate_t) (k : Int)
    (guard : Prop) [Decidable guard] (h : st.1 = st'.1 ∧ st.2.1 = st'.2) :
    (if guard then add_to_queue_log g st.1 st.2.1 st.2.2 cur p c k else st).1
        = (if guard then add_to_queue g st'.1 st'.2 cur p c k else st').1
      ∧ (if guard then add_to_queue_log g st.1 st.2.1 st.2.2 cur p c k else st).2.1
        = (if guard then add_to_queue g st'.1 st'.2 cur p c k else st').2 := by
  obtain ⟨h1, h2⟩ := h
  by_cases hguard : guard
  · simp only [if_pos hguard]
    unfold add_to_queue_log add_to_queue
    rw [h1, h2]
    by_cases hc : (st'.1 (shift cur c k).x (shift cur c k).y == false
        && g.board (shift cur c k).x (shift cur c k).y == p) = true
    · rw [if_pos hc, if_pos hc]; exact ⟨rfl, rfl⟩
    · rw [if_neg hc, if_neg hc]; exact ⟨rfl, rfl⟩
  · simp only [if_neg hguard]
    exact ⟨h1, h2⟩

theorem add_to_queue_fields_around_log_eq (g : gamma_t) (visited : visited_t)
    (queue : queue_t) (log : List field_t) (cur : field_t) (p : Nat) :
    (add_to_queue_fields_around_log g visited queue log cur p).1
        = (add_to_queue_fields_around g visited queue cur p).1
      ∧ (add_to_queue_fields_around_log g visited queue log cur p).2.1
        = (add_to_queue_fields_around g visited queue cur p).2 := by
  have h1 := add_to_queue_log_sim g (visited, queue, log) (visited, queue) cur p .x (-1)
    (cur.x ≠ 0) ⟨rfl, rfl⟩
  have h2 := add_to_queue_log_sim g _ _ cur p .x 1
    (cur.x ≠ UINT32_MAX ∧ cur.x + 1 < g.width) h1
  have h3 := add_to_queue_log_sim g _ _ cur p .y (-1) (cur.y ≠ 0) h2
  exact add_to_queue_log_sim g _ _ cur p .y 1
    (cur.y ≠ UINT32_MAX ∧ cur.y + 1 < g.height) h3

/-- One guarded call of `add_to_queue` keeps the invariant of the record, only
appends to the record, and does not increase the number of unmarked fields plus
the length of the queue. -/
theorem add_to_queue_log_inv (g : gamma_t) (p : Nat) (visited0 : visited_t) (s cur : field_t)
    (st : visited_t × queue_t × List field_t) (c : coordinate_t) (k : Int)
    (guard : Prop) [Decidable guard] (h : log_inv g p visited0 s st)
    (hg : guard → in_board g (shift cur c k)) :
    ∀ r, r = (if guard then add_to_queue_log g st.1 st.2.1 st.2.2 cur p c k else st) →
      log_inv g p visited0 s r
        ∧ (unmarked g r.1).card + r.2.1.length ≤ (unmarked g st.1).card + st.2.1.length
        ∧ st.2.2 <+: r.2.2 := by
  intro r hr
  subst hr
  by_cases hguard : guard
  · have hin := hg hguard
    simp only [if_pos hguard]
    unfold add_to_queue_log
    generalize shift cur c k = n at hin ⊢
    by_cases hc : (st.1 n.x n.y == false && g.board n.x n.y == p) = true
    · simp only [if_pos hc]
      simp only [Bool.and_eq_true, beq_iff_eq] at hc
      obtain ⟨hv, hb⟩ := hc
      have hv0 : visited0 n.x n.y = false := by
        cases hv0 : visited0 n.x n.y
        · rfl
        · have := h.mono _ _ hv0; rw [hv] at this; exact Bool.noConfusion this
      have hnew : n ∉ st.2.2 := by
        intro hn
        have := (h.marked n hn).2
        rw [hv] at this
        exact Bool.noConfusion this
      have hcard := unmarked_mark g st.1 n hin hv
      refine ⟨⟨?_, ?_, ?_, ?_, ?_, ?_⟩, ?_, ?_⟩
      · intro a b hab
        exact (mark_eq _ _ _ _ _).2 (Or.inr (h.mono a b hab))
      · intro f hf
        simp only [enqueue, List.mem_append, List.mem_singleton] at hf ⊢
        rcases hf with hf | hf
        · exact Or.inl (h.queue_log f hf)
        · exact Or.inr hf
      · show (st.2.2 ++ [n]).Nodup
        rw [List.nodup_append]
        refine ⟨h.nodup, List.nodup_singleton n, ?_⟩
        intro a ha ha'
        rw [List.mem_singleton] at ha'
        subst ha'
        exact hnew ha
      · intro f hf
        simp only [List.mem_append, List.mem_singleton] at hf
        rcases hf with hf | hf
        · exact ⟨(h.marked f hf).1, (mark_eq _ _ _ _ _).2 (Or.inr (h.marked f hf).2)⟩
        · subst hf
          exact ⟨hin, (mark_eq _ _ _ _ _).2 (Or.inl ⟨rfl, rfl⟩)⟩
      · intro f hf
        simp only [List.mem_append, List.mem_singleton] at hf
        rcases hf with hf | hf
        · exact h.fresh f hf
        · subst hf
          exact Or.inr ⟨hv0, hb⟩
      · have := h.bound
        simp only [List.length_append, List.length_singleton]
        omega
      · simp only [enqueue, List.length_append, List.length_singleton]
        omega
      · exact List.prefix_append _ _
    · simp only [if_neg hc]
      exact ⟨h, le_refl _, List.prefix_refl _⟩
  · simp only [if_neg hguard]
    exact ⟨h, le_refl _, List.prefix_refl _⟩

/-- Examining the four neighbours of a field of the board keeps the invariant
of the record. -/
theorem add_to_queue_fields_around_log_inv (g : gamma_t) (p : Nat) (visited0 : visited_t)
    (s cur : field_t) (st : visited_t × queue_t × List field_t)
    (h : log_inv g p visited0 s st) (hin : in_board g cur) :
    log_inv g p visited0 s (add_to_queue_fields_around_log g st.1 st.2.1 st.2.2 cur p)
      ∧ (unmarked g (add_to_queue_fields_around_log g st.1 st.2.1 st.2.2 cur p).1).card
          + (add_to_queue_fields_around_log g st.1 st.2.1 st.2.2 cur p).2.1.length
          ≤ (unmarked g st.1).card + st.2.1.length
      ∧ st.2.2 <+: (add_to_queue_fields_around_log g st.1 st.2.1 st.2.2 cur p).2.2 := by
  have h1 := add_to_queue_log_inv g p visited0 s cur st .x (-1) (cur.x ≠ 0) h
    (fun hgd => (adjacent_shift_x_neg g cur hin hgd).2) _ rfl
  have h2 := add_to_queue_log_inv g p visited0 s cur _ .x 1
    (cur.x ≠ UINT32_MAX ∧ cur.x + 1 < g.width) h1.1
    (fun hgd => (adjacent_shift_x_pos g cur hin hgd).2) _ rfl
  have h3 := add_to_queue_log_inv g p visited0 s cur _ .y (-1) (cur.y ≠ 0) h2.1
    (fun hgd => (adjacent_shift_y_neg g cur hin hgd).2) _ rfl
  have h4 := add_to_queue_log_inv g p visited0 s cur _ .y 1
    (cur.y ≠ UINT32_MAX ∧ cur.y + 1 < g.height) h3.1
    (fun hgd => (adjacent_shift_y_pos g cur hin hgd).2) _ rfl
  exact ⟨h4.1, le_trans h4.2.1 (le_trans h3.2.1 (le_trans h2.2.1 h1.2.1)),
    List.IsPrefix.trans h1.2.2 (List.IsPrefix.trans h2.2.2 (List.IsPrefix.trans h3.2.2 h4.2.2))⟩

/-- The loop of `make_BFS` ends with an empty queue before its bound on the
number of iterations is reached, with the marks of `make_BFS_loop`, and keeps
the invariant of the record. -/
theorem make_BFS_loop_log_spec (g : gamma_t) (p : Nat) (visited0 : visited_t) (s : field_t) :
    ∀ (fuel : Nat) (visited : visited_t) (queue : queue_t) (log : List field_t)
      (field : field_t),
      queue ≠ [] →
      log_inv g p visited0 s (visited, queue, log) →
      (unmarked g visited).card + queue.length ≤ fuel →
      ∃ r, make_BFS_loop_log g p fuel visited queue log field = some r
        ∧ r.1 = make_BFS_loop g p fuel visited queue field
        ∧ r.2.1 = []
        ∧ log_inv g p visited0 s r
        ∧ log <+: r.2.2 := by
  intro fuel
  induction fuel with
  | zero =>
    intro visited queue log field hne _ hfuel
    cases queue with
    | nil => exact absurd rfl hne
    | cons f rest => simp only [List.length_cons] at hfuel; omega
  | succ fuel ih =>
    intro visited queue log field hne hinv hfuel
    cases queue with
    | nil => exact absurd rfl hne
    | cons f rest =>
      have hf : f ∈ log := hinv.queue_log f (List.mem_cons_self _ _)
      have hinv0 : log_inv g p visited0 s (visited, rest, log) :=
        { mono := hinv.mono
          queue_log := fun f' hf' => hinv.queue_log f' (List.mem_cons_of_mem _ hf')
          nodup := hinv.nodup
          marked := hinv.marked
          fresh := hinv.fresh
          bound := hinv.bound }
      obtain ⟨hinv', hmeasure, hprefix⟩ :=
        add_to_queue_fields_around_log_inv g p visited0 s f (visited, rest, log) hinv0
          (hinv.marked f hf).1
      dsimp only at hinv' hmeasure hprefix
      obtain ⟨e1, e2⟩ := add_to_queue_fields_around_log_eq g visited rest log f p
      simp only [make_BFS_loop_log, make_BFS_loop, dequeue]
      by_cases hemp : empty_queue (add_to_queue_fields_around_log g visited rest log f p).2.1
          = true
      · rw [if_pos hemp, if_pos (by rw [← e2]; exact hemp)]
        refine ⟨_, rfl, e1, ?_, hinv', hprefix⟩
        simpa [empty_queue] using hemp
      · rw [if_neg hemp, if_neg (by rw [← e2]; exact hemp)]
        have hne' : (add_to_queue_fields_around_log g visited rest log f p).2.1 ≠ [] := by
          intro h; apply hemp; rw [h]; rfl
        simp only [List.length_cons] at hfuel
        obtain ⟨r, hr1, hr2, hr3, hr4, hr5⟩ :=
          ih (add_to_queue_fields_around_log g visited rest log f p).1
            (add_to_queue_fields_around_log g visited rest log f p).2.1
            (add_to_queue_fields_around_log g visited rest log f p).2.2 f hne' hinv' (by omega)
        refine ⟨r, hr1, ?_, hr3, hr4, List.IsPrefix.trans hprefix hr5⟩
        rw [hr2, e1, e2]

/-- The search from a field of the board ends with an empty queue, whatever the
marks it starts from: the record of its calls of `enqueue` begins with the start
field and has no field twice. -/
theorem make_BFS_log_spec (g : gamma_t) (ht : typed g) (p : Nat) (visited0 : visited_t)
    (s : field_t) (hin : in_board g s) (fuel : Nat) (hfuel : g.width * g.height + 1 ≤ fuel) :
    ∃ log, make_BFS_log g p visited0 s fuel = some (make_BFS g p visited0 s, [], log)
      ∧ log_inv g p visited0 s (make_BFS g p visited0 s, [], log)
      ∧ [s] <+: log := by
  have hmem : (s.x, s.y) ∈ Finset.range g.width ×ˢ Finset.range g.height := by
    simp only [Finset.mem_product, Finset.mem_range]
    exact ⟨hin.1, hin.2⟩
  have hmark : mark visited0 s.x s.y s.x s.y = true := (mark_eq _ _ _ _ _).2 (Or.inl ⟨rfl, rfl⟩)
  have hcard : (unmarked g (mark visited0 s.x s.y)).card + 1 ≤ g.width * g.height := by
    have hsub : unmarked g (mark visited0 s.x s.y)
        ⊆ (Finset.range g.width ×ˢ Finset.range g.height).erase (s.x, s.y) := by
      intro c hc
      simp only [unmarked, Finset.mem_filter] at hc
      rw [Finset.mem_erase]
      refine ⟨?_, hc.1⟩
      intro hcs
      rw [hcs, hmark] at hc
      exact Bool.noConfusion hc.2
    have h1 := Finset.card_le_card hsub
    rw [Finset.card_erase_of_mem hmem] at h1
    have h2 : (Finset.range g.width ×ˢ Finset.range g.height).card = g.width * g.height := by
      simp
    have h3 : 0 < (Finset.range g.width ×ˢ Finset.range g.height).card :=
      Finset.card_pos.2 ⟨_, hmem⟩
    omega
  have hinv : log_inv g p visited0 s (mark visited0 s.x s.y, [s], [s]) :=
    { mono := fun a b hab => (mark_eq _ _ _ _ _).2 (Or.inr hab)
      queue_log := fun f hf => hf
      nodup := List.nodup_singleton s
      marked := by
        intro f hf
        rw [List.mem_singleton] at hf
        subst hf
        exact ⟨hin, hmark⟩
      fresh := by
        intro f hf
        rw [List.mem_singleton] at hf
        exact Or.inl hf
      bound := by
        show [s].length + (unmarked g (mark visited0 s.x s.y)).card ≤ g.width * g.height
        simp only [List.length_singleton]
        omega }
  obtain ⟨r, hr1, hr2, hr3, hr4, hr5⟩ :=
    make_BFS_loop_log_spec g p visited0 s fuel (mark visited0 s.x s.y) [s] [s] s (by simp) hinv
      (by simp only [List.length_singleton]; omega)
  have hr2' : r.1 = make_BFS g p visited0 s := by
    rw [hr2]
    exact make_BFS_loop_fuel g ht p visited0 s hin fuel hfuel
  obtain ⟨rv, rq, rl⟩ := r
  simp only at hr2' hr3
  subst hr2' hr3
  exact ⟨rl, hr1, hr4, hr5⟩

/-- C30: for every board, every owner, every start field of the board and every
board of marks, the loop of `make_BFS` ends: within any bound of at least
`width * height + 1` iterations it is left with an empty queue and the marks of
`make_BFS`.  No field is given to `enqueue` twice; the first call of `enqueue`,
before the loop, enqueues the start field, and every call in the loop enqueues
a field of the board owned by `owner` that had no mark and gets its mark; so
`enqueue` is called at most `width * height` times. -/
theorem search_terminates (g : gamma_t) (ht : typed g) (owner : Nat) (start : field_t)
    (visited : visited_t) (hin : in_board g start) (fuel : Nat)
    (hfuel : g.width * g.height + 1 ≤ fuel) :
    ∃ log, make_BFS_log g owner visited start fuel
        = some (make_BFS g owner visited start, [], log)
      ∧ log.Nodup
      ∧ log.length ≤ g.width * g.height
      ∧ log.head? = some start
      ∧ (∀ f ∈ log, in_board g f ∧ make_BFS g owner visited start f.x f.y = true)
      ∧ (∀ f ∈ log.tail, visited f.x f.y = false ∧ g.board f.x f.y = owner) := by
  obtain ⟨log, hlog, hinv, hprefix⟩ := make_BFS_log_spec g ht owner visited start hin fuel hfuel
  obtain ⟨rest, hrest⟩ := hprefix
  refine ⟨log, hlog, hinv.nodup, ?_, ?_, hinv.marked, ?_⟩
  · have := hinv.bound
    have h : log.length + (unmarked g (make_BFS g owner visited start)).card
        ≤ g.width * g.height := this
    omega
  · rw [← hrest]; rfl
  · intro f hf
    have hnodup : log.Nodup := hinv.nodup
    rw [← hrest] at hf hnodup
    have hf' : f ∈ rest := hf
    have hne : f ≠ start := by
      intro h
      subst h
      exact (List.nodup_cons.1 hnodup).1 hf'
    have hmem : f ∈ log := by
      rw [← hrest]
      exact List.mem_cons_of_mem _ hf'
    rcases hinv.fresh f hmem with h | h
    · exact absurd h hne
    · exact h

/-- The search from the field `(0, 0)` on the board of width 3 owned by player 1
ends after three calls of `enqueue`, one for every field. -/
theorem search_terminates_witness :
    typed game_3_1_played
      ∧ in_board game_3_1_played { x := 0, y := 0 }
      ∧ game_3_1_played.width * game_3_1_played.height + 1 ≤ 4
      ∧ (make_BFS_log game_3_1_played 1 init_board { x := 0, y := 0 } 4).map
          (fun r => (r.2.1, r.2.2))
        = some ([], [{ x := 0, y := 0 }, { x := 1, y := 0 }, { x := 2, y := 0 }])
      ∧ ∃ log, make_BFS_log game_3_1_played 1 init_board { x := 0, y := 0 } 4
          = some (make_BFS game_3_1_played 1 init_board { x := 0, y := 0 }, [], log)
        ∧ log.Nodup
        ∧ log.length ≤ game_3_1_played.width * game_3_1_played.height
        ∧ log.head? = some { x := 0, y := 0 }
        ∧ (∀ f ∈ log, in_board game_3_1_played f
            ∧ make_BFS game_3_1_played 1 init_board { x := 0, y := 0 } f.x f.y = true)
        ∧ (∀ f ∈ log.tail, init_board f.x f.y = false ∧ game_3_1_played.board f.x f.y = 1) :=
  ⟨by decide, by decide, by decide, by decide,
    search_terminates game_3_1_played (by decide) 1 { x := 0, y := 0 } init_board (by decide) 4
      (by decide)⟩

/-! ## The number of digits -/

/-- The counter of the loop of `number_of_digits` only grows. -/
theorem number_of_digits_loop_ge (fuel : Nat) :
    ∀ num m, m ≤ number_of_digits_loop fuel num m := by
  induction fuel with
  | zero => intro num m; exact le_refl _
  | succ fuel ih =>
    intro num m
    unfold number_of_digits_loop
    by_cases h : num ≥ 10
    · rw [if_pos h]
      have := ih (num / 10) (m + 1)
      omega
    · rw [if_neg h]

/-- The loop of `number_of_digits` counts at most `k` divisions exactly for the
numbers below `10 ^ (k + 1)`. -/
theorem number_of_digits_loop_le (fuel : Nat) :
    ∀ num m k, num ≤ fuel →
      (number_of_digits_loop fuel num m ≤ m + k ↔ num < 10 ^ (k + 1)) := by
  induction fuel with
  | zero =>
    intro num m k h
    have h0 : num = 0 := by omega
    subst h0
    simp [number_of_digits_loop]
  | succ fuel ih =>
    intro num m k h
    unfold number_of_digits_loop
    by_cases hc : num ≥ 10
    · rw [if_pos hc]
      cases k with
      | zero =>
        have := number_of_digits_loop_ge fuel (num / 10) (m + 1)
        constructor
        · intro h'; omega
        · intro h'; simp at h'; omega
      | succ k =>
        have hdiv : num / 10 ≤ fuel := by omega
        have := ih (num / 10) (m + 1) k hdiv
        rw [show m + (k + 1) = m + 1 + k by omega, this, Nat.div_lt_iff_lt_mul (by decide),
          pow_succ 10 (k + 1)]
    · rw [if_neg hc]
      have hpow : 10 ≤ 10 ^ (k + 1) := by
        calc 10 = 10 ^ 1 := by norm_num
          _ ≤ 10 ^ (k + 1) := Nat.pow_le_pow_right (by decide) (by omega)
      constructor
      · intro _; omega
      · intro _; omega

/-- The bound on the number of iterations in `number_of_digits` is never
reached: a larger bound gives the same number. -/
theorem number_of_digits_loop_fuel (fuel : Nat) :
    ∀ num m fuel', num ≤ fuel → num ≤ fuel' →
      number_of_digits_loop fuel num m = number_of_digits_loop fuel' num m := by
  induction fuel with
  | zero =>
    intro num m fuel' h _
    have h0 : num = 0 := by omega
    subst h0
    cases fuel' with
    | zero => rfl
    | succ f => simp [number_of_digits_loop]
  | succ fuel ih =>
    intro num m fuel' h h'
    by_cases hc : num ≥ 10
    · cases fuel' with
      | zero => omega
      | succ f =>
        unfold number_of_digits_loop
        rw [if_pos hc, if_pos hc]
        exact ih (num / 10) (m + 1) f (by omega) (by omega)
    · cases fuel' with
      | zero =>
        unfold number_of_digits_loop
        rw [if_neg hc]
      | succ f =>
        unfold number_of_digits_loop
        rw [if_neg hc, if_neg hc]

theorem number_of_digits_pos (num : Nat) : 1 ≤ number_of_digits num :=
  number_of_digits_loop_ge num num 1

/-- A number has at most `k + 1` digits exactly when it is below `10 ^ (k + 1)`. -/
theorem number_of_digits_le (num k : Nat) :
    number_of_digits num ≤ k + 1 ↔ num < 10 ^ (k + 1) := by
  unfold number_of_digits
  have := number_of_digits_loop_le num num 1 k (le_refl _)
  rw [add_comm 1 k] at this
  exact this

/-- One digit: the numbers up to 9. -/
theorem number_of_digits_eq_one (num : Nat) : number_of_digits num = 1 ↔ num ≤ 9 := by
  have h1 := number_of_digits_pos num
  have h2 := number_of_digits_le num 0
  simp only [zero_add, pow_one] at h2
  omega

/-- A smaller number has no more digits. -/
theorem number_of_digits_mono (a b : Nat) (h : a ≤ b) :
    number_of_digits a ≤ number_of_digits b := by
  have hb := number_of_digits_pos b
  have h1 := (number_of_digits_le b (number_of_digits b - 1)).1 (by omega)
  have h2 := (number_of_digits_le a (number_of_digits b - 1)).2 (by omega)
  omega

/-- The length of the digits written by `toDigitsCore` and the counter of the
loop of `number_of_digits`. -/
theorem toDigitsCore_length_eq (fuel : Nat) :
    ∀ num ds m fuel', num < fuel → num ≤ fuel' →
      (Nat.toDigitsCore 10 fuel num ds).length + m
        = ds.length + 1 + number_of_digits_loop fuel' num m := by
  induction fuel with
  | zero => intro num ds m fuel' h _; omega
  | succ fuel ih =>
    intro num ds m fuel' h h'
    unfold Nat.toDigitsCore
    by_cases hc : num / 10 = 0
    · simp only [hc, if_true, List.length_cons]
      have hlt : ¬ num ≥ 10 := by omega
      cases fuel' with
      | zero => simp [number_of_digits_loop]
      | succ f =>
        unfold number_of_digits_loop
        rw [if_neg hlt]
    · simp only [hc, if_false]
      have hge : num ≥ 10 := by omega
      cases fuel' with
      | zero => omega
      | succ f =>
        unfold number_of_digits_loop
        rw [if_pos hge]
        have := ih (num / 10) (Nat.digitChar (num % 10) :: ds) (m + 1) f (by omega) (by omega)
        simp only [List.length_cons] at this
        omega

/-- The function `sprintf` writes as many characters as `number_of_digits` counts. -/
theorem sprintf_u_length (value : Nat) : (sprintf_u value).length = number_of_digits value := by
  have := toDigitsCore_length_eq (value + 1) value [] 1 value (by omega) (le_refl _)
  simp only [List.length_nil] at this
  unfold sprintf_u Nat.toDigits number_of_digits
  omega

theorem decimal_digits_eq (n : Nat) : decimal_digits n = number_of_digits n :=
  sprintf_u_length n

/-- A digit is neither a space nor a newline. -/
theorem digitChar_ne (n : Nat) (h : n < 10) :
    Nat.digitChar n ≠ ' ' ∧ Nat.digitChar n ≠ '\n' := by
  interval_cases n <;> decide

/-- The characters written by `toDigitsCore` in base 10 are digits. -/
theorem toDigitsCore_chars (fuel : Nat) :
    ∀ num ds, (∀ c ∈ ds, c ≠ ' ' ∧ c ≠ '\n') →
      ∀ c ∈ Nat.toDigitsCore 10 fuel num ds, c ≠ ' ' ∧ c ≠ '\n' := by
  induction fuel with
  | zero => intro num ds h c hc; exact h c hc
  | succ fuel ih =>
    intro num ds h
    unfold Nat.toDigitsCore
    have hds : ∀ c ∈ Nat.digitChar (num % 10) :: ds, c ≠ ' ' ∧ c ≠ '\n' := by
      intro c hc
      rcases List.mem_cons.1 hc with hc | hc
      · rw [hc]; exact digitChar_ne _ (Nat.mod_lt _ (by decide))
      · exact h c hc
    by_cases hc : num / 10 = 0
    · simp only [hc, if_true]
      exact hds
    · simp only [hc, if_false]
      exact ih _ _ hds

/-- A token holds neither a space nor a newline. -/
theorem token_chars (g : gamma_t) (x y : Nat) :
    ∀ c ∈ token g x y, c ≠ ' ' ∧ c ≠ '\n' := by
  unfold token
  by_cases h : g.board x y = 0
  · rw [if_pos h]
    intro c hc
    rw [List.mem_singleton] at hc
    subst hc
    decide
  · rw [if_neg h]
    exact toDigitsCore_chars _ _ [] (fun c hc => absurd hc (List.not_mem_nil c))

/-- The token of a field has as many characters as `number_of_digits` counts
for its owner, one for a free field. -/
theorem token_length (g : gamma_t) (x y : Nat) :
    (token g x y).length = number_of_digits (g.board x y) := by
  unfold token
  by_cases h : g.board x y = 0
  · rw [if_pos h, h]; rfl
  · rw [if_neg h]; exact sprintf_u_length _

/-! ## The text of the board -/

/-- The rows from `n` down to 0: the first one, then the others. -/
theorem flatten_range_rows (F : Nat → List Char) (n : Nat) :
    ((List.range (n + 1)).map (fun i => F (n + 1 - 1 - i))).flatten
      = F n ++ ((List.range n).map (fun i => F (n - 1 - i))).flatten := by
  rw [List.range_succ_eq_map, List.map_cons, List.flatten_cons, List.map_map]
  congr 1
  congr 1
  apply List.map_congr_left
  intro i _
  show F (n + 1 - 1 - (i + 1)) = F (n - 1 - i)
  congr 1
  omega

/-- The length of `n` pieces of `c` characters each. -/
theorem flatten_range_length (F : Nat → List Char) (c n : Nat)
    (h : ∀ i, i < n → (F i).length = c) :
    ((List.range n).map F).flatten.length = n * c := by
  induction n with
  | zero => simp
  | succ n ih =>
    rw [List.range_succ, List.map_append, List.flatten_append, List.length_append,
      ih (fun i hi => h i (by omega))]
    simp only [List.map_cons, List.map_nil, List.flatten_cons, List.flatten_nil,
      List.append_nil]
    rw [h n (by omega)]
    ring

/-- A field of the text has the width of its column when its token fits. -/
theorem cell_text_length (g : gamma_t) (x y : Nat)
    (h : (token g x y).length ≤ column_width g) :
    (cell_text g x y).length = column_width g := by
  unfold cell_text
  rw [List.length_append, List.length_replicate]
  omega

/-- The token of a field owned by a player fits the column. -/
theorem token_fits (g : gamma_t) (x y : Nat) (h : g.board x y ≤ g.players) :
    (token g x y).length ≤ column_width g := by
  rw [token_length]
  unfold column_width
  by_cases hp : g.players ≤ 9
  · rw [if_pos hp]
    exact le_of_eq ((number_of_digits_eq_one _).2 (le_trans h hp))
  · rw [if_neg hp, decimal_digits_eq]
    have := number_of_digits_mono _ _ h
    omega

/-- For at most 9 players a field of the text is its token, of one character. -/
theorem cell_text_standard (g : gamma_t) (x y : Nat) (hp : g.players ≤ 9)
    (h : g.board x y ≤ g.players) :
    cell_text g x y = token g x y ∧ (token g x y).length = 1 := by
  have hlen : (token g x y).length = 1 := by
    rw [token_length]
    exact (number_of_digits_eq_one _).2 (le_trans h hp)
  refine ⟨?_, hlen⟩
  unfold cell_text column_width
  rw [if_pos hp, hlen]
  simp

/-- The character that `standard_board` writes for an owner up to 9 is the token. -/
theorem standard_board_field_token (g : gamma_t) (j i : Nat) (h : g.board j i ≤ 9) :
    [standard_board_field g j i] = token g j i := by
  unfold standard_board_field token
  generalize g.board j i = v at h
  interval_cases v <;> decide

theorem standard_board_row_eq (g : gamma_t) (hp : g.players ≤ 9) (i : Nat)
    (hown : ∀ x, x < g.width → g.board x i ≤ g.players) :
    ∀ j, j ≤ g.width →
      standard_board_row g i j = ((List.range j).map (fun x => cell_text g x i)).flatten := by
  intro j
  induction j with
  | zero => intro _; rfl
  | succ j ih =>
    intro hj
    have hb := hown j (by omega)
    rw [List.range_succ, List.map_append, List.flatten_append, ← ih (by omega)]
    simp only [List.map_cons, List.map_nil, List.flatten_cons, List.flatten_nil,
      List.append_nil]
    rw [(cell_text_standard g j i hp hb).1, ← standard_board_field_token g j i (le_trans hb hp)]
    rfl

theorem standard_board_rows_eq (g : gamma_t) (hp : g.players ≤ 9)
    (hown : ∀ x y, x < g.width → y < g.height → g.board x y ≤ g.players) :
    ∀ n, n ≤ g.height →
      standard_board_rows g n
        = ((List.range n).map (fun i => line_text g (n - 1 - i) ++ ['\n'])).flatten := by
  intro n
  induction n with
  | zero => intro _; rfl
  | succ n ih =>
    intro hn
    rw [flatten_range_rows (fun y => line_text g y ++ ['\n']) n, ← ih (by omega)]
    unfold line_text
    rw [← standard_board_row_eq g hp n (fun x hx => hown x n hx (by omega)) g.width (le_refl _)]
    rfl

/-- The length of the text of the board. -/
theorem board_text_length (g : gamma_t)
    (hown : ∀ x y, x < g.width → y < g.height → g.board x y ≤ g.players) :
    (board_text g).length = (column_width g * g.width + 1) * g.height := by
  unfold board_text
  rw [flatten_range_length _ (column_width g * g.width + 1) g.height, Nat.mul_comm]
  intro i hi
  rw [List.length_append, List.length_singleton]
  congr 1
  unfold line_text
  rw [flatten_range_length _ (column_width g) g.width, Nat.mul_comm]
  intro x hx
  exact cell_text_length g x _ (token_fits g x _ (hown x _ hx (by omega)))

/-- The counter of the rows starts at `height - 1` when the height is an `int`. -/
theorem to_int_rows (height : Nat) (h : height ≤ INT_MAX) :
    ¬ (to_int height - 1 < -2147483648) ∧ (to_int height - 1 + 1).toNat = height := by
  unfold to_int
  rw [if_pos h]
  unfold INT_MAX at h
  omega

/-- The text of `standard_board` when the board is small enough for the
counter `k` and for the size of the array. -/
theorem standard_board_text (g : gamma_t) (hp : g.players ≤ 9) (hh : 1 ≤ g.height)
    (hown : ∀ x y, x < g.width → y < g.height → g.board x y ≤ g.players)
    (hsize : (column_width g * g.width + 1) * g.height ≤ INT_MAX) :
    standard_board g = some (board_text g) := by
  have hlen := board_text_length g hown
  have hcw : column_width g = 1 := by unfold column_width; rw [if_pos hp]
  rw [hcw, Nat.one_mul] at hsize hlen
  have hwidth : g.width + 1 ≤ (g.width + 1) * g.height := Nat.le_mul_of_pos_right _ hh
  have hheight : g.height ≤ (g.width + 1) * g.height :=
    Nat.le_mul_of_pos_left _ (Nat.succ_pos _)
  have hrows := to_int_rows g.height (le_trans hheight hsize)
  have htext : standard_board_rows g g.height = board_text g :=
    standard_board_rows_eq g hp hown g.height (le_refl _)
  have hmem : standard_board_memory_amount g = (g.width + 1) * g.height + 1 := by
    unfold standard_board_memory_amount
    dsimp only
    unfold INT_MAX at hsize
    have h1 : to_u32 ((g.width : Int) + 1) = g.width + 1 :=
      to_u32_eq _ _ (by push_cast; rfl) (by unfold UINT32_MAX; omega)
    have h2 : to_u32 (((g.width + 1 : Nat) : Int) * (g.height : Int))
        = (g.width + 1) * g.height :=
      to_u32_eq _ _ (by push_cast; rfl) (by unfold UINT32_MAX; omega)
    have h3 : to_u32 ((((g.width + 1) * g.height : Nat) : Int) + 1)
        = (g.width + 1) * g.height + 1 :=
      to_u32_eq _ _ (by push_cast; rfl) (by unfold UINT32_MAX; omega)
    rw [h1, h2, h3]
  unfold standard_board
  dsimp only
  rw [if_neg hrows.1, hrows.2, htext, hmem, hlen, if_pos ⟨hsize, Nat.lt_succ_self _⟩]

/-- The characters that `board_for_multiple_digits_players` writes for a field. -/
theorem multiple_digits_field_eq (g : gamma_t) (x y : Nat) (hp : 9 < g.players)
    (hmax : g.players < 1000000000) (h : g.board x y ≤ g.players) :
    multiple_digits_field g (number_of_digits g.players) x y = some (cell_text g x y) := by
  have hcw : column_width g = number_of_digits g.players + 1 := by
    unfold column_width
    rw [if_neg (by omega), decimal_digits_eq]
  have hmono := number_of_digits_mono _ _ h
  have hlen := token_length g x y
  unfold multiple_digits_field cell_text
  rw [hcw, hlen]
  unfold token
  by_cases hb : g.board x y = 0
  · rw [if_neg (not_not.2 hb), if_pos hb]
    have h1 : number_of_digits (g.board x y) = 1 := by rw [hb]; rfl
    rw [h1]
    rfl
  · rw [if_pos hb, if_neg hb]
    dsimp only
    have h9 : number_of_digits (g.board x y) ≤ 8 + 1 :=
      (number_of_digits_le _ 8).2 (by norm_num; omega)
    rw [if_pos ⟨by rw [sprintf_u_length]; unfold UINT_LIMIT; omega, hmono⟩]
    have : number_of_digits g.players - number_of_digits (g.board x y) + 1
        = number_of_digits g.players + 1 - number_of_digits (g.board x y) := by omega
    rw [this]
    rfl

theorem multiple_digits_row_eq (g : gamma_t) (hp : 9 < g.players)
    (hmax : g.players < 1000000000) (i : Nat)
    (hown : ∀ x, x < g.width → g.board x i ≤ g.players) :
    ∀ j, j ≤ g.width →
      multiple_digits_row g (number_of_digits g.players) i j
        = some ((List.range j).map (fun x => cell_text g x i)).flatten := by
  intro j
  induction j with
  | zero => intro _; rfl
  | succ j ih =>
    intro hj
    unfold multiple_digits_row
    rw [ih (by omega), multiple_digits_field_eq g j i hp hmax (hown j (by omega))]
    rw [List.range_succ, List.map_append, List.flatten_append]
    simp only [List.map_cons, List.map_nil, List.flatten_cons, List.flatten_nil,
      List.append_nil]

theorem multiple_digits_rows_eq (g : gamma_t) (hp : 9 < g.players)
    (hmax : g.players < 1000000000)
    (hown : ∀ x y, x < g.width → y < g.height → g.board x y ≤ g.players) :
    ∀ n, n ≤ g.height →
      multiple_digits_rows g (number_of_digits g.players) n
        = some ((List.range n).map (fun i => line_text g (n - 1 - i) ++ ['\n'])).flatten := by
  intro n
  induction n with
  | zero => intro _; rfl
  | succ n ih =>
    intro hn
    unfold multiple_digits_rows
    rw [ih (by omega),
      multiple_digits_row_eq g hp hmax n (fun x hx => hown x n hx (by omega)) g.width
        (le_refl _)]
    rw [flatten_range_rows (fun y => line_text g y ++ ['\n']) n]
    rfl

/-- The text of `board_for_multiple_digits_players` when the board is small
enough for the counter `k` and no number of a player fills `num_str`. -/
theorem board_for_multiple_digits_players_text (g : gamma_t) (hp : 9 < g.players)
    (hmax : g.players < 1000000000) (hw : 1 ≤ g.width) (hh : 1 ≤ g.height)
    (hown : ∀ x y, x < g.width → y < g.height → g.board x y ≤ g.players)
    (hsize : (column_width g * g.width + 1) * g.height ≤ INT_MAX) :
    board_for_multiple_digits_players g (number_of_digits g.players) = some (board_text g) := by
  have hlen := board_text_length g hown
  have hcw : column_width g = number_of_digits g.players + 1 := by
    unfold column_width
    rw [if_neg (by omega), decimal_digits_eq]
  rw [hcw] at hsize hlen
  have htext : multiple_digits_rows g (number_of_digits g.players) g.height
      = some (board_text g) :=
    multiple_digits_rows_eq g hp hmax hown g.height (le_refl _)
  generalize number_of_digits g.players = d at hsize hlen htext ⊢
  have hrow : (d + 1) * g.width + 1 ≤ ((d + 1) * g.width + 1) * g.height :=
    Nat.le_mul_of_pos_right _ hh
  have hcol : d + 1 ≤ (d + 1) * g.width := Nat.le_mul_of_pos_right _ hw
  have hheight : g.height ≤ ((d + 1) * g.width + 1) * g.height :=
    Nat.le_mul_of_pos_left _ (Nat.succ_pos _)
  have hrows := to_int_rows g.height (le_trans hheight hsize)
  have hmem : multiple_digits_memory_amount g d = ((d + 1) * g.width + 1) * g.height + 1 := by
    unfold multiple_digits_memory_amount
    dsimp only
    unfold INT_MAX at hsize
    have h1 : to_u64 ((d : Int) + 1) = d + 1 :=
      to_u64_eq _ _ (by push_cast; rfl) (by unfold UINT32_MAX; omega)
    have h2 : to_u64 (((d + 1 : Nat) : Int) * (g.width : Int)) = (d + 1) * g.width :=
      to_u64_eq _ _ (by push_cast; rfl) (by unfold UINT32_MAX; omega)
    have h3 : to_u64 ((((d + 1) * g.width : Nat) : Int) + 1) = (d + 1) * g.width + 1 :=
      to_u64_eq _ _ (by push_cast; rfl) (by unfold UINT32_MAX; omega)
    have h4 : to_u64 ((((d + 1) * g.width + 1 : Nat) : Int) * (g.height : Int))
        = ((d + 1) * g.width + 1) * g.height :=
      to_u64_eq _ _ (by push_cast; rfl) (by unfold UINT32_MAX; omega)
    have h5 : to_u64 (((((d + 1) * g.width + 1) * g.height : Nat) : Int) + 1)
        = ((d + 1) * g.width + 1) * g.height + 1 :=
      to_u64_eq _ _ (by push_cast; rfl) (by unfold UINT32_MAX; omega)
    rw [h1, h2, h3, h4, h5]
  unfold board_for_multiple_digits_players
  dsimp only
  rw [if_neg hrows.1, hrows.2, htext]
  dsimp only
  rw [hmem, hlen, if_pos ⟨hsize, Nat.lt_succ_self _⟩]

/-- The text of `gamma_board` for a board whose owners are players, when the
board is small enough for the counter `k` and there are fewer than `10^9`
players: the lines of the rows from the top row down. -/
theorem gamma_board_text (g : gamma_t) (hw : 1 ≤ g.width) (hh : 1 ≤ g.height)
    (hown : ∀ x y, x < g.width → y < g.height → g.board x y ≤ g.players)
    (hmax : g.players < 1000000000)
    (hsize : (column_width g * g.width + 1) * g.height ≤ INT_MAX) :
    gamma_board g = some (board_text g) := by
  unfold gamma_board
  dsimp only
  by_cases hp : g.players ≤ 9
  · rw [if_pos ((number_of_digits_eq_one _).2 hp)]
    exact standard_board_text g hp hh hown hsize
  · rw [if_neg (fun h => hp ((number_of_digits_eq_one _).1 h))]
    exact board_for_multiple_digits_players_text g (by omega) hmax hw hh hown hsize

/-- The function `gamma_board` takes `standard_board` exactly for at most 9 players. -/
theorem gamma_board_cases (g : gamma_t) :
    gamma_board g
      = if g.players ≤ 9 then standard_board g
        else board_for_multiple_digits_players g (decimal_digits g.players) := by
  unfold gamma_board
  dsimp only
  rw [decimal_digits_eq]
  by_cases hp : g.players ≤ 9
  · rw [if_pos hp, if_pos ((number_of_digits_eq_one _).2 hp)]
  · rw [if_neg hp, if_neg (fun h => hp ((number_of_digits_eq_one _).1 h))]

/-- The text of the board has one newline for every row. -/
theorem board_text_newlines (g : gamma_t) : (board_text g).count '\n' = g.height := by
  have hline : ∀ y, (line_text g y).count '\n' = 0 := by
    intro y
    rw [List.count_eq_zero]
    intro hmem
    unfold line_text at hmem
    rw [List.mem_flatten] at hmem
    obtain ⟨l, hl, hc⟩ := hmem
    rw [List.mem_map] at hl
    obtain ⟨x, _, hx⟩ := hl
    rw [← hx] at hc
    unfold cell_text at hc
    rcases List.mem_append.1 hc with h | h
    · exact (token_chars g x y _ h).2 rfl
    · have := (List.mem_replicate.1 h).2
      exact absurd this (by decide)
  unfold board_text
  rw [List.count_flatten, List.map_map]
  have hone : ∀ i ∈ List.range g.height,
      (List.count '\n' ∘ fun i => line_text g (g.height - 1 - i) ++ ['\n']) i = 1 := by
    intro i _
    show List.count '\n' (line_text g (g.height - 1 - i) ++ ['\n']) = 1
    rw [List.count_append, hline]
    rfl
  rw [List.map_congr_left hone]
  simp

/-! ## The text of a board of more than `2^31` rows -/

theorem to_u64_of_lt (n : Nat) (h : n < 18446744073709551616) : to_u64 (n : Int) = n := by
  unfold to_u64; omega

/-- A board of more than `2^31` rows has one column, and the counter
`(int)height - 1` of the rows is negative: no row is written. -/
theorem to_int_tall (height : Nat) (h1 : INT_MAX + 1 < height) (h2 : height ≤ UINT32_MAX) :
    ¬ (to_int height - 1 < -2147483648) ∧ (to_int height - 1 + 1).toNat = 0 := by
  unfold to_int
  unfold INT_MAX at h1
  unfold UINT32_MAX at h2
  rw [if_neg (by unfold INT_MAX; omega)]
  omega

/-- On a board of more than `2^31` rows `gamma_board` returns the empty text. -/
theorem gamma_board_tall (g : gamma_t) (hw : 1 ≤ g.width)
    (hsize : g.width * g.height ≤ UINT32_MAX) (hp : g.players ≤ UINT32_MAX)
    (hh : INT_MAX + 1 < g.height) : gamma_board g = some [] := by
  have hwidth : g.width = 1 := by
    by_contra hne
    have h2 : 2 ≤ g.width := by omega
    have := Nat.mul_le_mul_right g.height h2
    unfold INT_MAX at hh
    unfold UINT32_MAX at hsize
    omega
  have hheight : g.height ≤ UINT32_MAX := by
    rw [hwidth, Nat.one_mul] at hsize
    exact hsize
  have hrows := to_int_tall g.height hh hheight
  unfold INT_MAX at hh
  unfold UINT32_MAX at hheight hp
  unfold gamma_board
  dsimp only
  by_cases hd : number_of_digits g.players = 1
  · rw [if_pos hd]
    have hmem : 0 < standard_board_memory_amount g := by
      unfold standard_board_memory_amount
      dsimp only
      rw [hwidth]
      have h1 : to_u32 (((1 : Nat) : Int) + 1) = 2 := by decide
      rw [h1]
      unfold to_u32
      omega
    unfold standard_board
    dsimp only
    rw [if_neg hrows.1, hrows.2]
    show (if ([] : List Char).length ≤ INT_MAX ∧ ([] : List Char).length
        < standard_board_memory_amount g then some [] else none) = some []
    rw [if_pos ⟨Nat.zero_le _, hmem⟩]
  · rw [if_neg hd]
    have hd10 : number_of_digits g.players ≤ 9 + 1 :=
      (number_of_digits_le _ 9).2 (by norm_num; omega)
    generalize number_of_digits g.players = d at hd10
    have hmem : 0 < multiple_digits_memory_amount g d := by
      have hprod : (d + 2) * g.height ≤ 12 * 4294967295 := Nat.mul_le_mul (by omega) hheight
      unfold multiple_digits_memory_amount
      dsimp only
      rw [hwidth]
      have h1 : to_u64 ((d : Int) + 1) = d + 1 := by unfold to_u64; omega
      have h2 : to_u64 (((d + 1 : Nat) : Int) * ((1 : Nat) : Int)) = d + 1 := by
        unfold to_u64; omega
      have h3 : to_u64 (((d + 1 : Nat) : Int) + 1) = d + 2 := by unfold to_u64; omega
      have h4 : to_u64 (((d + 2 : Nat) : Int) * (g.height : Int)) = (d + 2) * g.height := by
        rw [← Nat.cast_mul]
        exact to_u64_of_lt _ (by omega)
      have h5 : to_u64 ((((d + 2) * g.height : Nat) : Int) + 1) = (d + 2) * g.height + 1 := by
        have := to_u64_of_lt ((d + 2) * g.height + 1) (by omega)
        rw [← this]
        congr 1
      rw [h1, h2, h3, h4, h5]
      omega
    unfold board_for_multiple_digits_players
    dsimp only
    rw [if_neg hrows.1, hrows.2]
    show (if ([] : List Char).length ≤ INT_MAX ∧ ([] : List Char).length
        < multiple_digits_memory_amount g d then some [] else none) = some []
    rw [if_pos ⟨Nat.zero_le _, hmem⟩]

theorem game_tall_new : gamma_new 1 2147483649 1 1 = some game_tall := by rfl

theorem game_2_1_ten_new : gamma_new 2 1 10 2 = some game_2_1_ten := by rfl

theorem game_2_1_ten_played_reachable : reachable game_2_1_ten_played :=
  reachable.move _ _ _ _ (reachable.move _ _ _ _ (reachable.new 2 1 10 2 _ game_2_1_ten_new))

/-! ## The lines and the columns of the text of the board -/

/-- For at most 9 players a line of the text has one character for every field. -/
theorem line_text_standard (g : gamma_t) (hp : g.players ≤ 9) (y : Nat)
    (hown : ∀ x, x < g.width → g.board x y ≤ g.players) :
    (line_text g y).length = g.width := by
  unfold line_text
  rw [flatten_range_length _ 1 g.width, Nat.mul_one]
  intro x hx
  rw [(cell_text_standard g x y hp (hown x hx)).1]
  exact (cell_text_standard g x y hp (hown x hx)).2

/-- For more than 9 players a field of the text is its token, spaces up to the
number of digits of `players`, and one more space. -/
theorem cell_text_multiple_digits (g : gamma_t) (x y : Nat) (hp : 9 < g.players)
    (h : g.board x y ≤ g.players) :
    (token g x y).length ≤ decimal_digits g.players
      ∧ cell_text g x y
        = token g x y
          ++ List.replicate (decimal_digits g.players - (token g x y).length) ' ' ++ [' ']
      ∧ (cell_text g x y).length = decimal_digits g.players + 1 := by
  have hcw : column_width g = decimal_digits g.players + 1 := by
    unfold column_width
    rw [if_neg (by omega)]
  have hlen : (token g x y).length ≤ decimal_digits g.players := by
    rw [token_length, decimal_digits_eq]
    exact number_of_digits_mono _ _ h
  refine ⟨hlen, ?_, ?_⟩
  · unfold cell_text
    rw [hcw, List.append_assoc, ← List.replicate_succ']
    congr 2
    omega
  · rw [cell_text_length g x y (by omega), hcw]

/-- C25: in a state of a game of fewer than `10^9` players whose text fits the
`int` counter `k` of `gamma_board`, the function returns the text of `height`
lines that end in a newline, with one newline for every row: the line number
`i`, counted from 0, shows the row `height - 1 - i` by the tokens of its `width`
fields from left to right, a dot for a free field and the decimal number of the
owner otherwise; no token holds a space or a newline, and for at most 9 players
every token is one character and a line has `width` characters.  In a state of
a game of more than `2^31` rows `gamma_board` returns the empty text, without
any line. -/
theorem board_lines (g : gamma_t) (h : reachable g) :
    (g.players < 1000000000 → (column_width g * g.width + 1) * g.height ≤ INT_MAX →
      gamma_board g = some (board_text g)
        ∧ (board_text g).count '\n' = g.height
        ∧ (∀ x y c, c ∈ token g x y → c ≠ ' ' ∧ c ≠ '\n')
        ∧ (g.players ≤ 9 → ∀ y, y < g.height →
            (line_text g y).length = g.width
              ∧ ∀ x, x < g.width →
                cell_text g x y = token g x y ∧ (token g x y).length = 1))
      ∧ (g.players ≤ UINT32_MAX → INT_MAX + 1 < g.height →
          gamma_board g = some [] ∧ board_text g ≠ []) := by
  have hinv := reachable_inv g h
  have hown : ∀ x y, x < g.width → y < g.height → g.board x y ≤ g.players :=
    fun x y hx hy => hinv.owners { x := x, y := y } ⟨hx, hy⟩
  constructor
  · intro hmax hsize
    refine ⟨gamma_board_text g hinv.width_pos hinv.height_pos hown hmax hsize,
      board_text_newlines g, fun x y => token_chars g x y, ?_⟩
    intro hp y hy
    exact ⟨line_text_standard g hp y (fun x hx => hown x y hx hy),
      fun x hx => cell_text_standard g x y hp (hown x y hx hy)⟩
  · intro hp hh
    refine ⟨gamma_board_tall g hinv.width_pos hinv.size hp hh, ?_⟩
    intro heq
    have hcount := board_text_newlines g
    rw [heq] at hcount
    have hpos := hinv.height_pos
    simp at hcount
    omega

/-- The text of the board of 16 fields after the two moves, and the empty text
of the board of `2^31 + 1` rows. -/
theorem board_lines_witness :
    (game_4_4_played.players < 1000000000
      ∧ (column_width game_4_4_played * game_4_4_played.width + 1) * game_4_4_played.height
        ≤ INT_MAX
      ∧ board_text game_4_4_played
        = ['.', '.', '.', '.', '\n', '.', '.', '.', '.', '\n',
            '.', '1', '2', '.', '\n', '.', '.', '.', '.', '\n']
      ∧ gamma_board game_4_4_played = some (board_text game_4_4_played))
    ∧ (game_tall.players ≤ UINT32_MAX
      ∧ INT_MAX + 1 < game_tall.height
      ∧ gamma_board game_tall = some []
      ∧ board_text game_tall ≠ []) :=
  ⟨⟨by decide, by decide, by decide,
      ((board_lines game_4_4_played game_4_4_played_reachable).1 (by decide) (by decide)).1⟩,
    ⟨by decide, by decide,
      (board_lines game_tall (reachable.new 1 2147483649 1 1 _ game_tall_new)).2 (by decide)
        (by decide)⟩⟩

/-- C26: `gamma_board` takes `standard_board`, with fields of one character,
exactly for at most 9 players.  In a state of a game of more than 9 and fewer
than `10^9` players whose text fits the `int` counter `k`, every field of the
text has as many characters as `players` has decimal digits, and one space
more: first the token, which is the decimal number of the owner or a dot, then
spaces up to the number of digits of `players`, then the space that ends the
column, after the last column of a line too. -/
theorem board_columns (g : gamma_t) (h : reachable g) (hmax : g.players < 1000000000)
    (hsize : (column_width g * g.width + 1) * g.height ≤ INT_MAX) :
    gamma_board g
        = (if g.players ≤ 9 then standard_board g
          else board_for_multiple_digits_players g (decimal_digits g.players))
      ∧ gamma_board g = some (board_text g)
      ∧ (g.players ≤ 9 → ∀ x y, x < g.width → y < g.height →
          cell_text g x y = token g x y ∧ (cell_text g x y).length = 1)
      ∧ (9 < g.players → ∀ x y, x < g.width → y < g.height →
          (token g x y).length ≤ decimal_digits g.players
            ∧ cell_text g x y
              = token g x y
                ++ List.replicate (decimal_digits g.players - (token g x y).length) ' '
                ++ [' ']
            ∧ (cell_text g x y).length = decimal_digits g.players + 1) := by
  have hinv := reachable_inv g h
  have hown : ∀ x y, x < g.width → y < g.height → g.board x y ≤ g.players :=
    fun x y hx hy => hinv.owners { x := x, y := y } ⟨hx, hy⟩
  refine ⟨gamma_board_cases g,
    gamma_board_text g hinv.width_pos hinv.height_pos hown hmax hsize, ?_, ?_⟩
  · intro hp x y hx hy
    have hc := cell_text_standard g x y hp (hown x y hx hy)
    refine ⟨hc.1, ?_⟩
    rw [hc.1]
    exact hc.2
  · intro hp x y hx hy
    exact cell_text_multiple_digits g x y hp (hown x y hx hy)

/-- The field of player 7 in the text of a game of 10 players: the character
`7` and two spaces. -/
theorem board_columns_witness :
    game_2_1_ten_played.players < 1000000000
      ∧ (column_width game_2_1_ten_played * game_2_1_ten_played.width + 1)
          * game_2_1_ten_played.height ≤ INT_MAX
      ∧ cell_text game_2_1_ten_played 0 0 = ['7', ' ', ' ']
      ∧ gamma_board game_2_1_ten_played = some (board_text game_2_1_ten_played) :=
  ⟨by decide, by decide, by decide,
    (board_columns game_2_1_ten_played game_2_1_ten_played_reachable (by decide)
      (by decide)).2.1⟩

/-- In the game of 10 players in which player 7 owns `(0, 0)` and player 10 owns
`(1, 0)`, `gamma_board` returns the text `7␣␣10␣` and a newline; with the
numbers padded on the left and the columns separated by one space the text
would be `␣7␣10` and a newline. -/
theorem board_columns_not_left_padded :
    reachable game_2_1_ten_played
      ∧ gamma_board game_2_1_ten_played = some ['7', ' ', ' ', '1', '0', ' ', '\n']
      ∧ left_padded_text game_2_1_ten_played = [' ', '7', ' ', '1', '0', '\n']
      ∧ gamma_board game_2_1_ten_played ≠ some (left_padded_text game_2_1_ten_played) :=
  ⟨game_2_1_ten_played_reachable, by decide, by decide, by decide⟩

/-! ## The size of the game is fixed -/

/-- A call of `gamma_move` keeps the size of the board, the number of players
and the limit of areas. -/
theorem gamma_move_frame (g : gamma_t) (player x y : Nat) :
    (gamma_move g player x y).2.width = g.width
      ∧ (gamma_move g player x y).2.height = g.height
      ∧ (gamma_move g player x y).2.players = g.players
      ∧ (gamma_move g player x y).2.max_areas = g.max_areas := by
  cases hres : (gamma_move g player x y).1
  · rw [gamma_move_failed g player x y hres]; exact ⟨rfl, rfl, rfl, rfl⟩
  · rw [(gamma_move_state g player x y hres).2]; exact ⟨rfl, rfl, rfl, rfl⟩

/-- A call of `gamma_golden_move` keeps the size of the board, the number of
players and the limit of areas. -/
theorem gamma_golden_move_frame (g : gamma_t) (player x y : Nat) :
    (gamma_golden_move g player x y).2.width = g.width
      ∧ (gamma_golden_move g player x y).2.height = g.height
      ∧ (gamma_golden_move g player x y).2.players = g.players
      ∧ (gamma_golden_move g player x y).2.max_areas = g.max_areas := by
  cases hres : (gamma_golden_move g player x y).1
  · rw [gamma_golden_move_failed g player x y hres]; exact ⟨rfl, rfl, rfl, rfl⟩
  · rw [(gamma_golden_move_state g player x y hres).2]; exact ⟨rfl, rfl, rfl, rfl⟩

/-! ## The areas that a field splits into -/

/-- C31: for every state whose sizes are `uint32_t` values and every field
`(x, y)` of the board, with owner `o = board[x][y]`, `number_of_split_areas`
called for `o` at `(x, y)` leaves the state as it was before the call, the owner
of `(x, y)` included, and returns the value of `number_of_connected_areas` for
`o` at `(x, y)` on the board in which `(x, y)` is set to 0, which is the number
of areas of `o` around `(x, y)` on that board. -/
theorem split_areas_keeps_state (g : gamma_t) (ht : typed g) (x y : Nat)
    (hin : in_board g { x := x, y := y }) :
    (number_of_split_areas g (g.board x y) x y).1 = g
      ∧ (number_of_split_areas g (g.board x y) x y).1.board x y = g.board x y
      ∧ (number_of_split_areas g (g.board x y) x y).2
        = number_of_connected_areas (set_board g x y 0) (g.board x y) x y
      ∧ areas_around (set_board g x y 0) (g.board x y) x y
          (number_of_split_areas g (g.board x y) x y).2 := by
  rw [number_of_split_areas_eq]
  exact ⟨rfl, rfl, rfl,
    number_of_connected_areas_spec (set_board g x y 0) ht (g.board x y) x y hin⟩

/-- On the board of width 3 owned by player 1 the field `(1, 0)` splits the
area of player 1 into two, and the state after the count is the state before. -/
theorem split_areas_keeps_state_witness :
    typed game_3_1_played
      ∧ in_board game_3_1_played { x := 1, y := 0 }
      ∧ game_3_1_played.board 1 0 = 1
      ∧ (number_of_split_areas game_3_1_played 1 1 0).2 = 2
      ∧ (number_of_split_areas game_3_1_played (game_3_1_played.board 1 0) 1 0).1
        = game_3_1_played :=
  ⟨by decide, by decide, by decide, by decide,
    (split_areas_keeps_state game_3_1_played (by decide) 1 0 (by decide)).1⟩

/-! ## One formula for the areas after placing -/

/-- The number of areas around a field is 0 exactly when no neighbour belongs
to the player. -/
theorem number_of_connected_areas_zero_iff (g : gamma_t) (ht : typed g) (player x y : Nat)
    (hin : in_board g { x := x, y := y }) :
    (number_of_connected_areas g player x y = 0
        ↔ player_fields_around g player x y = false)
      ∧ (player_fields_around g player x y = true
        → 1 ≤ number_of_connected_areas g player x y) := by
  have hspec := number_of_connected_areas_spec g ht player x y hin
  have hiff := player_fields_around_iff g ht player x y hin
  have hpos : player_fields_around g player x y = true
      → 1 ≤ number_of_connected_areas g player x y :=
    fun h => areas_around_pos g player x y _ hspec (hiff.1 h)
  refine ⟨⟨?_, ?_⟩, hpos⟩
  · intro h0
    cases hp : player_fields_around g player x y
    · rfl
    · have := hpos hp
      omega
  · intro hp
    have hno : ¬ ∃ n, adjacent { x := x, y := y } n ∧ owns g player n := by
      intro h
      have := hiff.2 h
      rw [hp] at this
      exact Bool.noConfusion this
    exact areas_around_unique g player x y _ _ hspec (areas_around_zero g player x y hno)

/-- The two branches of the statement that updates `areas[player]` give
`areas[player] + 1 - number_of_connected_areas(...)` in `uint32_t`. -/
theorem areas_after_placing_eq (g : gamma_t) (ht : typed g) (player x y : Nat)
    (hin : in_board g { x := x, y := y }) :
    areas_after_placing g player x y
      = to_u32 ((g.areas player : Int) + 1 - number_of_connected_areas g player x y) := by
  have h := number_of_connected_areas_zero_iff g ht player x y hin
  unfold areas_after_placing
  cases hp : player_fields_around g player x y
  · have h0 := h.1.2 hp
    rw [h0]
    simp
  · simp only [Bool.not_true, Bool.false_eq_true, if_false]
    unfold to_u32
    omega

/-- C32: for every board whose sizes are `uint32_t` values, every player and
every field `(x, y)` of the board, `number_of_connected_areas` is 0 exactly when
`player_fields_around` is `false`, and at least 1 otherwise; so the statement
with two branches that `gamma_move` and `gamma_golden_move` execute gives
`areas[player] + 1 - number_of_connected_areas(g, player, x, y)`, in `uint32_t`
arithmetic in every state, and without wrap-around in the states of a game. -/
theorem areas_update_one_formula (g : gamma_t) (ht : typed g) (player x y : Nat)
    (hin : in_board g { x := x, y := y }) :
    (number_of_connected_areas g player x y = 0
        ↔ player_fields_around g player x y = false)
      ∧ (player_fields_around g player x y = true
        → 1 ≤ number_of_connected_areas g player x y)
      ∧ areas_after_placing g player x y
        = to_u32 ((g.areas player : Int) + 1 - number_of_connected_areas g player x y)
      ∧ ((gamma_move g player x y).1 = true →
          (gamma_move g player x y).2.areas player
            = to_u32 ((g.areas player : Int) + 1 - number_of_connected_areas g player x y))
      ∧ ((gamma_golden_move g player x y).1 = true →
          (gamma_golden_move g player x y).2.areas player
            = to_u32 ((g.areas player : Int) + 1 - number_of_connected_areas g player x y))
      ∧ (reachable g → 1 ≤ player → g.board x y ≠ player →
          number_of_connected_areas g player x y ≤ g.areas player
            ∧ areas_after_placing g player x y
              = g.areas player + 1 - number_of_connected_areas g player x y) := by
  have hzero := number_of_connected_areas_zero_iff g ht player x y hin
  have heq := areas_after_placing_eq g ht player x y hin
  refine ⟨hzero.1, hzero.2, heq, ?_, ?_, ?_⟩
  · intro hres
    rw [(gamma_move_state g player x y hres).2, ← heq]
    exact set_entry_same _ _ _
  · intro hres
    have hst := gamma_golden_move_state g player x y hres
    rw [hst.2, ← heq]
    show set_entry (set_entry g.areas player (areas_after_placing g player x y))
      (g.board x y) _ player = areas_after_placing g player x y
    rw [set_entry_other _ _ _ _ (Ne.symm hst.1.2.2.2.2.2.2.1)]
    exact set_entry_same _ _ _
  · intro hr hp hne
    obtain ⟨k, hk, hle, hafter, _⟩ :=
      areas_after_placing_spec g (reachable_inv g hr) player x y hp hin hne
    have hkn := areas_around_unique g player x y _ _ hk
      (number_of_connected_areas_spec g ht player x y hin)
    rw [← hkn]
    exact ⟨hle, hafter⟩

/-- Player 1 takes the field `(1, 0)` between its two fields on the board of
width 5: two areas around the field, and one area after the move. -/
theorem areas_update_one_formula_witness :
    typed game_5_1_played
      ∧ in_board game_5_1_played { x := 1, y := 0 }
      ∧ number_of_connected_areas game_5_1_played 1 1 0 = 2
      ∧ player_fields_around game_5_1_played 1 1 0 = true
      ∧ game_5_1_played.areas 1 = 2
      ∧ (gamma_move game_5_1_played 1 1 0).1 = true
      ∧ (gamma_move game_5_1_played 1 1 0).2.areas 1
        = to_u32 ((game_5_1_played.areas 1 : Int) + 1
            - number_of_connected_areas game_5_1_played 1 1 0) :=
  ⟨by decide, by decide, by decide, by decide, by decide, by decide,
    (areas_update_one_formula game_5_1_played (by decide) 1 1 0 (by decide)).2.2.2.1
      (by decide)⟩

/-! ## A golden move that is accepted is possible -/

/-- C33: in every state of a game with a `uint32_t` number of players, for every
player `p` and all `x` and `y`: when `gamma_golden_move` of `p` at `(x, y)`
returns `true`, `gamma_golden_possible` of `p` returns, and returns `true`, in
that state. -/
theorem golden_move_implies_possible (g : gamma_t) (h : reachable g)
    (hu : g.players ≤ UINT32_MAX) (p x y : Nat)
    (hres : (gamma_golden_move g p x y).1 = true) :
    gamma_golden_possible g p = some true := by
  obtain ⟨hp1, hp2, hx, hy, hflag, h0, hne, _⟩ := (gamma_golden_move_state g p x y hres).1
  obtain ⟨b, hb, hiff⟩ := gamma_golden_possible_spec g h hu p hp1 hp2
  have : b = true := hiff.2 ⟨hflag, { x := x, y := y }, ⟨hx, hy⟩, h0, hne⟩
  rw [hb, this]

/-- Player 2 can take the field `(1, 1)` of player 1 on the board of 16 fields,
and `gamma_golden_possible` says so. -/
theorem golden_move_implies_possible_witness :
    game_4_4_played.players ≤ UINT32_MAX
      ∧ (gamma_golden_move game_4_4_played 2 1 1).1 = true
      ∧ gamma_golden_possible game_4_4_played 2 = some true :=
  ⟨by decide, by decide,
    golden_move_implies_possible game_4_4_played game_4_4_played_reachable (by decide) 2 1 1
      (by decide)⟩

/-- C34: in the game made by `gamma_new(3, 1, 2, 1)` after `gamma_move(2, 0, 0)`
and `gamma_move(1, 2, 0)`, both accepted, `gamma_golden_possible` of player 1
returns `true` although `gamma_golden_move` of player 1 returns `false` for all
`x` and `y`: the only field of another player is `(0, 0)`, no neighbour of it
belongs to player 1, and player 1 has `max_areas = 1` areas already. -/
theorem golden_possible_but_no_golden_move :
    gamma_new 3 1 2 1 = some game_3_1
      ∧ (gamma_move game_3_1 2 0 0).1 = true
      ∧ (gamma_move (gamma_move game_3_1 2 0 0).2 1 2 0).1 = true
      ∧ reachable game_3_1_blocked
      ∧ gamma_golden_possible game_3_1_blocked 1 = some true
      ∧ (∀ x y, (gamma_golden_move game_3_1_blocked 1 x y).1 = false)
      ∧ game_3_1_blocked.board 0 0 = 2
      ∧ player_fields_around game_3_1_blocked 1 0 0 = false
      ∧ game_3_1_blocked.areas 1 = game_3_1_blocked.max_areas := by
  refine ⟨by rfl, by decide, by decide, ?_, by decide, ?_, by decide, by decide, by decide⟩
  · exact reachable.move _ _ _ _ (reachable.move _ _ _ _ (reachable.new 3 1 2 1 _ (by rfl)))
  · intro x y
    by_cases hout : 1 > game_3_1_blocked.players ∨ 1 ≤ 0 ∨ x ≥ game_3_1_blocked.width
        ∨ y ≥ game_3_1_blocked.height
    · unfold gamma_golden_move
      rw [if_pos hout]
    · have hx : x < 3 := by
        have : ¬ x ≥ game_3_1_blocked.width := fun h => hout (Or.inr (Or.inr (Or.inl h)))
        exact Nat.lt_of_not_le this
      have hy : y < 1 := by
        have : ¬ y ≥ game_3_1_blocked.height := fun h => hout (Or.inr (Or.inr (Or.inr h)))
        exact Nat.lt_of_not_le this
      have hy0 : y = 0 := by omega
      subst hy0
      interval_cases x <;> decide

/-! ## The size of the array of `standard_board` -/

theorem to_u32_cast (i : Int) : ((to_u32 i : Nat) : Int) = i % 4294967296 :=
  Int.toNat_of_nonneg (Int.emod_nonneg _ (by norm_num))

theorem to_u32_congr (a b : Int) (h : a ≡ b [ZMOD 4294967296]) : to_u32 a = to_u32 b :=
  congrArg Int.toNat h

/-- The size that `standard_board` computes is `(width + 1) * height + 1`
reduced modulo `2^32`. -/
theorem standard_board_memory_amount_eq (g : gamma_t) :
    standard_board_memory_amount g = ((g.width + 1) * g.height + 1) % 4294967296 := by
  unfold standard_board_memory_amount
  dsimp only
  have h1 : ((to_u32 ((g.width : Int) + 1) : Nat) : Int) * (g.height : Int)
      ≡ ((g.width : Int) + 1) * (g.height : Int) [ZMOD 4294967296] := by
    rw [to_u32_cast]
    exact (Int.mod_modEq _ _).mul_right _
  have h2 : ((to_u32 (((to_u32 ((g.width : Int) + 1) : Nat) : Int) * (g.height : Int)) : Nat)
        : Int) + 1
      ≡ ((g.width : Int) + 1) * (g.height : Int) + 1 [ZMOD 4294967296] := by
    rw [to_u32_cast]
    exact ((Int.mod_modEq _ _).trans h1).add_right 1
  have h3 : to_u32 (((to_u32 (((to_u32 ((g.width : Int) + 1) : Nat) : Int)
        * (g.height : Int)) : Nat) : Int) + 1)
      = to_u32 ((((g.width + 1) * g.height + 1 : Nat) : Int)) := by
    have : (((g.width + 1) * g.height + 1 : Nat) : Int)
        = ((g.width : Int) + 1) * (g.height : Int) + 1 := by push_cast; rfl
    rw [this]
    exact to_u32_congr _ _ h2
  rw [h3]
  unfold to_u32
  omega

/-- The rows that `standard_board` writes have `width + 1` characters each. -/
theorem standard_board_rows_length (g : gamma_t) :
    ∀ n, (standard_board_rows g n).length = (g.width + 1) * n := by
  have hrow : ∀ i j, (standard_board_row g i j).length = j := by
    intro i j
    induction j with
    | zero => rfl
    | succ j ih =>
      unfold standard_board_row
      rw [List.length_append, ih]
      rfl
  intro n
  induction n with
  | zero => rfl
  | succ n ih =>
    unfold standard_board_rows
    rw [List.length_append, List.length_append, ih, hrow]
    simp only [List.length_singleton]
    ring

/-- C37: the size of the array that `standard_board` allocates is
`(width + 1) * height + 1` reduced modulo `2^32`, and the text it has to hold
has `width + 1` characters for every row and the terminating zero; the size
is at least `(width + 1) * height + 1` exactly when that number is below
`2^32`.  For the game made by `gamma_new(2, 1431655766, 1, 1)` the size is 3,
the rows and the terminating zero take `2^32 + 3` characters, and
`gamma_board` has no defined result. -/
theorem board_buffer_size (g : gamma_t) :
    standard_board_memory_amount g = ((g.width + 1) * g.height + 1) % 4294967296
      ∧ (∀ n, (standard_board_rows g n).length + 1 = (g.width + 1) * n + 1)
      ∧ ((g.width + 1) * g.height + 1 ≤ standard_board_memory_amount g
          ↔ (g.width + 1) * g.height + 1 ≤ UINT32_MAX)
      ∧ gamma_new 2 1431655766 1 1 = some game_2_columns
      ∧ game_2_columns.width * game_2_columns.height ≤ UINT32_MAX
      ∧ standard_board_memory_amount game_2_columns = 3
      ∧ (standard_board_rows game_2_columns game_2_columns.height).length + 1 = 4294967299
      ∧ gamma_board game_2_columns = none := by
  have hmem := standard_board_memory_amount_eq g
  refine ⟨hmem, fun n => by rw [standard_board_rows_length], ?_, by rfl, by decide,
    by decide, ?_, ?_⟩
  · rw [hmem]
    unfold UINT32_MAX
    omega
  · rw [standard_board_rows_length]
    decide
  · have hd : number_of_digits game_2_columns.players = 1 := by decide
    have hrows := to_int_rows game_2_columns.height (by decide)
    unfold gamma_board
    dsimp only
    rw [if_pos hd]
    unfold standard_board
    dsimp only
    rw [if_neg hrows.1, hrows.2, standard_board_rows_length, if_neg (by decide)]

/-! ## Fields stay taken -/

/-- A move is rejected on a field that is not free. -/
theorem gamma_move_taken (g : gamma_t) (player x y : Nat) (h : g.board x y ≠ 0) :
    (gamma_move g player x y).1 = false := by
  unfold gamma_move
  by_cases hout : player > g.players ∨ player ≤ 0 ∨ x ≥ g.width ∨ y ≥ g.height
  · rw [if_pos hout]
  · rw [if_neg hout, if_pos (Or.inl h)]

/-- A call of `gamma_move` leaves the taken fields taken. -/
theorem gamma_move_board_taken (g : gamma_t) (player x y a b : Nat) (h : g.board a b ≠ 0) :
    (gamma_move g player x y).2.board a b ≠ 0 := by
  cases hres : (gamma_move g player x y).1
  · rw [gamma_move_failed g player x y hres]; exact h
  · have hst := gamma_move_state g player x y hres
    rw [hst.2]
    show (if a = x ∧ b = y then player else g.board a b) ≠ 0
    by_cases hc : a = x ∧ b = y
    · rw [if_pos hc]; have := hst.1.1; omega
    · rw [if_neg hc]; exact h

/-- A call of `gamma_golden_move` leaves the taken fields taken. -/
theorem gamma_golden_move_board_taken (g : gamma_t) (player x y a b : Nat)
    (h : g.board a b ≠ 0) : (gamma_golden_move g player x y).2.board a b ≠ 0 := by
  cases hres : (gamma_golden_move g player x y).1
  · rw [gamma_golden_move_failed g player x y hres]; exact h
  · have hst := gamma_golden_move_state g player x y hres
    rw [hst.2]
    show (if a = x ∧ b = y then player else g.board a b) ≠ 0
    by_cases hc : a = x ∧ b = y
    · rw [if_pos hc]; have := hst.1.1; omega
    · rw [if_neg hc]; exact h

/-- The states after the states of a game are states of a game. -/
theorem later_reachable (g g' : gamma_t) (hl : later g g') (h : reachable g) :
    reachable g' := by
  induction hl with
  | now => exact h
  | move g' player x y _ ih => exact reachable.move _ _ _ _ ih
  | golden_move g' player x y _ ih => exact reachable.golden_move _ _ _ _ ih

/-- A call of `gamma_move` in a state of a game does not increase
`all_free_fields`. -/
theorem gamma_move_free_le (g : gamma_t) (h : reachable g) (player x y : Nat) :
    (gamma_move g player x y).2.all_free_fields ≤ g.all_free_fields := by
  cases hres : (gamma_move g player x y).1
  · rw [gamma_move_failed g player x y hres]
  · have hst := gamma_move_state g player x y hres
    have hinv := reachable_inv g h
    rw [hst.2]
    show to_u64 ((g.all_free_fields : Int) - 1) ≤ g.all_free_fields
    have hpos : g.all_free_fields ≠ 0 := by
      rw [hinv.free]
      exact (count_owned_ne_zero g 0).2
        ⟨{ x := x, y := y }, ⟨hst.1.2.2.1, hst.1.2.2.2.1⟩, hst.1.2.2.2.2.1⟩
    have hle : g.all_free_fields ≤ UINT32_MAX := by
      rw [hinv.free]
      exact le_trans (count_owned_le g 0) hinv.size
    unfold UINT32_MAX at hle
    unfold to_u64
    omega

/-- A call of `gamma_golden_move` does not change `all_free_fields`. -/
theorem gamma_golden_move_free (g : gamma_t) (player x y : Nat) :
    (gamma_golden_move g player x y).2.all_free_fields = g.all_free_fields := by
  cases hres : (gamma_golden_move g player x y).1
  · rw [gamma_golden_move_failed g player x y hres]
  · rw [(gamma_golden_move_state g player x y hres).2]
    rfl

/-- The taken fields and the number of free fields in a later state. -/
theorem later_taken (g g' : gamma_t) (hl : later g g') :
    (∀ a b, g.board a b ≠ 0 → g'.board a b ≠ 0)
      ∧ (reachable g → g'.all_free_fields ≤ g.all_free_fields) := by
  induction hl with
  | now => exact ⟨fun _ _ h => h, fun _ => le_refl _⟩
  | move g' player x y hl ih =>
    refine ⟨fun a b h => gamma_move_board_taken g' player x y a b (ih.1 a b h), fun hr => ?_⟩
    exact le_trans (gamma_move_free_le g' (later_reachable g g' hl hr) player x y) (ih.2 hr)
  | golden_move g' player x y hl ih =>
    refine ⟨fun a b h => gamma_golden_move_board_taken g' player x y a b (ih.1 a b h),
      fun hr => ?_⟩
    rw [gamma_golden_move_free]
    exact ih.2 hr

/-- C35: in any sequence of calls of `gamma_move` and `gamma_golden_move`,
successful or not, a field with an owner other than 0 never has owner 0 again
and every later `gamma_move` to it, by any player, returns `false`; this holds
for the field of a successful `gamma_move` in particular; and in a game
`all_free_fields` never increases. -/
theorem taken_fields_stay_taken (g g' : gamma_t) (hl : later g g') :
    (∀ x y, g.board x y ≠ 0 →
        g'.board x y ≠ 0 ∧ ∀ q, (gamma_move g' q x y).1 = false)
      ∧ (reachable g → g'.all_free_fields ≤ g.all_free_fields)
      ∧ (∀ g0 player x y, (gamma_move g0 player x y).1 = true →
          g = (gamma_move g0 player x y).2 → ∀ q, (gamma_move g' q x y).1 = false) := by
  have h := later_taken g g' hl
  refine ⟨fun x y hne => ⟨h.1 x y hne, fun q => gamma_move_taken g' q x y (h.1 x y hne)⟩,
    h.2, ?_⟩
  intro g0 player x y hres hg q
  apply gamma_move_taken g' q x y
  apply h.1 x y
  rw [hg, (gamma_move_state g0 player x y hres).2]
  show (if x = x ∧ y = y then player else g0.board x y) ≠ 0
  rw [if_pos ⟨rfl, rfl⟩]
  have := (gamma_move_state g0 player x y hres).1.1
  omega

/-- After player 1 took the field `(1, 1)` of the board of 16 fields and player
2 moved, no player can move to `(1, 1)`, and fewer fields are free. -/
theorem taken_fields_stay_taken_witness :
    later (gamma_move game_4_4 1 1 1).2 game_4_4_played
      ∧ (gamma_move game_4_4 1 1 1).1 = true
      ∧ reachable (gamma_move game_4_4 1 1 1).2
      ∧ (gamma_move game_4_4 1 1 1).2.all_free_fields = 15
      ∧ game_4_4_played.all_free_fields = 14
      ∧ game_4_4_played.all_free_fields ≤ (gamma_move game_4_4 1 1 1).2.all_free_fields
      ∧ ∀ q, (gamma_move game_4_4_played q 1 1).1 = false :=
  ⟨later.move _ _ 2 2 1 (later.now _), by decide,
    reachable.move _ _ _ _ game_4_4_reachable, by decide, by decide,
    (taken_fields_stay_taken (gamma_move game_4_4 1 1 1).2 game_4_4_played
      (later.move _ _ 2 2 1 (later.now _))).2.1 (reachable.move _ _ _ _ game_4_4_reachable),
    (taken_fields_stay_taken (gamma_move game_4_4 1 1 1).2 game_4_4_played
      (later.move _ _ 2 2 1 (later.now _))).2.2 game_4_4 1 1 1 (by decide) rfl⟩

/-! ## What a successful move leaves unchanged -/

/-- C36: a successful `gamma_move` of `player` at `(x, y)` changes no field of
the board other than `(x, y)`, no entry of `busy_fields` or `areas` other than
that of `player`, and no flag of a golden move; a successful `gamma_golden_move`
of `player` at `(x, y)` changes no field of the board other than `(x, y)`, no
entry of `busy_fields` or `areas` other than those of `player` and of the owner
the field had, no flag of a golden move other than that of `player`, and not
`all_free_fields`. -/
theorem moves_change_nothing_else (g : gamma_t) (player x y : Nat) :
    ((gamma_move g player x y).1 = true →
      (∀ a b, ¬ (a = x ∧ b = y) → (gamma_move g player x y).2.board a b = g.board a b)
        ∧ (∀ q, q ≠ player →
            (gamma_move g player x y).2.busy_fields q = g.busy_fields q
              ∧ (gamma_move g player x y).2.areas q = g.areas q)
        ∧ (∀ q, (gamma_move g player x y).2.golden_move_available q
            = g.golden_move_available q))
      ∧ ((gamma_golden_move g player x y).1 = true →
        (∀ a b, ¬ (a = x ∧ b = y) →
            (gamma_golden_move g player x y).2.board a b = g.board a b)
          ∧ (∀ q, q ≠ player → q ≠ g.board x y →
              (gamma_golden_move g player x y).2.busy_fields q = g.busy_fields q
                ∧ (gamma_golden_move g player x y).2.areas q = g.areas q)
          ∧ (∀ q, q ≠ player →
              (gamma_golden_move g player x y).2.golden_move_available q
                = g.golden_move_available q)
          ∧ (gamma_golden_move g player x y).2.all_free_fields = g.all_free_fields) := by
  constructor
  · intro hres
    rw [(gamma_move_state g player x y hres).2]
    refine ⟨?_, ?_, fun _ => rfl⟩
    · intro a b hab
      show (if a = x ∧ b = y then player else g.board a b) = g.board a b
      rw [if_neg hab]
    · intro q hq
      exact ⟨set_entry_other _ _ _ _ hq, set_entry_other _ _ _ _ hq⟩
  · intro hres
    rw [(gamma_golden_move_state g player x y hres).2]
    refine ⟨?_, ?_, ?_, rfl⟩
    · intro a b hab
      show (if a = x ∧ b = y then player else g.board a b) = g.board a b
      rw [if_neg hab]
    · intro q hq ho
      constructor
      · show set_entry (set_entry g.busy_fields (g.board x y) _) player _ q = g.busy_fields q
        rw [set_entry_other _ _ _ _ hq, set_entry_other _ _ _ _ ho]
      · show set_entry (set_entry g.areas player _) (g.board x y) _ q = g.areas q
        rw [set_entry_other _ _ _ _ ho, set_entry_other _ _ _ _ hq]
    · intro q hq
      exact set_entry_other _ _ _ _ hq

/-- The move of player 2 to `(2, 1)` on the board of 16 fields leaves the field
and the counters of player 1 as they were, and so does the golden move of
player 2 to `(1, 1)` for the field `(2, 1)` and the flag of player 1. -/
theorem moves_change_nothing_else_witness :
    (gamma_move (gamma_move game_4_4 1 1 1).2 2 2 1).1 = true
      ∧ game_4_4_played.board 1 1 = (gamma_move game_4_4 1 1 1).2.board 1 1
      ∧ game_4_4_played.busy_fields 1 = (gamma_move game_4_4 1 1 1).2.busy_fields 1
      ∧ (gamma_golden_move game_4_4_played 2 1 1).1 = true
      ∧ (gamma_golden_move game_4_4_played 2 1 1).2.board 2 1 = game_4_4_played.board 2 1
      ∧ (gamma_golden_move game_4_4_played 2 1 1).2.golden_move_available 1
        = game_4_4_played.golden_move_available 1 :=
  ⟨by decide,
    ((moves_change_nothing_else (gamma_move game_4_4 1 1 1).2 2 2 1).1 (by decide)).1 1 1
      (by decide),
    (((moves_change_nothing_else (gamma_move game_4_4 1 1 1).2 2 2 1).1 (by decide)).2.1 1
      (by decide)).1,
    by decide,
    ((moves_change_nothing_else game_4_4_played 2 1 1).2 (by decide)).1 2 1 (by decide),
    ((moves_change_nothing_else game_4_4_played 2 1 1).2 (by decide)).2.2.1 1 (by decide)⟩

/-! ## The golden move that has not been made -/

/-- In a state of a game, a player whose flag is set has made no successful
golden move. -/
theorem flag_uncaptured (g : gamma_t) (h : reachable g) (p : Nat) :
    g.golden_move_available p = true → uncaptured p g := by
  induction h with
  | new width height players areas g hnew =>
    intro _
    exact uncaptured.new width height players areas g hnew
  | move g player x y _ ih =>
    intro hflag
    rw [(gamma_move_flags g player x y).1] at hflag
    exact uncaptured.move g player x y (ih hflag)
  | golden_move g player x y _ ih =>
    intro hflag
    by_cases hc : player ≠ p ∨ (gamma_golden_move g player x y).1 = false
    · have hq : p ≠ player ∨ (gamma_golden_move g player x y).1 = false := by
        rcases hc with hc | hc
        · exact Or.inl (Ne.symm hc)
        · exact Or.inr hc
      rw [(gamma_golden_move_flags g player x y).1 p hq] at hflag
      exact uncaptured.golden_move g player x y (ih hflag) hc
    · simp only [not_or, ne_eq, not_not, Bool.not_eq_false] at hc
      obtain ⟨hpp, hres⟩ := hc
      subst hpp
      have := (gamma_golden_move_flags g player x y).2.1 hres
      rw [hflag] at this
      exact Bool.noConfusion this

/-- In a game of fewer than `2^32 - 1` players, the flag of a player in
`[1, players]` is set exactly when the player has made no successful golden
move. -/
theorem flag_iff_uncaptured (g : gamma_t) (h : reachable g) (hmax : g.players < UINT32_MAX)
    (p : Nat) (hp1 : 1 ≤ p) (hp2 : p ≤ g.players) :
    g.golden_move_available p = true ↔ uncaptured p g :=
  ⟨flag_uncaptured g h p, fun hu => uncaptured_flag p g hu hmax hp1 hp2⟩

/-- In a game of `2^32 - 1` players no flag is set, in any state. -/
theorem reachable_max_players_flag (g : gamma_t) (h : reachable g)
    (hmax : g.players = UINT32_MAX) (p : Nat) : g.golden_move_available p = false := by
  cases hflag : g.golden_move_available p
  · rfl
  · have := reachable_flags g h p hflag
    rw [hmax] at this
    have h0 : to_u32 ((UINT32_MAX : Int) + 1) = 0 := by decide
    rw [h0] at this
    omega

/-- C7: in a state of a game of fewer than `2^32 - 1` players,
`gamma_golden_move` returns `true` exactly when `player` is in `[1, players]`,
the field `(x, y)` is on the board, `player` has made no successful golden move
before, the owner of the field is neither 0 nor `player`, it is not so that both
no neighbour of `(x, y)` on the board is owned by `player` and `areas[player]`
equals `max_areas`, and `areas[owner] + split - 1 ≤ max_areas`, where `split` is
the value of `number_of_split_areas` for the owner and the field and the sum is
the sum of the integers.  In a state of a game of `2^32 - 1` players
`gamma_golden_move` returns `false`, whatever its arguments. -/
theorem golden_move_true_iff (g : gamma_t) (h : reachable g) (player x y : Nat) :
    (g.players < UINT32_MAX →
      ((gamma_golden_move g player x y).1 = true
        ↔ (1 ≤ player ∧ player ≤ g.players) ∧ x < g.width ∧ y < g.height
          ∧ uncaptured player g
          ∧ (g.board x y ≠ 0 ∧ g.board x y ≠ player)
          ∧ ¬ ((¬ ∃ n, adjacent { x := x, y := y } n ∧ owns g player n)
            ∧ g.areas player = g.max_areas)
          ∧ (g.areas (g.board x y) : Int) + (number_of_split_areas g (g.board x y) x y).2 - 1
            ≤ g.max_areas))
      ∧ (g.players = UINT32_MAX → (gamma_golden_move g player x y).1 = false) := by
  constructor
  · intro hmax
    rw [golden_move_flag_iff.2 g player x y h]
    constructor
    · rintro ⟨hp, hx, hy, hflag, hrest⟩
      exact ⟨hp, hx, hy, flag_uncaptured g h player hflag, hrest⟩
    · rintro ⟨hp, hx, hy, hu, hrest⟩
      exact ⟨hp, hx, hy, uncaptured_flag player g hu hmax hp.1 hp.2, hrest⟩
  · intro hmax
    exact gamma_golden_move_unavailable g player x y
      (reachable_max_players_flag g h hmax player)

/-- In the game made by `gamma_new(2, 1, 4294967295, 2)` after
`gamma_move(2, 0, 0)`, player 1 has made no golden move and every condition on
a golden move of player 1 to `(0, 0)` holds, yet it is rejected; in the game of
two players on 16 fields the golden move of player 2 to `(1, 1)` is accepted,
and player 2 has made no golden move before. -/
theorem golden_move_true_iff_witness :
    (gamma_new 2 1 4294967295 2 = some game_max_players_2_1
      ∧ (gamma_move game_max_players_2_1 2 0 0).1 = true
      ∧ game_max_players_2_1_played.players = UINT32_MAX
      ∧ (1 ≤ 1 ∧ 1 ≤ game_max_players_2_1_played.players)
      ∧ 0 < game_max_players_2_1_played.width ∧ 0 < game_max_players_2_1_played.height
      ∧ uncaptured 1 game_max_players_2_1_played
      ∧ (game_max_players_2_1_played.board 0 0 ≠ 0
        ∧ game_max_players_2_1_played.board 0 0 ≠ 1)
      ∧ ¬ ((¬ ∃ n, adjacent { x := 0, y := 0 } n ∧ owns game_max_players_2_1_played 1 n)
        ∧ game_max_players_2_1_played.areas 1 = game_max_players_2_1_played.max_areas)
      ∧ (game_max_players_2_1_played.areas (game_max_players_2_1_played.board 0 0) : Int)
          + (number_of_split_areas game_max_players_2_1_played
              (game_max_players_2_1_played.board 0 0) 0 0).2 - 1
        ≤ game_max_players_2_1_played.max_areas
      ∧ (gamma_golden_move game_max_players_2_1_played 1 0 0).1 = false)
    ∧ (game_4_4_played.players < UINT32_MAX
      ∧ (gamma_golden_move game_4_4_played 2 1 1).1 = true
      ∧ uncaptured 2 game_4_4_played) :=
  ⟨⟨by rfl, by decide, by rfl, by decide, by decide, by decide,
      uncaptured.move _ 2 0 0 (uncaptured.new 2 1 4294967295 2 _ (by rfl)),
      by decide,
      fun hc => absurd hc.2 (by decide),
      by decide,
      (golden_move_true_iff game_max_players_2_1_played
        (reachable.move _ 2 0 0 (reachable.new 2 1 4294967295 2 _ (by rfl))) 1 0 0).2
        (by rfl)⟩,
    ⟨by decide, by decide,
      (((golden_move_true_iff game_4_4_played game_4_4_played_reachable 2 1 1).1
        (by decide)).1 (by decide)).2.2.2.1⟩⟩

/-- C18: in a state of a game of fewer than `2^32 - 1` players and for every
player `p` in `[1, players]`, `gamma_golden_possible` returns, and it returns
`true` exactly when `p` has made no successful golden move and some field of
the board is owned by a player other than `p`.  In a state of a game of
`2^32 - 1` players `gamma_golden_possible` returns `false`. -/
theorem golden_possible_iff (g : gamma_t) (h : reachable g) (p : Nat) (hp1 : 1 ≤ p)
    (hp2 : p ≤ g.players) :
    (g.players < UINT32_MAX →
      ∃ b, gamma_golden_possible g p = some b
        ∧ (b = true ↔ uncaptured p g
          ∧ ∃ f, in_board g f ∧ g.board f.x f.y ≠ 0 ∧ g.board f.x f.y ≠ p))
      ∧ (g.players = UINT32_MAX → gamma_golden_possible g p = some false) := by
  constructor
  · intro hmax
    obtain ⟨b, hb, hiff⟩ := gamma_golden_possible_spec g h (le_of_lt hmax) p hp1 hp2
    refine ⟨b, hb, ?_⟩
    rw [hiff, flag_iff_uncaptured g h hmax p hp1 hp2]
  · intro hmax
    unfold gamma_golden_possible
    rw [if_neg (by omega), if_neg]
    rw [reachable_max_players_flag g h hmax p]
    exact Bool.false_ne_true

/-- In the game made by `gamma_new(2, 1, 4294967295, 2)` after
`gamma_move(2, 0, 0)`, player 1 has made no golden move and player 2 owns the
field `(0, 0)`, yet `gamma_golden_possible` of player 1 returns `false`; in the
game of two players on 16 fields it returns `true` for player 1. -/
theorem golden_possible_iff_witness :
    (game_max_players_2_1_played.players = UINT32_MAX
      ∧ (1 ≤ 1 ∧ 1 ≤ game_max_players_2_1_played.players)
      ∧ uncaptured 1 game_max_players_2_1_played
      ∧ in_board game_max_players_2_1_played { x := 0, y := 0 }
      ∧ game_max_players_2_1_played.board 0 0 = 2
      ∧ gamma_golden_possible game_max_players_2_1_played 1 = some false)
    ∧ (game_4_4_played.players < UINT32_MAX
      ∧ gamma_golden_possible game_4_4_played 1 = some true
      ∧ ∃ b, gamma_golden_possible game_4_4_played 1 = some b
        ∧ (b = true ↔ uncaptured 1 game_4_4_played
          ∧ ∃ f, in_board game_4_4_played f ∧ game_4_4_played.board f.x f.y ≠ 0
            ∧ game_4_4_played.board f.x f.y ≠ 1)) :=
  ⟨⟨by rfl, by decide,
      uncaptured.move _ 2 0 0 (uncaptured.new 2 1 4294967295 2 _ (by rfl)),
      by decide, by decide,
      (golden_possible_iff game_max_players_2_1_played
        (reachable.move _ 2 0 0 (reachable.new 2 1 4294967295 2 _ (by rfl))) 1 (by decide)
        (by decide)).2 (by rfl)⟩,
    ⟨by decide, by decide,
      (golden_possible_iff game_4_4_played game_4_4_played_reachable 1 (by decide)
        (by decide)).1 (by decide)⟩⟩

/-! ## The functions that ask about a game leave the state as it is -/

theorem run_then_eq {α β : Type} {first : run_t α} {next : α → run_t β} {g g' : gamma_t}
    {a : α} (h : first g = some (a, g')) : run_then first next g = next a g' := by
  unfold run_then
  rw [h]

theorem run_then_none {α β : Type} {first : run_t α} {next : α → run_t β} {g : gamma_t}
    (h : first g = none) : run_then first next g = none := by
  unfold run_then
  rw [h]

theorem read_board_eq (g : gamma_t) (x y : Nat) (hx : x < g.width) (hy : y < g.height) :
    read_board x y g = some (g.board x y, g) := by
  unfold read_board board_at
  rw [if_pos ⟨hx, hy⟩]
  rfl

theorem read_entry_eq {α : Type} (array : gamma_t → Nat → α) (g : gamma_t) (i : Nat)
    (h : i ≤ g.players) : read_entry array i g = some (array g i, g) := by
  unfold read_entry entry_at
  rw [if_pos h]
  rfl

theorem owner_is_run_eq (g : gamma_t) (x y player : Nat) (hx : x < g.width)
    (hy : y < g.height) : owner_is_run x y player g = some (g.board x y == player, g) := by
  unfold owner_is_run
  rw [run_then_eq (read_board_eq g x y hx hy)]
  rfl

theorem guarded_owner_is_run_eq (g : gamma_t) (guard : Prop) [Decidable guard]
    (x y player : Nat) (hx : guard → x < g.width) (hy : guard → y < g.height) :
    (if guard then owner_is_run x y player else run_value false) g
      = some (decide guard && g.board x y == player, g) := by
  by_cases h : guard
  · rw [if_pos h, owner_is_run_eq g x y player (hx h) (hy h)]
    simp [h]
  · rw [if_neg h]
    simp [h, run_value]

theorem bounded_owner_is_run_eq (g : gamma_t) (member : gamma_t → Nat) (c x y player : Nat)
    (hx : c + 1 < member g → x < g.width) (hy : c + 1 < member g → y < g.height) :
    (if c ≠ UINT32_MAX then
        run_then (read_member member) fun (bound : Nat) =>
        if c + 1 < bound then owner_is_run x y player else run_value false
      else run_value false) g
      = some (decide (c ≠ UINT32_MAX ∧ c + 1 < member g) && g.board x y == player, g) := by
  by_cases h1 : c ≠ UINT32_MAX
  · rw [if_pos h1, run_then_eq (rfl : read_member member g = some (member g, g))]
    by_cases h2 : c + 1 < member g
    · rw [if_pos h2, owner_is_run_eq g x y player (hx h2) (hy h2)]
      simp [h1, h2]
    · rw [if_neg h2]
      simp [h2, run_value]
  · rw [if_neg h1]
    simp [h1, run_value]

theorem player_fields_around_run_eq (g : gamma_t) (player x y : Nat) (hx : x < g.width)
    (hy : y < g.height) :
    player_fields_around_run player x y g = some (player_fields_around g player x y, g) := by
  have hvalue : player_fields_around g player x y
      = (decide (x ≠ 0) && g.board (x - 1) y == player
        || (decide (x ≠ UINT32_MAX ∧ x + 1 < g.width) && g.board (x + 1) y == player)
        || (decide (y ≠ 0) && g.board x (y - 1) == player)
        || (decide (y ≠ UINT32_MAX ∧ y + 1 < g.height) && g.board x (y + 1) == player)) := by
    unfold player_fields_around
    simp only [bne, Bool.decide_and, decide_not, beq_iff_eq, ne_eq]
    rfl
  rw [hvalue]
  unfold player_fields_around_run
  rw [run_then_eq (guarded_owner_is_run_eq g (x ≠ 0) (x - 1) y player (fun _ => by omega)
    (fun _ => hy))]
  cases hleft : (decide (x ≠ 0) && g.board (x - 1) y == player)
  · rw [if_neg Bool.false_ne_true,
      run_then_eq (bounded_owner_is_run_eq g gamma_t.width x (x + 1) y player
        (fun h => h) (fun _ => hy))]
    cases hright : (decide (x ≠ UINT32_MAX ∧ x + 1 < g.width) && g.board (x + 1) y == player)
    · rw [if_neg Bool.false_ne_true,
        run_then_eq (guarded_owner_is_run_eq g (y ≠ 0) x (y - 1) player (fun _ => hx)
          (fun _ => by omega))]
      cases hlower : (decide (y ≠ 0) && g.board x (y - 1) == player)
      · rw [if_neg Bool.false_ne_true,
          bounded_owner_is_run_eq g gamma_t.height y x (y + 1) player (fun _ => hx) (fun h => h)]
        rfl
      · rw [if_pos rfl]
        rfl
    · rw [if_pos rfl]
      rfl
  · rw [if_pos rfl]
    rfl

theorem count_free_fields_column_run_eq (g : gamma_t) (player x : Nat) (hx : x < g.width) :
    ∀ n, n ≤ g.height →
      count_free_fields_column_run player x n g
        = some (count_free_fields_column g player x n, g) := by
  intro n
  induction n with
  | zero => intro _; rfl
  | succ n ih =>
    intro hn
    unfold count_free_fields_column_run count_free_fields_column
    rw [run_then_eq (ih (by omega)),
      run_then_eq (player_fields_around_run_eq g player x n hx (by omega))]
    cases haround : player_fields_around g player x n
    · rw [if_neg Bool.false_ne_true]
      rfl
    · rw [if_pos rfl, run_then_eq (owner_is_run_eq g x n 0 hx (by omega))]
      rfl

theorem count_free_fields_upto_run_eq (g : gamma_t) (player : Nat) :
    ∀ n, n ≤ g.width →
      count_free_fields_upto_run player n g = some (count_free_fields_upto g player n, g) := by
  intro n
  induction n with
  | zero => intro _; rfl
  | succ n ih =>
    intro hn
    unfold count_free_fields_upto_run count_free_fields_upto
    rw [run_then_eq (ih (by omega)),
      run_then_eq (rfl : read_member gamma_t.height g = some (g.height, g)),
      run_then_eq (count_free_fields_column_run_eq g player n (by omega) g.height (le_refl _))]
    rfl

theorem count_free_fields_run_eq (g : gamma_t) (player : Nat) :
    count_free_fields_run player g = some (count_free_fields g player, g) := by
  unfold count_free_fields_run
  rw [run_then_eq (rfl : read_member gamma_t.width g = some (g.width, g)),
    run_then_eq (count_free_fields_upto_run_eq g player g.width (le_refl _))]
  rfl

/-- The function `gamma_busy_fields` returns in every state, with the value of
`gamma_busy_fields` above, and leaves the state as it is. -/
theorem gamma_busy_fields_run_eq (g : gamma_t) (player : Nat) :
    gamma_busy_fields_run player g = some (gamma_busy_fields g player, g) := by
  unfold gamma_busy_fields_run gamma_busy_fields
  rw [run_then_eq (rfl : read_member gamma_t.players g = some (g.players, g))]
  by_cases h : player > g.players ∨ player ≤ 0
  · rw [if_pos h, if_pos h]
    rfl
  · rw [if_neg h, if_neg h]
    exact read_entry_eq gamma_t.busy_fields g player (by omega)

/-- The function `gamma_free_fields` returns in every state, with the value of
`gamma_free_fields` above, and leaves the state as it is. -/
theorem gamma_free_fields_run_eq (g : gamma_t) (player : Nat) :
    gamma_free_fields_run player g = some (gamma_free_fields g player, g) := by
  unfold gamma_free_fields_run gamma_free_fields
  rw [run_then_eq (rfl : read_member gamma_t.players g = some (g.players, g))]
  by_cases h : player > g.players ∨ player ≤ 0
  · rw [if_pos h, if_pos h]
    rfl
  · rw [if_neg h, if_neg h, run_then_eq (read_entry_eq gamma_t.areas g player (by omega)),
      run_then_eq (rfl : read_member gamma_t.max_areas g = some (g.max_areas, g))]
    by_cases hlt : g.areas player < g.max_areas
    · rw [if_pos hlt, if_pos hlt]
      rfl
    · rw [if_neg hlt, if_neg hlt]
      exact count_free_fields_run_eq g player

theorem busy_fields_available_loop_run_eq (g : gamma_t) (num player : Nat)
    (hnum : num ≤ g.players) :
    ∀ fuel i, busy_fields_available_loop_run num player fuel i g
      = (busy_fields_available_loop g.busy_fields num player fuel i).map (fun b => (b, g)) := by
  intro fuel
  induction fuel with
  | zero => intro i; rfl
  | succ fuel ih =>
    intro i
    unfold busy_fields_available_loop_run busy_fields_available_loop
    by_cases hle : i ≤ num
    · rw [if_pos hle, if_pos hle,
        run_then_eq (read_entry_eq gamma_t.busy_fields g i (by omega))]
      by_cases hc : g.busy_fields i ≠ 0 ∧ i ≠ player
      · rw [if_pos hc, if_pos hc]
        rfl
      · rw [if_neg hc, if_neg hc]
        exact ih _
    · rw [if_neg hle, if_neg hle]
      rfl

/-- The function `gamma_golden_possible`, when it returns, returns the value of
`gamma_golden_possible` above and leaves the state as it is; it does not return
exactly when `gamma_golden_possible` above is `none`. -/
theorem gamma_golden_possible_run_eq (g : gamma_t) (player : Nat) :
    gamma_golden_possible_run player g
      = (gamma_golden_possible g player).map (fun b => (b, g)) := by
  unfold gamma_golden_possible_run gamma_golden_possible
  rw [run_then_eq (rfl : read_member gamma_t.players g = some (g.players, g))]
  by_cases h : player > g.players ∨ player ≤ 0
  · rw [if_pos h, if_pos h]
    rfl
  · rw [if_neg h, if_neg h,
      run_then_eq (read_entry_eq gamma_t.golden_move_available g player (by omega))]
    by_cases hf : g.golden_move_available player = true
    · rw [if_pos hf, if_pos hf,
        run_then_eq (rfl : read_member gamma_t.players g = some (g.players, g))]
      unfold busy_fields_available_run
      rw [busy_fields_available_loop_run_eq g g.players player (le_refl _)]
      unfold busy_fields_available
      cases busy_fields_available_loop g.busy_fields g.players player (UINT32_MAX + 1) 1 with
      | none => rfl
      | some b => cases b <;> rfl
    · rw [if_neg hf, if_neg hf]
      rfl

theorem standard_board_field_run_eq (g : gamma_t) (j i : Nat) (hj : j < g.width)
    (hi : i < g.height) :
    standard_board_field_run j i g = some (standard_board_field g j i, g) := by
  unfold standard_board_field_run standard_board_field
  rw [run_then_eq (read_board_eq g j i hj hi)]
  by_cases h : g.board j i ≠ 0
  · rw [if_pos h, if_pos h, run_then_eq (read_board_eq g j i hj hi)]
    rfl
  · rw [if_neg h, if_neg h]
    rfl

theorem standard_board_row_run_eq (g : gamma_t) (i : Nat) (hi : i < g.height) :
    ∀ j, j ≤ g.width → standard_board_row_run i j g = some (standard_board_row g i j, g) := by
  intro j
  induction j with
  | zero => intro _; rfl
  | succ j ih =>
    intro hj
    unfold standard_board_row_run standard_board_row
    rw [run_then_eq (ih (by omega)),
      run_then_eq (standard_board_field_run_eq g j i (by omega) hi)]
    rfl

theorem standard_board_rows_run_eq (g : gamma_t) :
    ∀ n, n ≤ g.height →
      standard_board_rows_run g.width n g = some (standard_board_rows g n, g) := by
  intro n
  induction n with
  | zero => intro _; rfl
  | succ n ih =>
    intro hn
    unfold standard_board_rows_run standard_board_rows
    rw [run_then_eq (standard_board_row_run_eq g n (by omega) g.width (le_refl _)),
      run_then_eq (ih (by omega))]
    rfl

theorem to_int_rows_le (height : Nat) : (to_int height - 1 + 1).toNat ≤ height := by
  unfold to_int
  split_ifs <;> omega

theorem standard_board_run_eq (g : gamma_t) :
    standard_board_run g = (standard_board g).map (fun text => (text, g)) := by
  unfold standard_board_run standard_board standard_board_memory_amount
  rw [run_then_eq (rfl : read_member gamma_t.width g = some (g.width, g)),
    run_then_eq (rfl : read_member gamma_t.height g = some (g.height, g))]
  dsimp only
  by_cases hi : to_int g.height - 1 < -2147483648
  · rw [if_pos hi, if_pos hi]
    rfl
  · rw [if_neg hi, if_neg hi,
      run_then_eq (standard_board_rows_run_eq g _ (to_int_rows_le g.height))]
    split_ifs <;> rfl

theorem multiple_digits_field_run_eq (g : gamma_t) (digits j i : Nat) (hj : j < g.width)
    (hi : i < g.height) :
    multiple_digits_field_run digits j i g
      = (multiple_digits_field g digits j i).map (fun text => (text, g)) := by
  unfold multiple_digits_field_run multiple_digits_field
  rw [run_then_eq (read_board_eq g j i hj hi)]
  by_cases h : g.board j i ≠ 0
  · rw [if_pos h, if_pos h, run_then_eq (read_board_eq g j i hj hi)]
    dsimp only
    rw [run_then_eq (read_board_eq g j i hj hi)]
    split_ifs <;> rfl
  · rw [if_neg h, if_neg h]
    rfl

theorem multiple_digits_row_run_eq (g : gamma_t) (digits i : Nat) (hi : i < g.height) :
    ∀ j, j ≤ g.width →
      multiple_digits_row_run digits i j g
        = (multiple_digits_row g digits i j).map (fun text => (text, g)) := by
  intro j
  induction j with
  | zero => intro _; rfl
  | succ j ih =>
    intro hj
    unfold multiple_digits_row_run multiple_digits_row
    have hrow := ih (by omega)
    have hfield := multiple_digits_field_run_eq g digits j i (by omega) hi
    cases hr : multiple_digits_row g digits i j with
    | none =>
      rw [hr] at hrow
      rw [run_then_none hrow]
      rfl
    | some text =>
      rw [hr] at hrow
      rw [run_then_eq hrow]
      cases hf : multiple_digits_field g digits j i with
      | none =>
        rw [hf] at hfield
        rw [run_then_none hfield]
        rfl
      | some field =>
        rw [hf] at hfield
        rw [run_then_eq hfield]
        rfl

theorem multiple_digits_rows_run_eq (g : gamma_t) (digits : Nat) :
    ∀ n, n ≤ g.height →
      multiple_digits_rows_run digits g.width n g
        = (multiple_digits_rows g digits n).map (fun text => (text, g)) := by
  intro n
  induction n with
  | zero => intro _; rfl
  | succ n ih =>
    intro hn
    unfold multiple_digits_rows_run multiple_digits_rows
    have hrow := multiple_digits_row_run_eq g digits n (by omega) g.width (le_refl _)
    have hrest := ih (by omega)
    cases hr : multiple_digits_row g digits n g.width with
    | none =>
      rw [hr] at hrow
      rw [run_then_none hrow]
      rfl
    | some row =>
      rw [hr] at hrow
      rw [run_then_eq hrow]
      cases hf : multiple_digits_rows g digits n with
      | none =>
        rw [hf] at hrest
        rw [run_then_none hrest]
        rfl
      | some rest =>
        rw [hf] at hrest
        rw [run_then_eq hrest]
        rfl

theorem board_for_multiple_digits_players_run_eq (g : gamma_t) (digits : Nat) :
    board_for_multiple_digits_players_run digits g
      = (board_for_multiple_digits_players g digits).map (fun text => (text, g)) := by
  unfold board_for_multiple_digits_players_run board_for_multiple_digits_players
    multiple_digits_memory_amount
  rw [run_then_eq (rfl : read_member gamma_t.width g = some (g.width, g)),
    run_then_eq (rfl : read_member gamma_t.height g = some (g.height, g))]
  dsimp only
  by_cases hi : to_int g.height - 1 < -2147483648
  · rw [if_pos hi, if_pos hi]
    rfl
  · rw [if_neg hi, if_neg hi]
    have hrows := multiple_digits_rows_run_eq g digits _ (to_int_rows_le g.height)
    cases hr : multiple_digits_rows g digits (to_int g.height - 1 + 1).toNat with
    | none =>
      rw [hr] at hrows
      rw [run_then_none hrows]
      rfl
    | some text =>
      rw [hr] at hrows
      rw [run_then_eq hrows]
      dsimp only
      split_ifs <;> rfl

/-- The function `gamma_board`, when its behaviour is defined, returns the text
of `gamma_board` above and leaves the state as it is; its behaviour is
undefined exactly when `gamma_board` above is `none`. -/
theorem gamma_board_run_eq (g : gamma_t) :
    gamma_board_run g = (gamma_board g).map (fun text => (text, g)) := by
  unfold gamma_board_run gamma_board
  rw [run_then_eq (rfl : read_member gamma_t.players g = some (g.players, g))]
  dsimp only
  by_cases h : number_of_digits g.players = 1
  · rw [if_pos h, if_pos h]
    exact standard_board_run_eq g
  · rw [if_neg h, if_neg h]
    exact board_for_multiple_digits_players_run_eq g _

/-! ## The size of the board and the number of players stay -/

/-- The state after a call of a function that asks about the game: the state
before the call, when the function returns. -/
theorem state_after_asked (s : gamma_t) :
    (∀ player, state_after s (.busy_fields player) = some s)
      ∧ (∀ player, state_after s (.free_fields player) = some s)
      ∧ (∀ player, state_after s (.golden_possible player)
          = (gamma_golden_possible s player).map (fun _ => s))
      ∧ state_after s .board = (gamma_board s).map (fun _ => s)
      ∧ state_after s .players = some s
      ∧ state_after s .width = some s
      ∧ state_after s .height = some s := by
  refine ⟨fun player => ?_, fun player => ?_, fun player => ?_, ?_, rfl, rfl, rfl⟩
  · show (gamma_busy_fields_run player s).map (fun r => r.2) = some s
    rw [gamma_busy_fields_run_eq]
    rfl
  · show (gamma_free_fields_run player s).map (fun r => r.2) = some s
    rw [gamma_free_fields_run_eq]
    rfl
  · show (gamma_golden_possible_run player s).map (fun r => r.2) = _
    rw [gamma_golden_possible_run_eq]
    cases gamma_golden_possible s player <;> rfl
  · show (gamma_board_run s).map (fun r => r.2) = _
    rw [gamma_board_run_eq]
    cases gamma_board s <;> rfl

/-- The state after a call that is not a move, when the call returns, is the
state before the call. -/
theorem state_after_query (s s' : gamma_t) (call : call_t)
    (hmove : ∀ player x y, call ≠ .move player x y)
    (hgolden : ∀ player x y, call ≠ .golden_move player x y)
    (h : state_after s call = some s') : s' = s := by
  obtain ⟨hbusy, hfree, hpossible, hboard, hplayers, hwidth, hheight⟩ := state_after_asked s
  cases call with
  | move player x y => exact absurd rfl (hmove player x y)
  | golden_move player x y => exact absurd rfl (hgolden player x y)
  | busy_fields player =>
    rw [hbusy] at h
    exact (Option.some.inj h).symm
  | free_fields player =>
    rw [hfree] at h
    exact (Option.some.inj h).symm
  | golden_possible player =>
    rw [hpossible, Option.map_eq_some'] at h
    obtain ⟨_, _, h⟩ := h
    exact h.symm
  | board =>
    rw [hboard, Option.map_eq_some'] at h
    obtain ⟨_, _, h⟩ := h
    exact h.symm
  | players =>
    rw [hplayers] at h
    exact (Option.some.inj h).symm
  | width =>
    rw [hwidth] at h
    exact (Option.some.inj h).symm
  | height =>
    rw [hheight] at h
    exact (Option.some.inj h).symm

/-- A call that returns leaves a state of a game, with the size of the board,
the number of players and the limit of areas it had. -/
theorem state_after_frame (g g' : gamma_t) (call : call_t)
    (h : state_after g call = some g') :
    (reachable g → reachable g')
      ∧ g'.width = g.width ∧ g'.height = g.height ∧ g'.players = g.players
      ∧ g'.max_areas = g.max_areas := by
  have hquery : (∀ player x y, call ≠ .move player x y) →
      (∀ player x y, call ≠ .golden_move player x y) →
      (reachable g → reachable g')
        ∧ g'.width = g.width ∧ g'.height = g.height ∧ g'.players = g.players
        ∧ g'.max_areas = g.max_areas := by
    intro hmove hgolden
    rw [state_after_query g g' call hmove hgolden h]
    exact ⟨fun hr => hr, rfl, rfl, rfl, rfl⟩
  cases call with
  | move player x y =>
    rw [← Option.some.inj h]
    exact ⟨fun hr => reachable.move g player x y hr, gamma_move_frame g player x y⟩
  | golden_move player x y =>
    rw [← Option.some.inj h]
    exact ⟨fun hr => reachable.golden_move g player x y hr, gamma_golden_move_frame g player x y⟩
  | busy_fields player => exact hquery (fun _ _ _ => by simp) (fun _ _ _ => by simp)
  | free_fields player => exact hquery (fun _ _ _ => by simp) (fun _ _ _ => by simp)
  | golden_possible player => exact hquery (fun _ _ _ => by simp) (fun _ _ _ => by simp)
  | board => exact hquery (fun _ _ _ => by simp) (fun _ _ _ => by simp)
  | players => exact hquery (fun _ _ _ => by simp) (fun _ _ _ => by simp)
  | width => exact hquery (fun _ _ _ => by simp) (fun _ _ _ => by simp)
  | height => exact hquery (fun _ _ _ => by simp) (fun _ _ _ => by simp)

/-- A sequence of calls that all return leaves a state of a game, with the size
of the board, the number of players and the limit of areas it had. -/
theorem state_after_calls_frame (calls : List call_t) :
    ∀ g g', state_after_calls g calls = some g' →
      (reachable g → reachable g')
        ∧ g'.width = g.width ∧ g'.height = g.height ∧ g'.players = g.players
        ∧ g'.max_areas = g.max_areas := by
  induction calls with
  | nil =>
    intro g g' h
    rw [← Option.some.inj h]
    exact ⟨fun hr => hr, rfl, rfl, rfl, rfl⟩
  | cons call calls ih =>
    intro g g' h
    simp only [state_after_calls, Option.bind_eq_some] at h
    obtain ⟨g1, h1, h2⟩ := h
    have hf := state_after_frame g g1 call h1
    have hr := ih g1 g' h2
    exact ⟨fun hg => hr.1 (hf.1 hg), hr.2.1.trans hf.2.1, hr.2.2.1.trans hf.2.2.1,
      hr.2.2.2.1.trans hf.2.2.2.1, hr.2.2.2.2.trans hf.2.2.2.2⟩

/-- In a state of a game of at most `2^32 - 1` players `gamma_golden_possible`
returns. -/
theorem gamma_golden_possible_returns (g : gamma_t) (h : reachable g)
    (hu : g.players ≤ UINT32_MAX) (player : Nat) :
    ∃ b, gamma_golden_possible g player = some b := by
  by_cases hp : player > g.players ∨ player ≤ 0
  · refine ⟨false, ?_⟩
    unfold gamma_golden_possible
    rw [if_pos hp]
  · obtain ⟨b, hb, _⟩ := gamma_golden_possible_spec g h hu player (by omega) (by omega)
    exact ⟨b, hb⟩

theorem game_2_columns_new : gamma_new 2 1431655766 1 1 = some game_2_columns := by rfl

/-- For the game made by `gamma_new(2, 1431655766, 1, 1)` the array of
`standard_board` has 3 characters and the text does not fit: `gamma_board` has
no defined result. -/
theorem gamma_board_2_columns : gamma_board game_2_columns = none := by
  have hd : number_of_digits game_2_columns.players = 1 := by decide
  have hrows := to_int_rows game_2_columns.height (by decide)
  unfold gamma_board
  dsimp only
  rw [if_pos hd]
  unfold standard_board
  dsimp only
  rw [if_neg hrows.1, hrows.2, standard_board_rows_length, if_neg (by decide)]

/-- The functions that ask about a game, run on the games of the examples: the
values they return, and the state they leave. -/
theorem asking_examples :
    (gamma_busy_fields_run 1 game_5_1_played).map (fun r => r.1) = some 2
      ∧ (gamma_free_fields_run 1 game_5_1_played).map (fun r => r.1) = some 2
      ∧ (gamma_golden_possible_run 1 game_4_4_played).map (fun r => r.1) = some true
      ∧ (gamma_board_run game_4_4_played).map (fun r => r.1)
          = some (String.toList "....\n....\n.12.\n....\n")
      ∧ (gamma_board_run game_2_1_ten_played).map (fun r => r.1)
          = some (String.toList "7  10 \n")
      ∧ (gamma_board_run game_2_1_ten_played).map (fun r => (r.2.width, r.2.board 1 0))
          = some (2, 10)
      ∧ (gamma_width_run game_4_4_played).map (fun r => r.1) = some 4 := by
  decide

/-- C27: after any sequence of calls of `gamma_move`, `gamma_golden_move`,
`gamma_busy_fields`, `gamma_free_fields`, `gamma_golden_possible`,
`gamma_board`, `gamma_players`, `gamma_width` and `gamma_height` that all
return, on a game made by `gamma_new`, the functions `gamma_players`,
`gamma_width` and `gamma_height` return the arguments of `gamma_new` and
`max_areas` is its last argument; there `gamma_busy_fields` and
`gamma_free_fields` return and leave the state as it is, so does
`gamma_golden_possible` for at most `2^32 - 1` players, and so does
`gamma_board`, with the text of the board, when there are fewer than `10^9`
players and the text fits the `int` counter `k`.  In every state, each of
these functions leaves the state as it is when it returns, `gamma_busy_fields`
and `gamma_free_fields` always return, and `gamma_board` returns exactly when
its behaviour is defined.  For the game made by `gamma_new(2, 1431655766, 1, 1)`
it is not: `gamma_board` writes outside its array of 3 characters, and there is
no defined state after the call. -/
theorem dimensions_fixed :
    (∀ (width height players areas : Nat) (g g' : gamma_t) (calls : List call_t),
      gamma_new width height players areas = some g →
      state_after_calls g calls = some g' →
        gamma_players_run g' = some (players, g')
          ∧ gamma_width_run g' = some (width, g')
          ∧ gamma_height_run g' = some (height, g')
          ∧ g'.max_areas = areas
          ∧ (∀ player, gamma_busy_fields_run player g' = some (gamma_busy_fields g' player, g')
              ∧ gamma_free_fields_run player g' = some (gamma_free_fields g' player, g'))
          ∧ (players ≤ UINT32_MAX →
              ∀ player, ∃ b, gamma_golden_possible_run player g' = some (b, g'))
          ∧ (players < 1000000000 → (column_width g' * width + 1) * height ≤ INT_MAX →
              gamma_board_run g' = some (board_text g', g')))
      ∧ (∀ (s : gamma_t) (player : Nat),
          gamma_busy_fields_run player s = some (gamma_busy_fields s player, s)
            ∧ gamma_free_fields_run player s = some (gamma_free_fields s player, s)
            ∧ gamma_golden_possible_run player s
              = (gamma_golden_possible s player).map (fun b => (b, s))
            ∧ gamma_board_run s = (gamma_board s).map (fun text => (text, s)))
      ∧ (∀ (s s' : gamma_t) (call : call_t),
          (∀ player x y, call ≠ .move player x y) →
          (∀ player x y, call ≠ .golden_move player x y) →
          state_after s call = some s' → s' = s)
      ∧ (gamma_new 2 1431655766 1 1 = some game_2_columns
          ∧ gamma_board_run game_2_columns = none
          ∧ state_after game_2_columns .board = none) := by
  refine ⟨?_, ?_, fun s s' call hmove hgolden h => state_after_query s s' call hmove hgolden h,
    game_2_columns_new, ?_, ?_⟩
  · intro width height players areas g g' calls hnew hcalls
    have hf := state_after_calls_frame calls g g' hcalls
    have hreach : reachable g' := hf.1 (reachable.new width height players areas g hnew)
    have hinv := reachable_inv g' hreach
    rw [gamma_new_state width height players areas g hnew] at hf
    obtain ⟨_, hw, hh, hp, ha⟩ := hf
    dsimp only at hw hh hp ha
    refine ⟨?_, ?_, ?_, ha, fun player => ⟨gamma_busy_fields_run_eq g' player,
      gamma_free_fields_run_eq g' player⟩, ?_, ?_⟩
    · show some (g'.players, g') = some (players, g')
      rw [hp]
    · show some (g'.width, g') = some (width, g')
      rw [hw]
    · show some (g'.height, g') = some (height, g')
      rw [hh]
    · intro hu player
      obtain ⟨b, hb⟩ := gamma_golden_possible_returns g' hreach (by rw [hp]; exact hu) player
      exact ⟨b, by rw [gamma_golden_possible_run_eq, hb]; rfl⟩
    · intro hmax hsize
      rw [gamma_board_run_eq, gamma_board_text g' hinv.width_pos hinv.height_pos
        (fun x y hx hy => hinv.owners { x := x, y := y } ⟨hx, hy⟩) (by rw [hp]; exact hmax)
        (by rw [hw, hh]; exact hsize)]
      rfl
  · intro s player
    exact ⟨gamma_busy_fields_run_eq s player, gamma_free_fields_run_eq s player,
      gamma_golden_possible_run_eq s player, gamma_board_run_eq s⟩
  · rw [gamma_board_run_eq, gamma_board_2_columns]
    rfl
  · rw [(state_after_asked game_2_columns).2.2.2.1, gamma_board_2_columns]
    rfl

/-- The game of 16 fields after a move, the text of the board, another move
and three more questions: the functions return the arguments of `gamma_new`,
and the text of the board is made with the state left as it is. -/
theorem dimensions_fixed_witness :
    gamma_new 4 4 2 2 = some game_4_4
      ∧ state_after_calls game_4_4
          [.move 1 1 1, .board, .move 2 2 1, .golden_possible 1, .free_fields 2, .width]
        = some game_4_4_played
      ∧ gamma_players_run game_4_4_played = some (2, game_4_4_played)
      ∧ gamma_width_run game_4_4_played = some (4, game_4_4_played)
      ∧ gamma_height_run game_4_4_played = some (4, game_4_4_played)
      ∧ game_4_4_played.max_areas = 2
      ∧ gamma_board_run game_4_4_played = some (board_text game_4_4_played, game_4_4_played)
      ∧ board_text game_4_4_played = String.toList "....\n....\n.12.\n....\n" :=
  ⟨game_4_4_new, by rfl,
    (dimensions_fixed.1 4 4 2 2 game_4_4 game_4_4_played
      [.move 1 1 1, .board, .move 2 2 1, .golden_possible 1, .free_fields 2, .width]
      game_4_4_new (by rfl)).1,
    (dimensions_fixed.1 4 4 2 2 game_4_4 game_4_4_played
      [.move 1 1 1, .board, .move 2 2 1, .golden_possible 1, .free_fields 2, .width]
      game_4_4_new (by rfl)).2.1,
    (dimensions_fixed.1 4 4 2 2 game_4_4 game_4_4_played
      [.move 1 1 1, .board, .move 2 2 1, .golden_possible 1, .free_fields 2, .width]
      game_4_4_new (by rfl)).2.2.1,
    (dimensions_fixed.1 4 4 2 2 game_4_4 game_4_4_played
      [.move 1 1 1, .board, .move 2 2 1, .golden_possible 1, .free_fields 2, .width]
      game_4_4_new (by rfl)).2.2.2.1,
    (dimensions_fixed.1 4 4 2 2 game_4_4 game_4_4_played
      [.move 1 1 1, .board, .move 2 2 1, .golden_possible 1, .free_fields 2, .width]
      game_4_4_new (by rfl)).2.2.2.2.2.2 (by decide) (by decide),
    by decide⟩

end Gamma
